import Mathlib

/-!
# The k-ary indexed min-heap and Dijkstra driver of `k-heap_dijkstra.cpp`

A shallow embedding of `class k_heap` and of `dijkstra` together with the
properties proved about them.

Modelling conventions.

* Every C++ `int` is a Lean `Int`.  The sum of distances `dv + dvu` goes
  through `int_add`, which reduces it into `[-2^31, 2^31)`, and the index
  `k * i + j + 1` computed by `child` goes through `int_wrap`, which does the
  same: both are the 32-bit two's complement arithmetic of the code.  The
  index `(i - 1) / k` of `parent` is taken for `i > 0` only, where it cannot
  leave the range of `int`.  Theorems that follow `heapify_down` assume that
  the child indices of the occupied slots fit into an `int`
  (`k * (current_size - 1) < INT_MAX` for a heap, `k * n < INT_MAX` for a
  run on `n` vertices).
* The raw arrays `heap_arr`, `positions` and the vector `dist` are total maps
  `Int → Int`; an assignment `a[i] = x` is `Function.update a i x`.  The
  functions of the model do not check an access against the array bounds:
  they agree with the code on every call all of whose accesses lie in
  `0 .. capacity-1`, and say nothing about the code otherwise.  The
  predicates `…_in_bounds` list, method by method, the indices that a call
  uses and require them to lie within the arrays; the theorems on the heap
  methods and on the runs of `dijkstra` establish them, and a call that
  violates them has no defined result in the code.  The indeterminate
  contents of `new int[capacity]` are a parameter `mem`; the constructor
  throws `std::bad_array_new_length` for a negative capacity.
* A thrown exception is an `Except.error`.
* The recursive `heapify_up` / `heapify_down` recurse structurally on a
  counter that starts at a bound for the recursion depth (`i`, respectively
  `current_size - i`); `heapify_up_unfold` and `heapify_down_unfold` show that
  the counter never cuts the recursion short.  The `while` loop of `dijkstra`
  takes an explicit iteration budget and answers `none` when it is used up.
* The instrumented twin `k-heap_dijkstra_counters.cpp` is embedded a second
  time, in the namespace `counters`: the global `counter` is an explicit
  argument and result of every method, `current_operation` is a field of the
  heap, and an exception carries the object and the counter it leaves behind.
* For the properties of the states passed through during a run, `dijkstra` is
  also given step by step (`dijkstra_step` on the control points
  `dijkstra_config`, with the heap call made by each step, `step_event`);
  `relax_by_event` and `loop_reaches` relate the steps to `relax` and to the
  `while` loop.
-/

/-- The exceptions thrown by `k_heap`. -/
inductive HeapError where
  | invalid_argument
  | out_of_range
  | runtime_error
  | bad_array_new_length
deriving DecidableEq

instance : DecidableEq (Except HeapError Int)
  | .ok a, .ok b =>
    if h : a = b then isTrue (by rw [h]) else isFalse (fun e => h (by cases e; rfl))
  | .error a, .error b =>
    if h : a = b then isTrue (by rw [h]) else isFalse (fun e => h (by cases e; rfl))
  | .ok _, .error _ => isFalse (fun e => by cases e)
  | .error _, .ok _ => isFalse (fun e => by cases e)

/-- The constant `std::numeric_limits<int>::max()`. -/
def INT_MAX : Int := 2147483647

/-- Signed 32-bit addition (two's complement). -/
def int_add (a b : Int) : Int := (a + b + 2147483648) % 4294967296 - 2147483648

/-- The `int` that a signed 32-bit computation yields for the integer `x` (two's complement):
`x` itself when it lies in `[-2^31, 2^31)`, and otherwise the number of that range that
differs from `x` by a multiple of `2^32`.  The definition goes by cases on the sign and the
magnitude of `x`, so that `x` is evaluated once. -/
def int_wrap : Int → Int
  | Int.ofNat 0 => 0
  | Int.ofNat (n + 1) =>
    if n < 2147483647 then Int.ofNat (n + 1)
    else (Int.ofNat (n + 1) + 2147483648) % 4294967296 - 2147483648
  | Int.negSucc 0 => -1
  | Int.negSucc (n + 1) =>
    if n < 2147483647 then Int.negSucc (n + 1)
    else (Int.negSucc (n + 1) + 2147483648) % 4294967296 - 2147483648

/-- State of a `k_heap` object. -/
structure k_heap where
  heap_arr : Int → Int
  positions : Int → Int
  dist : Int → Int
  capacity : Int
  current_size : Int
  k : Int

namespace k_heap

/-- Method `k_heap::swap`. -/
def swap (h : k_heap) (i j : Int) : k_heap :=
  let temp := h.heap_arr i
  let a1 := Function.update h.heap_arr i (h.heap_arr j)
  let a2 := Function.update a1 j temp
  let p1 := Function.update h.positions (a2 i) i
  let p2 := Function.update p1 (a2 j) j
  { h with heap_arr := a2, positions := p2 }

/-- Method `k_heap::parent`: C++ integer division truncates toward zero. -/
def parent (h : k_heap) (i : Int) : Int := (i - 1).tdiv h.k

/-- Method `k_heap::child`: `k * i + j + 1` in signed 32-bit arithmetic.  Sums and products
that wrap around agree modulo `2^32` with the exact ones, so the result is the exact number
reduced once. -/
def child (h : k_heap) (i j : Int) : Int := int_wrap (h.k * i + j + 1)

/-- Method `k_heap::is_leaf`. -/
def is_leaf (h : k_heap) (i : Int) : Bool := decide (h.child i 0 ≥ h.current_size)

/-- Method `k_heap::key`. -/
def key (h : k_heap) (i : Int) : Int := h.dist (h.heap_arr i)

/-- Method `k_heap::root`. -/
def root (i : Int) : Bool := decide (i = 0)

/-- Method `k_heap::heapify_up`, recursion bounded by a counter. -/
def heapify_up_fuel : Nat → k_heap → Int → k_heap
  | 0, h, _ => h
  | f + 1, h, i =>
    if root i then h
    else if h.key (h.parent i) > h.key i then
      heapify_up_fuel f (h.swap i (h.parent i)) (h.parent i)
    else h

/-- Method `k_heap::heapify_up`. -/
def heapify_up (h : k_heap) (i : Int) : k_heap := heapify_up_fuel i.toNat h i

/-- One pass of the body of the `for (j = 1; j < k; j++)` loop of `heapify_down`. -/
def child_step (h : k_heap) (i : Int) (smallest_child : Int) (j : Nat) : Int :=
  let child_idx := h.child i ((j : Int) + 1)
  if child_idx < h.current_size ∧ h.key child_idx < h.key smallest_child then child_idx
  else smallest_child

/-- The value of `smallest_child` after the `for` loop of `heapify_down`. -/
def smallest_child (h : k_heap) (i : Int) : Int :=
  (List.range (h.k - 1).toNat).foldl (child_step h i) (h.child i 0)

/-- Method `k_heap::heapify_down`, recursion bounded by a counter. -/
def heapify_down_fuel : Nat → k_heap → Int → k_heap
  | 0, h, _ => h
  | f + 1, h, i =>
    if h.is_leaf i then h
    else if h.key (h.smallest_child i) < h.key i then
      heapify_down_fuel f (h.swap i (h.smallest_child i)) (h.smallest_child i)
    else h

/-- Method `k_heap::heapify_down`. -/
def heapify_down (h : k_heap) (i : Int) : k_heap :=
  heapify_down_fuel (h.current_size - i).toNat h i

/-- The constructor `k_heap::k_heap(cap, k_value)`; `mem` is the indeterminate
content of the freshly allocated `heap_arr`.  The array form of `new` throws
`std::bad_array_new_length` when the length is negative. -/
def new (mem : Int → Int) (cap k_value : Int) : Except HeapError k_heap :=
  if k_value < 2 then .error .invalid_argument
  else if cap < 0 then .error .bad_array_new_length
  else .ok
    { heap_arr := mem
      positions := fun _ => -1
      dist := fun _ => INT_MAX
      capacity := cap
      current_size := 0
      k := k_value }

/-- Method `k_heap::insert`. -/
def insert (h : k_heap) (vertex : Int) : k_heap :=
  let h1 := { h with heap_arr := Function.update h.heap_arr h.current_size vertex }
  let h2 := { h1 with positions := Function.update h1.positions vertex h1.current_size }
  let h3 := h2.heapify_up h2.current_size
  { h3 with current_size := h3.current_size + 1 }

/-- The state of `deleteKey(i)` after the last slot has been moved into slot `i`,
the index has been updated and the size decremented, before the repair. -/
def moved_state (h : k_heap) (i : Int) : k_heap :=
  let vertex_to_remove := h.heap_arr i
  let a := Function.update h.heap_arr i (h.heap_arr (h.current_size - 1))
  let p1 := Function.update h.positions (a i) i
  let p2 := Function.update p1 vertex_to_remove (-1)
  { h with heap_arr := a, positions := p2, current_size := h.current_size - 1 }

/-- Method `k_heap::deleteKey`. -/
def deleteKey (h : k_heap) (i : Int) : Except HeapError k_heap :=
  if i ≥ h.current_size then .error .out_of_range
  else
    let h1 := h.moved_state i
    if i > 0 ∧ h1.key i < h1.key (h1.parent i) then .ok (h1.heapify_up i)
    else .ok (h1.heapify_down i)

/-- Method `k_heap::update`. -/
def update (h : k_heap) (vertex new_value : Int) : k_heap :=
  if h.positions vertex = -1 then
    insert { h with dist := Function.update h.dist vertex new_value } vertex
  else
    let old_value := h.dist vertex
    let h1 := { h with dist := Function.update h.dist vertex new_value }
    let i := h1.positions vertex
    if new_value < old_value then h1.heapify_up i
    else if new_value > old_value then h1.heapify_down i
    else h1

/-- Method `k_heap::deleteMin`. -/
def deleteMin (h : k_heap) : Except HeapError k_heap :=
  if h.current_size ≤ 0 then .error .runtime_error
  else h.deleteKey 0

/-- Method `k_heap::getMin`. -/
def getMin (h : k_heap) : Except HeapError Int :=
  if h.current_size ≤ 0 then .error .runtime_error
  else .ok (h.heap_arr 0)

/-- Method `k_heap::isEmpty`. -/
def isEmpty (h : k_heap) : Bool := decide (h.current_size = 0)

/-- Method `k_heap::size`. -/
def size (h : k_heap) : Int := h.current_size

/-- Method `k_heap::getDistance`. -/
def getDistance (h : k_heap) (vertex : Int) : Int := h.dist vertex

/-- Method `k_heap::setDistance`. -/
def setDistance (h : k_heap) (vertex distance : Int) : k_heap :=
  { h with dist := Function.update h.dist vertex distance }

/-- Method `k_heap::isInHeap`. -/
def isInHeap (h : k_heap) (vertex : Int) : Bool := decide (h.positions vertex ≠ -1)

end k_heap

/-- The adjacency list `std::vector<std::vector<std::pair<int,int>>>`. -/
abbrev graph := List (List (Int × Int))

/-- The edge list `graph[v]`. -/
def graph_at (g : graph) (v : Int) : List (Int × Int) := g.getD v.toNat []

/-- The local state of `dijkstra`: the heap `Q` and the vector `visited`. -/
structure dijkstra_state where
  Q : k_heap
  visited : Int → Bool

/-- The body of `for (const auto& edge : graph[v])` in `dijkstra`. -/
def relax (v : Int) (s : dijkstra_state) (edge : Int × Int) : dijkstra_state :=
  let u := edge.1
  let dvu := edge.2
  if !s.visited u then
    let dv := s.Q.getDistance v
    let du := s.Q.getDistance u
    if du = INT_MAX then
      { s with Q := (s.Q.setDistance u (int_add dv dvu)).insert u }
    else if int_add dv dvu < du then
      { s with Q := s.Q.update u (int_add dv dvu) }
    else s
  else s

/-- The `while (!Q.isEmpty())` loop of `dijkstra`, at most `fuel` evaluations of
the loop condition; `none` when the budget is used up before the loop ends.
Next to the returned value the result carries the local state at the return. -/
def dijkstra_loop (g : graph) (dest : Int) :
    Nat → dijkstra_state → Option (Except HeapError (Int × dijkstra_state))
  | 0, _ => none
  | fuel + 1, s =>
    if !s.Q.isEmpty then
      match s.Q.getMin with
      | .error e => some (.error e)
      | .ok v =>
        match s.Q.deleteMin with
        | .error e => some (.error e)
        | .ok Q1 =>
          let visited := Function.update s.visited v true
          if v = dest then some (.ok (Q1.getDistance v, ⟨Q1, visited⟩))
          else dijkstra_loop g dest fuel ((graph_at g v).foldl (relax v) ⟨Q1, visited⟩)
    else some (.ok (-1, s))

/-- The state of `dijkstra` on entry to the `while` loop. -/
def dijkstra_init (mem : Int → Int) (g : graph) (src k_value : Int) :
    Except HeapError dijkstra_state :=
  let n : Int := (g.length : Int) - 1
  match k_heap.new mem (n + 1) k_value with
  | .error e => .error e
  | .ok Q =>
    let Q1 := (List.range n.toNat).foldl
      (fun (Q : k_heap) (j : Nat) => Q.setDistance ((j : Int) + 1) INT_MAX) Q
    let Q2 := Q1.setDistance src 0
    .ok ⟨Q2.insert src, fun _ => false⟩

/-- The body of `dijkstra(graph, src, dest, k_value)`: the returned value and the
local state at the return. -/
def dijkstra_run (fuel : Nat) (mem : Int → Int) (g : graph) (src dest k_value : Int) :
    Option (Except HeapError (Int × dijkstra_state)) :=
  match dijkstra_init mem g src k_value with
  | .error e => some (.error e)
  | .ok s => dijkstra_loop g dest fuel s

/-- The value returned by `dijkstra(graph, src, dest, k_value)`. -/
def dijkstra (fuel : Nat) (mem : Int → Int) (g : graph) (src dest k_value : Int) :
    Option (Except HeapError Int) :=
  match dijkstra_run fuel mem g src dest k_value with
  | none => none
  | some (.error e) => some (.error e)
  | some (.ok (r, _)) => some (.ok r)

/-! ## Specification vocabulary -/

namespace k_heap

/-- Min-heap order on the slots `0 .. N-1`: every non-root slot carries a key that
is at least its parent's key. -/
def heap_upto (h : k_heap) (N : Int) : Prop :=
  ∀ i, 0 < i → i < N → h.key (h.parent i) ≤ h.key i

/-- The min-heap property of the occupied slots. -/
def heap_property (h : k_heap) : Prop := h.heap_upto h.current_size

/-- The arrays `heap_arr` and `positions` are mutually inverse on the slots
`0 .. N-1` and the vertices `0 .. capacity-1`. -/
def slots_consistent (h : k_heap) (N : Int) : Prop :=
  (∀ i, 0 ≤ i → i < N →
    (0 ≤ h.heap_arr i ∧ h.heap_arr i < h.capacity) ∧ h.positions (h.heap_arr i) = i) ∧
  (∀ v, 0 ≤ v → v < h.capacity → h.positions v ≠ -1 →
    (0 ≤ h.positions v ∧ h.positions v < N) ∧ h.heap_arr (h.positions v) = v)

/-- Index consistency of the occupied slots. -/
def index_consistent (h : k_heap) : Prop := h.slots_consistent h.current_size

/-- A heap state as the class maintains it: arity at least 2, a non-negative
size, the min-heap property and index consistency. -/
structure valid (h : k_heap) : Prop where
  arity : 2 ≤ h.k
  size_nonneg : 0 ≤ h.current_size
  heap : h.heap_property
  index : h.index_consistent

/-- Slot `a` is slot `p` or one of its ancestors in the `k`-ary tree. -/
inductive ancestor_or_self (h : k_heap) : Int → Int → Prop where
  | refl (p : Int) : ancestor_or_self h p p
  | step {a p : Int} : 0 < p → ancestor_or_self h a (h.parent p) → ancestor_or_self h a p

/-- Depth of slot `i` in the `k`-ary tree: the number of `parent` steps to the
root (counted with a bound that `i` itself provides). -/
def depth_fuel (h : k_heap) : Nat → Int → Nat
  | 0, _ => 0
  | f + 1, i => if i ≤ 0 then 0 else depth_fuel h f (h.parent i) + 1

/-- Depth of slot `i` in the `k`-ary tree. -/
def depth (h : k_heap) (i : Int) : Nat := h.depth_fuel i.toNat i

end k_heap

namespace k_heap

instance (h : k_heap) (N : Int) : Decidable (h.heap_upto N) := by
  unfold heap_upto; infer_instance

instance (h : k_heap) : Decidable h.heap_property := by
  unfold heap_property; infer_instance

instance (h : k_heap) (N : Int) : Decidable (h.slots_consistent N) := by
  unfold slots_consistent; infer_instance

instance (h : k_heap) : Decidable h.index_consistent := by
  unfold index_consistent; infer_instance

/-- The heap states reached from the freshly constructed heap `k_heap(cap, k_value)`
by the mutating operations, each called within its precondition. -/
inductive reachable_state (mem : Int → Int) (cap k_value : Int) : k_heap → Prop where
  | init {h : k_heap} : k_heap.new mem cap k_value = .ok h → reachable_state mem cap k_value h
  | insert {h : k_heap} (v : Int) : reachable_state mem cap k_value h →
      0 ≤ v → v < h.capacity → h.positions v = -1 → h.current_size < h.capacity →
      reachable_state mem cap k_value (h.insert v)
  | update {h : k_heap} (v d : Int) : reachable_state mem cap k_value h →
      0 ≤ v → v < h.capacity → reachable_state mem cap k_value (h.update v d)
  | deleteKey {h h' : k_heap} (i : Int) : reachable_state mem cap k_value h →
      0 ≤ i → i < h.current_size → h.deleteKey i = .ok h' →
      reachable_state mem cap k_value h'
  | deleteMin {h h' : k_heap} : reachable_state mem cap k_value h →
      0 < h.current_size → h.deleteMin = .ok h' → reachable_state mem cap k_value h'

/-- A binary heap holding the vertices 2, 1, 3 with distances 4, 7, 9. -/
def sample : k_heap :=
  { heap_arr := fun i => if i = 0 then 2 else if i = 1 then 1 else if i = 2 then 3 else 0
    positions := fun v => if v = 2 then 0 else if v = 1 then 1 else if v = 3 then 2 else -1
    dist := fun v => if v = 1 then 7 else if v = 2 then 4 else if v = 3 then 9 else INT_MAX
    capacity := 5
    current_size := 3
    k := 2 }

end k_heap

/-- Vertex `a` has an outgoing edge to `b` of weight `w`. -/
def is_edge (g : graph) (a b w : Int) : Prop := 0 ≤ a ∧ (b, w) ∈ graph_at g a

/-- A directed path from `src`: `path g src v vs w` says that the vertices `vs`
(last vertex first) form a path from `src` to `v` of total weight `w`. -/
inductive path (g : graph) (src : Int) : Int → List Int → Int → Prop where
  | nil : path g src src [src] 0
  | snoc {v u c w : Int} {vs : List Int} :
      path g src v vs w → is_edge g v u c → path g src u (u :: vs) (w + c)

/-- Vertex `dest` is reachable from `src` by a directed path. -/
def reachable (g : graph) (src dest : Int) : Prop := ∃ vs w, path g src dest vs w

/-- The integer `r` is the minimum total weight of a directed path from `src` to `dest`. -/
def is_shortest (g : graph) (src dest r : Int) : Prop :=
  (∃ vs, path g src dest vs r) ∧ ∀ vs w, path g src dest vs w → r ≤ w

/-- The graph is a graph on the vertices `1 .. n` (`n = g.length - 1`): every edge
target lies in `[1, n]`. -/
def targets_in_range (g : graph) : Prop :=
  ∀ row ∈ g, ∀ e ∈ row, 1 ≤ e.1 ∧ e.1 ≤ (g.length : Int) - 1

/-- All edge weights are non-negative. -/
def nonneg_weights (g : graph) : Prop :=
  ∀ row ∈ g, ∀ e ∈ row, 0 ≤ e.2

/-- Path sums from `src` stay below the sentinel: every simple path from `src`
has total weight below `INT_MAX`. -/
def sums_below_sentinel (g : graph) (src : Int) : Prop :=
  ∀ v vs w, path g src v vs w → vs.Nodup → w < INT_MAX

/-- The invariant of `dijkstra`.  `R x u c` singles out the edges `x → u` of
weight `c` that have been relaxed: all edges of the visited vertices between two
iterations of the `while` loop, and all but the not yet examined edges of the
extracted vertex inside the `for` loop. -/
structure dijkstra_inv (g : graph) (src : Int) (R : Int → Int → Int → Prop)
    (s : dijkstra_state) : Prop where
  heap_valid : s.Q.valid
  cap : s.Q.capacity = (g.length : Int)
  src_dist : s.Q.dist src = 0
  in_heap : ∀ u, 0 ≤ u → u < (g.length : Int) →
    (s.Q.positions u ≠ -1 ↔ (s.visited u = false ∧ s.Q.dist u ≠ INT_MAX))
  visited_dist : ∀ x, s.visited x = true → s.Q.dist x ≠ INT_MAX
  tree : ∀ u, s.Q.dist u ≠ INT_MAX →
    ∃ vs, path g src u vs (s.Q.dist u) ∧ vs.Nodup ∧ ∀ x ∈ vs, x ≠ u → s.visited x = true
  final : ∀ x, s.visited x = true → ∀ vs w, path g src x vs w → s.Q.dist x ≤ w
  relaxed : ∀ x, s.visited x = true → ∀ u c, is_edge g x u c → R x u c →
    s.visited u = false → s.Q.dist u ≠ INT_MAX ∧ s.Q.dist u ≤ s.Q.dist x + c
  fit : s.Q.k * (s.Q.capacity - 1) < INT_MAX

/-- The number of vertices in `1 .. n` that have not been extracted yet. -/
def unvisited_count (g : graph) (s : dijkstra_state) : Nat :=
  ((Finset.range (g.length - 1)).filter (fun i : Nat => s.visited ((i : Int) + 1) = false)).card

/-- The 4-vertex graph with the edges (1→2,1), (1→3,4), (2→3,2), (2→4,7), (3→4,3). -/
def sample_graph : graph := [[], [(2, 1), (3, 4)], [(3, 2), (4, 7)], [(4, 3)], []]

/-- A 4-vertex chain 1 → 2 → 3 → 4 with the weights `INT_MAX`, `INT_MAX`, 1. -/
def overflow_graph : graph := [[], [(2, 2147483647)], [(3, 2147483647)], [(4, 1)], []]

/-- A 5-vertex graph in which the path 1 → 2 has weight exactly `INT_MAX`, while
1 → 5 → 2 → 4 has weight 0. -/
def sentinel_graph : graph :=
  [[], [(5, 0), (4, 3), (3, 2147483647), (2, 2147483647)], [(4, 0)], [], [], [(2, 0)]]

/-! ## The instrumented twin `k-heap_dijkstra_counters.cpp`

The second source file repeats the first with operation counters.  The global
`counter` is threaded through every method as an explicit argument; a thrown
exception carries the heap object and the counter as they stand when it is
thrown. -/

/-- State of the global `struct OperationCounter`. -/
structure OperationCounter where
  heapify_up_calls : Int
  heapify_down_calls : Int
  insert_calls : Int
  deleteMin_calls : Int
  update_calls : Int
  insert_heapify_up : Int
  deleteMin_heapify_up : Int
  deleteMin_heapify_down : Int
  update_heapify_up : Int
  update_heapify_down : Int
  k_value : Int
  max_heap_size : Int
  distance : Int
deriving DecidableEq

/-- The `enum Operation` of the instrumented heap. -/
inductive Operation where
  | NONE
  | INSERT
  | DELETE_MIN
  | UPDATE
deriving DecidableEq

namespace counters

/-- Initial value of the global `counter` (the default member initialisers). -/
def counter : OperationCounter :=
  { heapify_up_calls := 0
    heapify_down_calls := 0
    insert_calls := 0
    deleteMin_calls := 0
    update_calls := 0
    insert_heapify_up := 0
    deleteMin_heapify_up := 0
    deleteMin_heapify_down := 0
    update_heapify_up := 0
    update_heapify_down := 0
    k_value := 2
    max_heap_size := 0
    distance := -1 }

/-- State of an instrumented `k_heap` object. -/
structure k_heap where
  heap_arr : Int → Int
  positions : Int → Int
  dist : Int → Int
  capacity : Int
  current_size : Int
  k : Int
  current_operation : Operation

/-- An exception together with the heap object and the global counter it leaves behind. -/
abbrev thrown := HeapError × k_heap × OperationCounter

namespace k_heap

/-- Method `k_heap::swap` of the instrumented heap. -/
def swap (h : k_heap) (i j : Int) : k_heap :=
  let temp := h.heap_arr i
  let a1 := Function.update h.heap_arr i (h.heap_arr j)
  let a2 := Function.update a1 j temp
  let p1 := Function.update h.positions (a2 i) i
  let p2 := Function.update p1 (a2 j) j
  { h with heap_arr := a2, positions := p2 }

/-- Method `k_heap::parent` of the instrumented heap. -/
def parent (h : k_heap) (i : Int) : Int := (i - 1).tdiv h.k

/-- Method `k_heap::child` of the instrumented heap. -/
def child (h : k_heap) (i j : Int) : Int := int_wrap (h.k * i + j + 1)

/-- Method `k_heap::is_leaf` of the instrumented heap. -/
def is_leaf (h : k_heap) (i : Int) : Bool := decide (h.child i 0 ≥ h.current_size)

/-- Method `k_heap::key` of the instrumented heap. -/
def key (h : k_heap) (i : Int) : Int := h.dist (h.heap_arr i)

/-- Method `k_heap::root` of the instrumented heap. -/
def root (i : Int) : Bool := decide (i = 0)

/-- The counting prologue of `heapify_up`: the total and the `switch` on
`current_operation`. -/
def heapify_up_count (h : k_heap) (c : OperationCounter) : OperationCounter :=
  let c1 := { c with heapify_up_calls := c.heapify_up_calls + 1 }
  match h.current_operation with
  | .INSERT => { c1 with insert_heapify_up := c1.insert_heapify_up + 1 }
  | .DELETE_MIN => { c1 with deleteMin_heapify_up := c1.deleteMin_heapify_up + 1 }
  | .UPDATE => { c1 with update_heapify_up := c1.update_heapify_up + 1 }
  | .NONE => c1

/-- Method `k_heap::heapify_up` of the instrumented heap, recursing on a counter;
a call at the root counts itself and returns. -/
def heapify_up_fuel : Nat → k_heap → OperationCounter → Int → k_heap × OperationCounter
  | 0, h, c, _ => (h, h.heapify_up_count c)
  | fuel + 1, h, c, i =>
    let c1 := h.heapify_up_count c
    if root i then (h, c1)
    else if h.key (h.parent i) > h.key i then
      heapify_up_fuel fuel (h.swap i (h.parent i)) c1 (h.parent i)
    else (h, c1)

/-- Method `k_heap::heapify_up` of the instrumented heap. -/
def heapify_up (h : k_heap) (c : OperationCounter) (i : Int) : k_heap × OperationCounter :=
  heapify_up_fuel i.toNat h c i

/-- The counting prologue of `heapify_down`. -/
def heapify_down_count (h : k_heap) (c : OperationCounter) : OperationCounter :=
  let c1 := { c with heapify_down_calls := c.heapify_down_calls + 1 }
  match h.current_operation with
  | .DELETE_MIN => { c1 with deleteMin_heapify_down := c1.deleteMin_heapify_down + 1 }
  | .UPDATE => { c1 with update_heapify_down := c1.update_heapify_down + 1 }
  | _ => c1

/-- One round of the `for` loop of the instrumented `heapify_down`. -/
def child_step (h : k_heap) (i : Int) (smallest_child : Int) (j : Nat) : Int :=
  let child_idx := h.child i ((j : Int) + 1)
  if child_idx < h.current_size ∧ h.key child_idx < h.key smallest_child then child_idx
  else smallest_child

/-- The `for` loop of the instrumented `heapify_down`. -/
def smallest_child (h : k_heap) (i : Int) : Int :=
  (List.range (h.k - 1).toNat).foldl (child_step h i) (h.child i 0)

/-- Method `k_heap::heapify_down` of the instrumented heap, recursing on a counter;
a call at a leaf counts itself and returns. -/
def heapify_down_fuel : Nat → k_heap → OperationCounter → Int → k_heap × OperationCounter
  | 0, h, c, _ => (h, h.heapify_down_count c)
  | fuel + 1, h, c, i =>
    let c1 := h.heapify_down_count c
    if h.is_leaf i then (h, c1)
    else if h.key (h.smallest_child i) < h.key i then
      heapify_down_fuel fuel (h.swap i (h.smallest_child i)) c1 (h.smallest_child i)
    else (h, c1)

/-- Method `k_heap::heapify_down` of the instrumented heap. -/
def heapify_down (h : k_heap) (c : OperationCounter) (i : Int) : k_heap × OperationCounter :=
  heapify_down_fuel (h.current_size - i).toNat h c i

end k_heap

end counters

namespace counters

namespace k_heap

/-- The constructor of the instrumented heap; it also records `k_value` in the counter. -/
def new (mem : Int → Int) (cap k_value : Int) (c : OperationCounter) :
    Except (HeapError × OperationCounter) (k_heap × OperationCounter) :=
  if k_value < 2 then .error (.invalid_argument, c)
  else if cap < 0 then .error (.bad_array_new_length, c)
  else .ok
    ({ heap_arr := mem
       positions := fun _ => -1
       dist := fun _ => INT_MAX
       capacity := cap
       current_size := 0
       k := k_value
       current_operation := .NONE },
     { c with k_value := k_value })

/-- Method `k_heap::insert` of the instrumented heap. -/
def insert (h : k_heap) (c : OperationCounter) (vertex : Int) : k_heap × OperationCounter :=
  let c1 := { c with insert_calls := c.insert_calls + 1 }
  let prev_op := h.current_operation
  let h0 := { h with current_operation := .INSERT }
  let h1 := { h0 with heap_arr := Function.update h0.heap_arr h0.current_size vertex }
  let h2 := { h1 with positions := Function.update h1.positions vertex h1.current_size }
  let r := h2.heapify_up c1 h2.current_size
  let h3 : k_heap := { r.1 with current_size := r.1.current_size + 1 }
  let c3 : OperationCounter := if h3.current_size > r.2.max_heap_size then
    { r.2 with max_heap_size := h3.current_size } else r.2
  ({ h3 with current_operation := prev_op }, c3)

/-- The assignments of the instrumented `deleteKey` before the heap order is repaired. -/
def moved_state (h : k_heap) (i : Int) : k_heap :=
  let vertex_to_remove := h.heap_arr i
  let a := Function.update h.heap_arr i (h.heap_arr (h.current_size - 1))
  let p1 := Function.update h.positions (a i) i
  let p2 := Function.update p1 vertex_to_remove (-1)
  { h with heap_arr := a, positions := p2, current_size := h.current_size - 1 }

/-- Method `k_heap::deleteKey` of the instrumented heap. -/
def deleteKey (h : k_heap) (c : OperationCounter) (i : Int) :
    Except thrown (k_heap × OperationCounter) :=
  if i ≥ h.current_size then .error (.out_of_range, h, c)
  else
    let h1 := h.moved_state i
    if i > 0 ∧ h1.key i < h1.key (h1.parent i) then .ok (h1.heapify_up c i)
    else .ok (h1.heapify_down c i)

/-- Method `k_heap::update` of the instrumented heap. -/
def update (h : k_heap) (c : OperationCounter) (vertex new_value : Int) :
    k_heap × OperationCounter :=
  let c1 := { c with update_calls := c.update_calls + 1 }
  let prev_op := h.current_operation
  let h0 := { h with current_operation := .UPDATE }
  let r : k_heap × OperationCounter :=
    if h0.positions vertex = -1 then
      insert { h0 with dist := Function.update h0.dist vertex new_value } c1 vertex
    else
      let old_value := h0.dist vertex
      let h1 := { h0 with dist := Function.update h0.dist vertex new_value }
      let i := h1.positions vertex
      if new_value < old_value then h1.heapify_up c1 i
      else if new_value > old_value then h1.heapify_down c1 i
      else (h1, c1)
  ({ r.1 with current_operation := prev_op }, r.2)

/-- Method `k_heap::deleteMin` of the instrumented heap: the call is counted and
`current_operation` is set before the emptiness test. -/
def deleteMin (h : k_heap) (c : OperationCounter) : Except thrown (k_heap × OperationCounter) :=
  let c1 := { c with deleteMin_calls := c.deleteMin_calls + 1 }
  let prev_op := h.current_operation
  let h0 := { h with current_operation := .DELETE_MIN }
  if h0.current_size ≤ 0 then .error (.runtime_error, h0, c1)
  else
    match h0.deleteKey c1 0 with
    | .error e => .error e
    | .ok r => .ok ({ r.1 with current_operation := prev_op }, r.2)

/-- Method `k_heap::getMin` of the instrumented heap. -/
def getMin (h : k_heap) (c : OperationCounter) : Except thrown Int :=
  if h.current_size ≤ 0 then .error (.runtime_error, h, c) else .ok (h.heap_arr 0)

/-- Method `k_heap::isEmpty` of the instrumented heap. -/
def isEmpty (h : k_heap) : Bool := decide (h.current_size = 0)

/-- Method `k_heap::size` of the instrumented heap. -/
def size (h : k_heap) : Int := h.current_size

/-- Method `k_heap::getDistance` of the instrumented heap. -/
def getDistance (h : k_heap) (vertex : Int) : Int := h.dist vertex

/-- Method `k_heap::setDistance` of the instrumented heap. -/
def setDistance (h : k_heap) (vertex distance : Int) : k_heap :=
  { h with dist := Function.update h.dist vertex distance }

/-- Method `k_heap::isInHeap` of the instrumented heap. -/
def isInHeap (h : k_heap) (vertex : Int) : Bool := decide (h.positions vertex ≠ -1)

end k_heap

end counters

namespace counters

/-- The local state of the instrumented `dijkstra` inside its `while` loop, with
the global counter. -/
structure dijkstra_state where
  Q : k_heap
  visited : Int → Bool
  counter : OperationCounter

/-- One round of the `for` loop over the edges of `v` in the instrumented `dijkstra`. -/
def relax (v : Int) (s : dijkstra_state) (edge : Int × Int) : dijkstra_state :=
  let u := edge.1
  let dvu := edge.2
  if !s.visited u then
    let dv := s.Q.getDistance v
    let du := s.Q.getDistance u
    if du = INT_MAX then
      let r := (s.Q.setDistance u (int_add dv dvu)).insert s.counter u
      { s with Q := r.1, counter := r.2 }
    else if int_add dv dvu < du then
      let r := s.Q.update s.counter u (int_add dv dvu)
      { s with Q := r.1, counter := r.2 }
    else s
  else s

/-- The `while` loop of the instrumented `dijkstra` with an iteration budget. -/
def dijkstra_loop (g : graph) (dest : Int) :
    Nat → dijkstra_state → Option (Except (HeapError × OperationCounter) (Int × dijkstra_state))
  | 0, _ => none
  | fuel + 1, s =>
    if !s.Q.isEmpty then
      match s.Q.getMin s.counter with
      | .error e => some (.error (e.1, e.2.2))
      | .ok v =>
        match s.Q.deleteMin s.counter with
        | .error e => some (.error (e.1, e.2.2))
        | .ok r =>
          let visited := Function.update s.visited v true
          if v = dest then
            some (.ok (r.1.getDistance v,
              ⟨r.1, visited, { r.2 with distance := r.1.getDistance v }⟩))
          else dijkstra_loop g dest fuel ((graph_at g v).foldl (relax v) ⟨r.1, visited, r.2⟩)
    else some (.ok (-1, { s with counter := { s.counter with distance := -1 } }))

/-- The state of the instrumented `dijkstra` on entry to the `while` loop. -/
def dijkstra_init (mem : Int → Int) (g : graph) (src k_value : Int) (c : OperationCounter) :
    Except (HeapError × OperationCounter) dijkstra_state :=
  let n : Int := (g.length : Int) - 1
  match k_heap.new mem (n + 1) k_value c with
  | .error e => .error e
  | .ok r =>
    let Q1 := (List.range n.toNat).foldl
      (fun (Q : k_heap) (j : Nat) => Q.setDistance ((j : Int) + 1) INT_MAX) r.1
    let Q2 := Q1.setDistance src 0
    let r1 := Q2.insert r.2 src
    .ok ⟨r1.1, fun _ => false, r1.2⟩

/-- The body of the instrumented `dijkstra`: the returned value and the state at the return. -/
def dijkstra_run (fuel : Nat) (mem : Int → Int) (g : graph) (src dest k_value : Int)
    (c : OperationCounter) :
    Option (Except (HeapError × OperationCounter) (Int × dijkstra_state)) :=
  match dijkstra_init mem g src k_value c with
  | .error e => some (.error e)
  | .ok s => dijkstra_loop g dest fuel s

/-- The value returned by the instrumented `dijkstra`. -/
def dijkstra (fuel : Nat) (mem : Int → Int) (g : graph) (src dest k_value : Int)
    (c : OperationCounter) : Option (Except HeapError Int) :=
  match dijkstra_run fuel mem g src dest k_value c with
  | none => none
  | some (.error e) => some (.error e.1)
  | some (.ok (r, _)) => some (.ok r)

end counters

/-- The plain heap state inside an instrumented heap: every field but
`current_operation`. -/
def erase_counters (h : counters.k_heap) : k_heap :=
  { heap_arr := h.heap_arr
    positions := h.positions
    dist := h.dist
    capacity := h.capacity
    current_size := h.current_size
    k := h.k }

/-- The plain driver state inside an instrumented driver state. -/
def erase_state (s : counters.dijkstra_state) : dijkstra_state :=
  ⟨erase_counters s.Q, s.visited⟩

/-- The plain outcome of an instrumented heap operation that may throw: the
exception, or the plain heap state of the result. -/
def erase_outcome (r : Except counters.thrown (counters.k_heap × OperationCounter)) :
    Except HeapError k_heap :=
  match r with
  | .error e => .error e.1
  | .ok r => .ok (erase_counters r.1)

/-- The plain outcome of a run of the instrumented `dijkstra`. -/
def erase_run (r : Option (Except (HeapError × OperationCounter) (Int × counters.dijkstra_state))) :
    Option (Except HeapError (Int × dijkstra_state)) :=
  match r with
  | none => none
  | some (.error e) => some (.error e.1)
  | some (.ok r) => some (.ok (r.1, erase_state r.2))

namespace k_heap

/-- The heap object after `k_heap Q(3, 2); Q.setDistance(1, 5); Q.insert(1);
Q.setDistance(2, 7); Q.insert(2); Q.setDistance(2, 3);`: index-consistent, but the last
`setDistance` has put the key of slot 1 below the key of its parent. -/
def unordered_sample : k_heap :=
  ((((({ heap_arr := fun _ => 0
         positions := fun _ => -1
         dist := fun _ => INT_MAX
         capacity := 3
         current_size := 0
         k := 2 } : k_heap).setDistance 1 5).insert 1).setDistance 2 7).insert 2).setDistance 2 3

end k_heap

/-! ## The run of `dijkstra`, one step at a time -/

/-- The calls by which `dijkstra` changes the heap: `extract v` is
`v = Q.getMin(); Q.deleteMin(); visited[v] = true`, `insert u d` is
`Q.setDistance(u, d); Q.insert(u)`, and `update u d` is `Q.update(u, d)`. -/
inductive dijkstra_event where
  | extract (v : Int)
  | insert (u d : Int)
  | update (u d : Int)
deriving DecidableEq

/-- The control points of `dijkstra`: at the test of the `while` loop, inside the `for` loop
over the edges of the extracted vertex `v` with the edges `rest` still to be examined, after
a `return`, and after an exception. -/
inductive dijkstra_config where
  | loop_head (s : dijkstra_state)
  | for_edges (v : Int) (rest : List (Int × Int)) (s : dijkstra_state)
  | returned (r : Int) (s : dijkstra_state)
  | failed (e : HeapError)

/-- The local state at a control point. -/
def dijkstra_config.state : dijkstra_config → Option dijkstra_state
  | .loop_head s => some s
  | .for_edges _ _ s => some s
  | .returned _ s => some s
  | .failed _ => none

/-- The heap call made by one round of the `for` loop over the edges of `v`, if any. -/
def relax_event (v : Int) (s : dijkstra_state) (edge : Int × Int) : Option dijkstra_event :=
  let u := edge.1
  let dvu := edge.2
  if !s.visited u then
    let dv := s.Q.getDistance v
    let du := s.Q.getDistance u
    if du = INT_MAX then some (.insert u (int_add dv dvu))
    else if int_add dv dvu < du then some (.update u (int_add dv dvu))
    else none
  else none

/-- The heap call made by the step from a control point, if any. -/
def step_event : dijkstra_config → Option dijkstra_event
  | .loop_head s =>
    if !s.Q.isEmpty then
      match s.Q.getMin with
      | .error _ => none
      | .ok v => some (.extract v)
    else none
  | .for_edges v (e :: _) s => relax_event v s e
  | _ => none

/-- One step of `dijkstra`: the test of the `while` loop with the extraction that follows it,
or one round of the `for` loop. -/
def dijkstra_step (g : graph) (dest : Int) : dijkstra_config → dijkstra_config
  | .loop_head s =>
    if !s.Q.isEmpty then
      match s.Q.getMin with
      | .error e => .failed e
      | .ok v =>
        match s.Q.deleteMin with
        | .error e => .failed e
        | .ok Q1 =>
          let visited := Function.update s.visited v true
          if v = dest then .returned (Q1.getDistance v) ⟨Q1, visited⟩
          else .for_edges v (graph_at g v) ⟨Q1, visited⟩
    else .returned (-1) s
  | .for_edges _ [] s => .loop_head s
  | .for_edges v (e :: rest) s => .for_edges v rest (relax v s e)
  | .returned r s => .returned r s
  | .failed e => .failed e

/-- The control points reached in a run of `dijkstra(graph, src, dest, k_value)` with the heap
calls made so far, oldest first; the first call is the `Q.insert(src)` before the loop. -/
inductive dijkstra_reaches (mem : Int → Int) (g : graph) (src dest k_value : Int) :
    List dijkstra_event → dijkstra_config → Prop where
  | init {s : dijkstra_state} : dijkstra_init mem g src k_value = .ok s →
      dijkstra_reaches mem g src dest k_value [.insert src 0] (.loop_head s)
  | step {es : List dijkstra_event} {c : dijkstra_config} :
      dijkstra_reaches mem g src dest k_value es c →
      dijkstra_reaches mem g src dest k_value (es ++ (step_event c).toList)
        (dijkstra_step g dest c)

/-- The number of extractions among the heap calls `es`. -/
def extractions (es : List dijkstra_event) : Nat :=
  es.countP (fun e => match e with
    | .extract _ => true
    | _ => false)

/-- The vertices inserted by the heap calls `es`, oldest first. -/
def inserted (es : List dijkstra_event) : List Int :=
  es.filterMap (fun e => match e with
    | .insert u _ => some u
    | _ => none)

/-- Vertex `x` is unseen: at distance `INT_MAX` and not in the heap. -/
def unseen (s : dijkstra_state) (x : Int) : Prop :=
  s.Q.getDistance x = INT_MAX ∧ s.Q.isInHeap x = false

/-- The state of `dijkstra(sample_graph, 1, dest, 2)` on entry to the `while` loop. -/
def sample_start : dijkstra_state :=
  ⟨((⟨fun _ => 0, fun _ => -1, fun _ => INT_MAX, 5, 0, 2⟩ : k_heap).setDistance 1 0).insert 1,
    fun _ => false⟩

/-- The part of the invariant of `dijkstra` that holds as long as no vertex is inserted with
the distance `INT_MAX`: the heap is valid, it holds exactly the vertices that are not visited
and have a distance other than `INT_MAX`, no visited vertex has the distance `INT_MAX`, the
unused element 0 of `dist` keeps the value `INT_MAX`, and the child indices of the occupied
slots fit into an `int`. -/
structure safe_inv (g : graph) (s : dijkstra_state) : Prop where
  heap_valid : s.Q.valid
  cap : s.Q.capacity = (g.length : Int)
  in_heap : ∀ u, 0 ≤ u → u < (g.length : Int) →
    (s.Q.positions u ≠ -1 ↔ (s.visited u = false ∧ s.Q.dist u ≠ INT_MAX))
  dist_le : ∀ x, s.Q.dist x ≤ INT_MAX
  visited_dist : ∀ x, s.visited x = true → s.Q.dist x ≠ INT_MAX
  zero : s.Q.dist 0 = INT_MAX
  fit : s.Q.k * (s.Q.capacity - 1) < INT_MAX

/-- The safe invariant at a control point: inside the `for` loop the edges still to be
examined are edges of the extracted vertex, and no exception has been thrown. -/
def config_safe (g : graph) : dijkstra_config → Prop
  | .loop_head s => safe_inv g s
  | .for_edges v rest s => safe_inv g s ∧ 0 ≤ v ∧ ∀ e ∈ rest, e ∈ graph_at g v
  | .returned _ s => safe_inv g s
  | .failed _ => False

/-- No step of the run inserts a vertex with the distance `INT_MAX`. -/
def collision_free (mem : Int → Int) (g : graph) (src dest k_value : Int) : Prop :=
  ∀ es c, dijkstra_reaches mem g src dest k_value es c →
    ∀ u d, step_event c = some (.insert u d) → d ≠ INT_MAX

/-- No addition `dv + dvu` made in the run for a target that is not visited overflows: the
32-bit sum is the exact sum. -/
def no_overflow (mem : Int → Int) (g : graph) (src dest k_value : Int) : Prop :=
  ∀ es v e rest s, dijkstra_reaches mem g src dest k_value es (.for_edges v (e :: rest) s) →
    s.visited e.1 = false →
    int_add (s.Q.getDistance v) e.2 = s.Q.getDistance v + e.2

/-- A 5-vertex graph with non-negative weights in which no path sum exceeds `INT_MAX`, but the
edges 1 → 2 and 1 → 3 have weight `INT_MAX`: (1→2, INT_MAX), (1→3, INT_MAX), (1→4, 0),
(1→5, 9), (4→2, 0), (4→3, 0). -/
def collision_graph : graph :=
  [[], [(2, 2147483647), (3, 2147483647), (4, 0), (5, 9)], [], [], [(2, 0), (3, 0)], []]

/-- The invariant of `dijkstra` at a control point: between two iterations of the `while`
loop all edges of the visited vertices have been relaxed, inside the `for` loop the edges
`done` of the extracted vertex have been. -/
def config_strong (g : graph) (src : Int) : dijkstra_config → Prop
  | .loop_head s => dijkstra_inv g src (fun _ _ _ => True) s
  | .for_edges v rest s => ∃ done, done ++ rest = graph_at g v ∧ s.visited v = true ∧ 0 ≤ v ∧
      dijkstra_inv g src (fun x u c => x ≠ v ∨ (u, c) ∈ done) s
  | .returned _ s => ∃ R, dijkstra_inv g src R s
  | .failed _ => False

/-! ## The array accesses of the heap methods and of the driver

The arrays `heap_arr`, `positions` and `dist` have `capacity` elements.  For every method the
predicate `…_in_bounds` lists, along the control flow of the method, the indices at which
the method reads or writes an array, and requires each of them to lie in `0 .. capacity-1`. -/

namespace k_heap

/-- Index `i` is a valid index of an array of `capacity` elements. -/
def in_bounds (h : k_heap) (i : Int) : Prop := 0 ≤ i ∧ i < h.capacity

/-- The accesses of `key(i)`: `heap_arr[i]` and `dist[heap_arr[i]]`. -/
def key_in_bounds (h : k_heap) (i : Int) : Prop := h.in_bounds i ∧ h.in_bounds (h.heap_arr i)

/-- The accesses of `swap(i, j)`: `heap_arr[i]`, `heap_arr[j]`, and `positions` at the two
vertices exchanged. -/
def swap_in_bounds (h : k_heap) (i j : Int) : Prop :=
  h.in_bounds i ∧ h.in_bounds j ∧ h.in_bounds (h.heap_arr j) ∧ h.in_bounds (h.heap_arr i)

/-- The accesses of `heapify_up(i)`: none at the root; otherwise those of `key(parent(i))`
and `key(i)`, and when the keys are out of order those of the `swap` and of the recursive
call. -/
def heapify_up_in_bounds_fuel : Nat → k_heap → Int → Prop
  | 0, _, _ => True
  | fuel + 1, h, i =>
    if root i then True
    else h.key_in_bounds (h.parent i) ∧ h.key_in_bounds i ∧
      (h.key (h.parent i) > h.key i →
        h.swap_in_bounds i (h.parent i) ∧
        heapify_up_in_bounds_fuel fuel (h.swap i (h.parent i)) (h.parent i))

/-- The accesses of `heapify_up(i)`. -/
def heapify_up_in_bounds (h : k_heap) (i : Int) : Prop := heapify_up_in_bounds_fuel i.toNat h i

/-- The accesses of `heapify_down(i)`: none at a leaf; otherwise those of `key` at every child
slot below `current_size` and at `i`, and when the keys are out of order those of the `swap`
and of the recursive call. -/
def heapify_down_in_bounds_fuel : Nat → k_heap → Int → Prop
  | 0, _, _ => True
  | fuel + 1, h, i =>
    if h.is_leaf i then True
    else (∀ j, 0 ≤ j → j < h.k → h.child i j < h.current_size →
        h.key_in_bounds (h.child i j)) ∧ h.key_in_bounds i ∧
      (h.key (h.smallest_child i) < h.key i →
        h.swap_in_bounds i (h.smallest_child i) ∧
        heapify_down_in_bounds_fuel fuel (h.swap i (h.smallest_child i)) (h.smallest_child i))

/-- The accesses of `heapify_down(i)`. -/
def heapify_down_in_bounds (h : k_heap) (i : Int) : Prop :=
  heapify_down_in_bounds_fuel (h.current_size - i).toNat h i

/-- The accesses of `insert(vertex)`: `heap_arr[current_size]`, `positions[vertex]` and those
of `heapify_up(current_size)`. -/
def insert_in_bounds (h : k_heap) (vertex : Int) : Prop :=
  h.in_bounds h.current_size ∧ h.in_bounds vertex ∧
  heapify_up_in_bounds
    { h with heap_arr := Function.update h.heap_arr h.current_size vertex
             positions := Function.update h.positions vertex h.current_size } h.current_size

/-- The accesses of `deleteKey(i)` past its guard: `heap_arr[i]`, `heap_arr[current_size-1]`,
`positions` at the moved and at the removed vertex, for `i > 0` those of `key(i)` and
`key(parent(i))`, and those of the repair chosen. -/
def deleteKey_in_bounds (h : k_heap) (i : Int) : Prop :=
  i < h.current_size →
    h.in_bounds i ∧ h.in_bounds (h.current_size - 1) ∧
    h.in_bounds (h.heap_arr (h.current_size - 1)) ∧ h.in_bounds (h.heap_arr i) ∧
    (i > 0 → (h.moved_state i).key_in_bounds i ∧
      (h.moved_state i).key_in_bounds ((h.moved_state i).parent i)) ∧
    (if i > 0 ∧ (h.moved_state i).key i < (h.moved_state i).key ((h.moved_state i).parent i)
      then (h.moved_state i).heapify_up_in_bounds i
      else (h.moved_state i).heapify_down_in_bounds i)

/-- The accesses of `update(vertex, new_value)`: `positions[vertex]`, `dist[vertex]`, and those
of the `insert` or of the repair chosen. -/
def update_in_bounds (h : k_heap) (vertex new_value : Int) : Prop :=
  h.in_bounds vertex ∧
  (if h.positions vertex = -1 then
    insert_in_bounds { h with dist := Function.update h.dist vertex new_value } vertex
  else if new_value < h.dist vertex then
    heapify_up_in_bounds { h with dist := Function.update h.dist vertex new_value }
      (h.positions vertex)
  else if new_value > h.dist vertex then
    heapify_down_in_bounds { h with dist := Function.update h.dist vertex new_value }
      (h.positions vertex)
  else True)

end k_heap

/-- The accesses of one round of the `for` loop over the edges of `v`: `visited[u]`, and for
a target that is not visited `dist[v]`, `dist[u]` and those of the heap call made. -/
def relax_in_bounds (v : Int) (s : dijkstra_state) (edge : Int × Int) : Prop :=
  s.Q.in_bounds edge.1 ∧
  (s.visited edge.1 = false →
    s.Q.in_bounds v ∧
    (if s.Q.getDistance edge.1 = INT_MAX then
      (s.Q.setDistance edge.1 (int_add (s.Q.getDistance v) edge.2)).insert_in_bounds edge.1
    else if int_add (s.Q.getDistance v) edge.2 < s.Q.getDistance edge.1 then
      s.Q.update_in_bounds edge.1 (int_add (s.Q.getDistance v) edge.2)
    else True))

/-- The accesses of the step made from a control point; `visited` and `graph` have as many
elements as the arrays of the heap.  At the head of the loop on a non-empty heap: `heap_arr[0]`
in `getMin`, the accesses of `deleteKey(0)`, then `visited[v]` and `graph[v]` or `dist[v]`. -/
def step_in_bounds : dijkstra_config → Prop
  | .loop_head s =>
    s.Q.isEmpty = false →
      s.Q.in_bounds 0 ∧ s.Q.deleteKey_in_bounds 0 ∧ s.Q.in_bounds (s.Q.heap_arr 0)
  | .for_edges v (e :: _) s => relax_in_bounds v s e
  | _ => True

/-- All edge weights lie in `[0, W]`. -/
def weights_in (g : graph) (W : Int) : Prop :=
  ∀ row ∈ g, ∀ e ∈ row, 0 ≤ e.2 ∧ e.2 ≤ W

namespace k_heap

/-- A heap of arity `INT_MAX` holding the vertices 2, 3, 4 with the distances 1, 2, 3. -/
def wide_sample : k_heap :=
  { heap_arr := fun i => if i = 0 then 2 else if i = 1 then 3 else if i = 2 then 4 else 0
    positions := fun v => if v = 2 then 0 else if v = 3 then 1 else if v = 4 then 2 else -1
    dist := fun v => if v = 2 then 1 else if v = 3 then 2 else if v = 4 then 3 else INT_MAX
    capacity := 5
    current_size := 3
    k := 2147483647 }

end k_heap

/-- A 4-vertex graph with the edges (1→2, 1), (1→3, 2), (1→4, 3). -/
def wide_graph : graph := [[], [(2, 1), (3, 2), (4, 3)], [], [], []]

/-- A 4-vertex graph in which the vertices 3 and 4 are reached with the distance `INT_MAX`
from vertex 1 and again from vertex 2: (1→3, INT_MAX), (1→4, INT_MAX), (1→2, 0),
(2→3, INT_MAX), (2→4, INT_MAX). -/
def duplicate_graph : graph :=
  [[], [(3, 2147483647), (4, 2147483647), (2, 0)], [(3, 2147483647), (4, 2147483647)], [], []]

/-- A 6-vertex graph in which the vertices 5 and 6 are reached with the distance `INT_MAX`
from vertex 1 and again from each of the vertices 2, 3 and 4, which are at distance 0:
(1→5, INT_MAX), (1→6, INT_MAX), (1→2, 0), (1→3, 0), (1→4, 0), and (v→5, INT_MAX),
(v→6, INT_MAX) for `v = 2, 3, 4`. -/
def overfull_graph : graph :=
  [[], [(5, 2147483647), (6, 2147483647), (2, 0), (3, 0), (4, 0)],
    [(5, 2147483647), (6, 2147483647)], [(5, 2147483647), (6, 2147483647)],
    [(5, 2147483647), (6, 2147483647)], [], []]

/-- The state of `dijkstra(graph, src, dest, k_value)` on entry to the `while` loop when the
constructor does not throw. -/
def start_state (mem : Int → Int) (g : graph) (src k_value : Int) : dijkstra_state :=
  ⟨((⟨mem, fun _ => -1, fun _ => INT_MAX, (g.length : Int) - 1 + 1, 0, k_value⟩ :
    k_heap).setDistance src 0).insert src, fun _ => false⟩

/-- The control point that the run of `dijkstra(graph, src, dest, k_value)` reaches `n` steps
after the entry to the `while` loop (the memory of a fresh array being all zero). -/
def run_config (g : graph) (src dest k_value : Int) (n : Nat) : dijkstra_config :=
  Nat.iterate (dijkstra_step g dest) n (.loop_head (start_state (fun _ => 0) g src k_value))

/-- The local state at the control point `run_config g src dest k_value n`. -/
def run_state (g : graph) (src dest k_value : Int) (n : Nat) : dijkstra_state :=
  ((run_config g src dest k_value n).state).getD (start_state (fun _ => 0) g src k_value)

/-! ## Index arithmetic of the `k`-ary tree -/

namespace k_heap

theorem parent_eq_ediv (h : k_heap) {i : Int} (hk : 1 ≤ h.k) (hi : 0 < i) :
    h.parent i = (i - 1) / h.k := by
  unfold parent
  exact Int.tdiv_eq_ediv (by omega) (by omega)

theorem parent_nonneg (h : k_heap) {i : Int} (hk : 1 ≤ h.k) (hi : 0 < i) : 0 ≤ h.parent i := by
  rw [parent_eq_ediv h hk hi]
  exact Int.ediv_nonneg (by omega) (by omega)

theorem parent_bounds (h : k_heap) {i : Int} (hk : 1 ≤ h.k) (hi : 0 < i) :
    h.k * h.parent i + 1 ≤ i ∧ i ≤ h.k * h.parent i + h.k := by
  rw [parent_eq_ediv h hk hi]
  have h1 := Int.emod_add_ediv (i - 1) h.k
  have h2 := Int.emod_nonneg (i - 1) (show h.k ≠ 0 by omega)
  have h3 := Int.emod_lt_of_pos (i - 1) (show 0 < h.k by omega)
  constructor <;> omega

theorem parent_lt (h : k_heap) {i : Int} (hk : 1 ≤ h.k) (hi : 0 < i) : h.parent i < i := by
  have h1 := parent_bounds h hk hi
  have h2 := parent_nonneg h hk hi
  nlinarith

theorem parent_eq_of_bounds (h : k_heap) {p j : Int} (hk : 1 ≤ h.k) (hp : 0 ≤ p)
    (h1 : h.k * p + 1 ≤ j) (h2 : j ≤ h.k * p + h.k) : h.parent j = p := by
  have hj : 0 < j := by nlinarith
  rw [parent_eq_ediv h hk hj]
  have := (Int.ediv_emod_unique (a := j - 1) (b := h.k) (r := j - 1 - h.k * p) (q := p)
    (by omega)).2 ⟨by ring, by omega, by omega⟩
  exact this.1

/-- The result of `int_wrap` is the residue of `x` modulo `2^32` in `[-2^31, 2^31)`. -/
theorem int_wrap_eq (x : Int) : int_wrap x = (x + 2147483648) % 4294967296 - 2147483648 := by
  cases x with
  | ofNat n =>
    cases n with
    | zero => decide
    | succ n =>
      show (if n < 2147483647 then Int.ofNat (n + 1) else _) = _
      split_ifs with h
      · have e : Int.ofNat (n + 1) = (n : Int) + 1 := rfl
        rw [e]
        omega
      · rfl
  | negSucc n =>
    cases n with
    | zero => decide
    | succ n =>
      show (if n < 2147483647 then Int.negSucc (n + 1) else _) = _
      split_ifs with h
      · have e : Int.negSucc (n + 1) = -((n : Int) + 1 + 1) := rfl
        rw [e]
        omega
      · rfl

theorem int_wrap_of_fits {x : Int} (h1 : -2147483648 ≤ x) (h2 : x ≤ 2147483647) :
    int_wrap x = x := by
  rw [int_wrap_eq]
  omega

/-- The index `child(i, j)` is `k * i + j + 1` as long as this number fits into an `int`. -/
theorem child_eq (h : k_heap) {i j : Int} (hk : 1 ≤ h.k) (hi : 0 ≤ i) (hj0 : 0 ≤ j)
    (hfit : h.k * i + j + 1 ≤ INT_MAX) : h.child i j = h.k * i + j + 1 := by
  have h0 : 0 ≤ h.k * i := mul_nonneg (by omega) hi
  unfold INT_MAX at hfit
  unfold child
  exact int_wrap_of_fits (by omega) (by omega)

/-- The children of a slot that is not a leaf fit into an `int` when
`k * (current_size - 1)` is below `INT_MAX`. -/
theorem child_fits (h : k_heap) {i j : Int} (hk : 1 ≤ h.k) (hi : 0 ≤ i) (hj : j < h.k)
    (hfN : h.k * (h.current_size - 1) < INT_MAX) (hne : h.k * i + 1 < h.current_size) :
    h.k * i + j + 1 ≤ INT_MAX := by
  have h0 : 0 ≤ h.k * i := mul_nonneg (by omega) hi
  have h1 : 0 ≤ (h.k - 1) * (h.current_size - 2) := mul_nonneg (by omega) (by omega)
  nlinarith

theorem child_zero_eq (h : k_heap) {i : Int} (hk : 1 ≤ h.k) (hi : 0 ≤ i)
    (hfi : h.k * i < INT_MAX) : h.child i 0 = h.k * i + 1 := by
  have := child_eq h hk hi (le_refl 0) (by omega : h.k * i + 0 + 1 ≤ INT_MAX)
  simpa using this

/-- The slots below `current_size` satisfy the bound asked of the slot at which
`heapify_down` starts. -/
theorem slot_fits (h : k_heap) {i : Int} (hk : 1 ≤ h.k) (hiN : i ≤ h.current_size - 1)
    (hfN : h.k * (h.current_size - 1) < INT_MAX) : h.k * i < INT_MAX := by
  have h1 : h.k * i ≤ h.k * (h.current_size - 1) := mul_le_mul_of_nonneg_left hiN (by omega)
  omega

theorem parent_child (h : k_heap) {i j : Int} (hk : 1 ≤ h.k) (hi : 0 ≤ i) (hj0 : 0 ≤ j)
    (hj : j < h.k) (hfit : h.k * i + j + 1 ≤ INT_MAX) : h.parent (h.child i j) = i := by
  rw [child_eq h hk hi hj0 hfit]
  apply parent_eq_of_bounds h hk hi <;> omega

theorem child_gt (h : k_heap) {i j : Int} (hk : 1 ≤ h.k) (hi : 0 ≤ i) (hj0 : 0 ≤ j)
    (hfit : h.k * i + j + 1 ≤ INT_MAX) : i < h.child i j := by
  rw [child_eq h hk hi hj0 hfit]
  nlinarith

/-- At a slot `i ≤ current_size` the test `is_leaf(i)` compares `k * i + 1` with the size. -/
theorem is_leaf_iff (h : k_heap) {i : Int} (hk : 1 ≤ h.k) (hi : 0 ≤ i)
    (hfi : h.k * i < INT_MAX) : h.is_leaf i = true ↔ h.current_size ≤ h.k * i + 1 := by
  simp only [is_leaf, decide_eq_true_eq, child_zero_eq h hk hi hfi, ge_iff_le]

end k_heap

/-! ## Fields left alone by `swap`, `heapify_up` and `heapify_down` -/

namespace k_heap

@[simp] theorem swap_dist (h : k_heap) (i j : Int) : (h.swap i j).dist = h.dist := rfl
@[simp] theorem swap_k (h : k_heap) (i j : Int) : (h.swap i j).k = h.k := rfl
@[simp] theorem swap_capacity (h : k_heap) (i j : Int) : (h.swap i j).capacity = h.capacity := rfl
@[simp] theorem swap_current_size (h : k_heap) (i j : Int) :
    (h.swap i j).current_size = h.current_size := rfl
@[simp] theorem swap_parent (h : k_heap) (i j x : Int) : (h.swap i j).parent x = h.parent x := rfl

theorem swap_heap_arr (h : k_heap) (i j x : Int) :
    (h.swap i j).heap_arr x =
      if x = j then h.heap_arr i else if x = i then h.heap_arr j else h.heap_arr x := by
  simp [swap, Function.update_apply]

theorem swap_positions (h : k_heap) (i j : Int) (hij : i ≠ j) (v : Int) :
    (h.swap i j).positions v =
      if v = h.heap_arr i then j else if v = h.heap_arr j then i else h.positions v := by
  simp [swap, Function.update_apply, hij]

theorem swap_key (h : k_heap) (i j x : Int) :
    (h.swap i j).key x = if x = j then h.key i else if x = i then h.key j else h.key x := by
  unfold key
  rw [swap_heap_arr]
  split_ifs <;> rfl

theorem heapify_up_fuel_fields (f : Nat) (h : k_heap) (i : Int) :
    (heapify_up_fuel f h i).dist = h.dist ∧ (heapify_up_fuel f h i).k = h.k ∧
    (heapify_up_fuel f h i).capacity = h.capacity ∧
    (heapify_up_fuel f h i).current_size = h.current_size := by
  induction f generalizing h i with
  | zero => simp [heapify_up_fuel]
  | succ f ih =>
    unfold heapify_up_fuel
    split_ifs
    · simp
    · simpa using ih (h.swap i (h.parent i)) (h.parent i)
    · simp

theorem heapify_down_fuel_fields (f : Nat) (h : k_heap) (i : Int) :
    (heapify_down_fuel f h i).dist = h.dist ∧ (heapify_down_fuel f h i).k = h.k ∧
    (heapify_down_fuel f h i).capacity = h.capacity ∧
    (heapify_down_fuel f h i).current_size = h.current_size := by
  induction f generalizing h i with
  | zero => simp [heapify_down_fuel]
  | succ f ih =>
    unfold heapify_down_fuel
    split_ifs
    · simp
    · simpa using ih (h.swap i (h.smallest_child i)) (h.smallest_child i)
    · simp

@[simp] theorem heapify_up_dist (h : k_heap) (i : Int) : (h.heapify_up i).dist = h.dist :=
  (heapify_up_fuel_fields _ h i).1
@[simp] theorem heapify_up_k (h : k_heap) (i : Int) : (h.heapify_up i).k = h.k :=
  (heapify_up_fuel_fields _ h i).2.1
@[simp] theorem heapify_up_capacity (h : k_heap) (i : Int) :
    (h.heapify_up i).capacity = h.capacity :=
  (heapify_up_fuel_fields _ h i).2.2.1
@[simp] theorem heapify_up_current_size (h : k_heap) (i : Int) :
    (h.heapify_up i).current_size = h.current_size :=
  (heapify_up_fuel_fields _ h i).2.2.2
@[simp] theorem heapify_down_dist (h : k_heap) (i : Int) : (h.heapify_down i).dist = h.dist :=
  (heapify_down_fuel_fields _ h i).1
@[simp] theorem heapify_down_k (h : k_heap) (i : Int) : (h.heapify_down i).k = h.k :=
  (heapify_down_fuel_fields _ h i).2.1
@[simp] theorem heapify_down_capacity (h : k_heap) (i : Int) :
    (h.heapify_down i).capacity = h.capacity :=
  (heapify_down_fuel_fields _ h i).2.2.1
@[simp] theorem heapify_down_current_size (h : k_heap) (i : Int) :
    (h.heapify_down i).current_size = h.current_size :=
  (heapify_down_fuel_fields _ h i).2.2.2

end k_heap

/-! ## The child selected by `heapify_down` -/

namespace k_heap

theorem smallest_child_fold (h : k_heap) (i : Int) (hne : h.child i 0 < h.current_size) (m : Nat) :
    ∃ j : Int, 0 ≤ j ∧ j ≤ m ∧
      (List.range m).foldl (child_step h i) (h.child i 0) = h.child i j ∧
      h.child i j < h.current_size ∧
      (∀ j' : Int, 0 ≤ j' → j' ≤ m → h.child i j' < h.current_size →
        h.key (h.child i j) ≤ h.key (h.child i j')) ∧
      (∀ j' : Int, 0 ≤ j' → j' < j → h.child i j' < h.current_size →
        h.key (h.child i j) < h.key (h.child i j')) := by
  induction m with
  | zero =>
    refine ⟨0, le_refl _, by simp, by simp, hne, ?_, ?_⟩
    · intro j' h0 h1 _
      have : j' = 0 := by simp at h1; omega
      subst this; exact le_refl _
    · intro j' h0 h1 _; omega
  | succ m ih =>
    obtain ⟨j, hj0, hjm, hfold, hlt, hmin, hleft⟩ := ih
    rw [List.range_succ, List.foldl_append, hfold]
    simp only [List.foldl_cons, List.foldl_nil, child_step]
    by_cases hc : h.child i ((m : Int) + 1) < h.current_size ∧
        h.key (h.child i ((m : Int) + 1)) < h.key (h.child i j)
    · rw [if_pos hc]
      refine ⟨(m : Int) + 1, by omega, by push_cast; omega, rfl, hc.1, ?_, ?_⟩
      · intro j' h0 h1 h2
        by_cases hj' : j' ≤ m
        · exact le_of_lt (lt_of_lt_of_le hc.2 (hmin j' h0 hj' h2))
        · have : j' = (m : Int) + 1 := by push_cast at h1; omega
          subst this; exact le_refl _
      · intro j' h0 h1 h2
        exact lt_of_lt_of_le hc.2 (hmin j' h0 (by omega) h2)
    · rw [if_neg hc]
      refine ⟨j, hj0, by push_cast; omega, rfl, hlt, ?_, hleft⟩
      intro j' h0 h1 h2
      by_cases hj' : j' ≤ m
      · exact hmin j' h0 hj' h2
      · have : j' = (m : Int) + 1 := by push_cast at h1; omega
        subst this
        by_contra hcon
        exact hc ⟨h2, not_le.mp hcon⟩

/-- The slot chosen by the `for` loop of `heapify_down` at a non-leaf slot `i`: an
occupied child of `i` with the least key, the leftmost one among those. -/
theorem smallest_child_spec (h : k_heap) (i : Int) (hk : 1 ≤ h.k)
    (hne : h.child i 0 < h.current_size) :
    ∃ j : Int, 0 ≤ j ∧ j < h.k ∧ h.smallest_child i = h.child i j ∧
      h.child i j < h.current_size ∧
      (∀ j' : Int, 0 ≤ j' → j' < h.k → h.child i j' < h.current_size →
        h.key (h.child i j) ≤ h.key (h.child i j')) ∧
      (∀ j' : Int, 0 ≤ j' → j' < j → h.child i j' < h.current_size →
        h.key (h.child i j) < h.key (h.child i j')) := by
  obtain ⟨j, hj0, hjm, hfold, hlt, hmin, hleft⟩ := smallest_child_fold h i hne (h.k - 1).toNat
  have hm : (((h.k - 1).toNat : Nat) : Int) = h.k - 1 := Int.toNat_of_nonneg (by omega)
  refine ⟨j, hj0, by omega, hfold, hlt, ?_, hleft⟩
  intro j' h0 h1 h2
  exact hmin j' h0 (by omega) h2

theorem smallest_child_range (h : k_heap) (i : Int) (hk : 1 ≤ h.k) (hi : 0 ≤ i)
    (hfi : h.k * i < INT_MAX) (hfN : h.k * (h.current_size - 1) < INT_MAX)
    (hne : h.child i 0 < h.current_size) :
    i < h.smallest_child i ∧ h.smallest_child i < h.current_size ∧
      h.parent (h.smallest_child i) = i := by
  obtain ⟨j, hj0, hjk, hsc, hlt, -, -⟩ := smallest_child_spec h i hk hne
  rw [child_zero_eq h hk hi hfi] at hne
  have hf := child_fits h hk hi hjk hfN hne
  rw [hsc]
  exact ⟨child_gt h hk hi hj0 hf, hlt, parent_child h hk hi hj0 hjk hf⟩

end k_heap

/-! ## Index consistency under `swap`, `heapify_up` and `heapify_down` -/

namespace k_heap

theorem slots_consistent_inj (h : k_heap) {N x y : Int} (hc : h.slots_consistent N)
    (hx : 0 ≤ x ∧ x < N) (hy : 0 ≤ y ∧ y < N) (hxy : h.heap_arr x = h.heap_arr y) : x = y := by
  have h1 := (hc.1 x hx.1 hx.2).2
  have h2 := (hc.1 y hy.1 hy.2).2
  rw [hxy] at h1
  omega

theorem swap_consistent (h : k_heap) {N i j : Int} (hc : h.slots_consistent N)
    (hi : 0 ≤ i ∧ i < N) (hj : 0 ≤ j ∧ j < N) (hij : i ≠ j) :
    (h.swap i j).slots_consistent N ∧
      ∀ v, 0 ≤ v → v < h.capacity → ((h.swap i j).positions v ≠ -1 ↔ h.positions v ≠ -1) := by
  have hne : h.heap_arr i ≠ h.heap_arr j := fun e => hij (slots_consistent_inj h hc hi hj e)
  have hpi := hc.1 i hi.1 hi.2
  have hpj := hc.1 j hj.1 hj.2
  refine ⟨⟨?_, ?_⟩, ?_⟩
  · intro x hx0 hxN
    have hpx := hc.1 x hx0 hxN
    rw [swap_positions h i j hij, swap_heap_arr, swap_capacity]
    by_cases hxj : x = j
    · subst hxj; simp [hpi.1]
    · by_cases hxi : x = i
      · subst hxi
        simp [hxj, hpj.1, Ne.symm hne]
      · have e1 : h.heap_arr x ≠ h.heap_arr i :=
          fun e => hxi (slots_consistent_inj h hc ⟨hx0, hxN⟩ hi e)
        have e2 : h.heap_arr x ≠ h.heap_arr j :=
          fun e => hxj (slots_consistent_inj h hc ⟨hx0, hxN⟩ hj e)
        simp [hxj, hxi, e1, e2, hpx.1, hpx.2]
  · intro v hv0 hvc hpos
    rw [swap_capacity] at hvc
    rw [swap_positions h i j hij] at hpos ⊢
    rw [swap_heap_arr]
    by_cases hvi : v = h.heap_arr i
    · simp [hvi, hj.1, hj.2]
    · by_cases hvj : v = h.heap_arr j
      · simp [hvj, hi.1, hi.2, Ne.symm hne, Ne.symm hij, hij]
      · simp only [hvi, hvj, if_false] at hpos ⊢
        have hp := hc.2 v hv0 hvc hpos
        have e1 : h.positions v ≠ j := fun e => hvj (by rw [← e]; exact hp.2.symm)
        have e2 : h.positions v ≠ i := fun e => hvi (by rw [← e]; exact hp.2.symm)
        simp [e1, e2, hp.1.1, hp.1.2, hp.2]
  · intro v hv0 hvc
    rw [swap_positions h i j hij]
    by_cases hvi : v = h.heap_arr i
    · have : h.positions v = i := by rw [hvi]; exact hpi.2
      simp only [hvi, if_true]
      rw [hvi] at this
      constructor <;> intro _ <;> omega
    · by_cases hvj : v = h.heap_arr j
      · have : h.positions v = j := by rw [hvj]; exact hpj.2
        rw [hvj] at this
        simp only [hvj, Ne.symm hne, if_false, if_true]
        constructor <;> intro _ <;> omega
      · simp [hvi, hvj]

/-- What `heapify_up` and `heapify_down` keep of a heap state: the slots stay
consistent and the same vertices are in the heap. -/
theorem heapify_up_fuel_consistent (f : Nat) (h : k_heap) {N i : Int} (hk : 1 ≤ h.k)
    (hc : h.slots_consistent N) (hi : 0 ≤ i ∧ i < N) :
    (heapify_up_fuel f h i).slots_consistent N ∧
      ∀ v, 0 ≤ v → v < h.capacity →
        ((heapify_up_fuel f h i).positions v ≠ -1 ↔ h.positions v ≠ -1) := by
  induction f generalizing h i with
  | zero => exact ⟨hc, fun _ _ _ => Iff.rfl⟩
  | succ f ih =>
    unfold heapify_up_fuel
    by_cases hr : root i = true
    · rw [if_pos hr]; exact ⟨hc, fun _ _ _ => Iff.rfl⟩
    · rw [if_neg hr]
      have hi0 : 0 < i := by
        simp [root] at hr; omega
      have hp0 := parent_nonneg h hk hi0
      have hpl := parent_lt h hk hi0
      split_ifs
      · have hs := swap_consistent h hc hi ⟨hp0, by omega⟩ (by omega)
        have := ih (h.swap i (h.parent i)) (by simpa using hk) hs.1 ⟨hp0, by omega⟩
        refine ⟨this.1, fun v hv0 hvc => ?_⟩
        rw [this.2 v hv0 (by simpa using hvc)]
        exact hs.2 v hv0 hvc
      · exact ⟨hc, fun _ _ _ => Iff.rfl⟩

theorem heapify_down_fuel_consistent (f : Nat) (h : k_heap) {i : Int} (hk : 1 ≤ h.k)
    (hfN : h.k * (h.current_size - 1) < INT_MAX)
    (hc : h.slots_consistent h.current_size) (hi : 0 ≤ i ∧ i < h.current_size) :
    (heapify_down_fuel f h i).slots_consistent h.current_size ∧
      ∀ v, 0 ≤ v → v < h.capacity →
        ((heapify_down_fuel f h i).positions v ≠ -1 ↔ h.positions v ≠ -1) := by
  induction f generalizing h i with
  | zero => exact ⟨hc, fun _ _ _ => Iff.rfl⟩
  | succ f ih =>
    unfold heapify_down_fuel
    by_cases hl : h.is_leaf i = true
    · rw [if_pos hl]; exact ⟨hc, fun _ _ _ => Iff.rfl⟩
    · rw [if_neg hl]
      have hne : h.child i 0 < h.current_size := by
        simp [is_leaf] at hl; omega
      obtain ⟨h1, h2, -⟩ := smallest_child_range h i hk hi.1
        (slot_fits h hk (by omega) hfN) hfN hne
      split_ifs
      · have hs := swap_consistent h hc hi ⟨by omega, h2⟩ (by omega)
        have := ih (h.swap i (h.smallest_child i)) (by simpa using hk) (by simpa using hfN)
          (by simpa using hs.1) (by simpa using ⟨by omega, h2⟩)
        refine ⟨by simpa using this.1, fun v hv0 hvc => ?_⟩
        rw [this.2 v hv0 (by simpa using hvc)]
        exact hs.2 v hv0 hvc
      · exact ⟨hc, fun _ _ _ => Iff.rfl⟩

end k_heap

/-! ## Restoring the heap order -/

namespace k_heap

/-- Sift-up repairs a heap whose only possible violation is between slot `i` and
its parent. -/
theorem heapify_up_fuel_heap (f : Nat) (h : k_heap) {N i : Int} (hk : 1 ≤ h.k)
    (hi : 0 ≤ i ∧ i < N) (hf : i ≤ f)
    (hA : ∀ j, 0 < j → j < N → j ≠ i → h.key (h.parent j) ≤ h.key j)
    (hB : ∀ j, 0 < j → j < N → h.parent j = i → 0 < i → h.key (h.parent i) ≤ h.key j) :
    (heapify_up_fuel f h i).heap_upto N := by
  induction f generalizing h i with
  | zero =>
    have : i = 0 := by simp at hf; omega
    subst this
    intro j hj0 hjN
    exact hA j hj0 hjN (by omega)
  | succ f ih =>
    unfold heapify_up_fuel
    by_cases hr : root i = true
    · rw [if_pos hr]
      have : i = 0 := by simpa [root] using hr
      subst this
      intro j hj0 hjN
      exact hA j hj0 hjN (by omega)
    · rw [if_neg hr]
      have hi0 : 0 < i := by
        simp [root] at hr; omega
      have hp0 := parent_nonneg h hk hi0
      have hpl := parent_lt h hk hi0
      by_cases hgt : h.key (h.parent i) > h.key i
      · rw [if_pos hgt]
        have hip : i ≠ h.parent i := by omega
        apply ih (h.swap i (h.parent i)) (by simpa using hk) ⟨hp0, by omega⟩
          (by push_cast at hf; omega)
        · intro j hj0 hjN hjp
          have hjl := parent_lt h hk hj0
          simp only [swap_key, swap_parent]
          by_cases e1 : j = i
          · subst e1
            simp only [if_true, hjp, if_false]
            exact le_of_lt hgt
          · have a := hA j hj0 hjN e1
            by_cases e2 : h.parent j = i
            · have b := hB j hj0 hjN e2 hi0
              simp only [e2, hip, if_false, if_true, hjp, e1]
              exact b
            · by_cases e3 : h.parent j = h.parent i
              · simp only [e3, if_true, hjp, e1, if_false]
                rw [e3] at a
                exact le_trans (le_of_lt hgt) a
              · simp only [e3, e2, hjp, e1, if_false]
                exact a
        · intro j hj0 hjN hjp hp
          simp only [swap_parent] at hjp
          have hjl := parent_lt h hk hj0
          have hppl := parent_lt h hk hp
          have a := hA (h.parent i) hp (by omega) (by omega)
          simp only [swap_key, swap_parent]
          have e0 : h.parent (h.parent i) ≠ h.parent i := by omega
          have e0' : h.parent (h.parent i) ≠ i := by omega
          have e1 : j ≠ h.parent i := by omega
          simp only [e0, e0', e1, if_false]
          by_cases e2 : j = i
          · simp only [e2, if_true]; exact a
          · simp only [e2, if_false]
            have := hA j hj0 hjN e2
            rw [hjp] at this
            exact le_trans a this
      · rw [if_neg hgt]
        intro j hj0 hjN
        by_cases e1 : j = i
        · subst e1; exact not_lt.mp hgt
        · exact hA j hj0 hjN e1

/-- Sift-down repairs a heap whose only possible violations are between slot `i`
and its children. -/
theorem heapify_down_fuel_heap (f : Nat) (h : k_heap) {i : Int} (hk : 1 ≤ h.k)
    (hi : 0 ≤ i) (hfi : h.k * i < INT_MAX) (hfN : h.k * (h.current_size - 1) < INT_MAX)
    (hf : h.current_size - i ≤ f)
    (hA : ∀ j, 0 < j → j < h.current_size → h.parent j ≠ i → h.key (h.parent j) ≤ h.key j)
    (hB : ∀ j, 0 < j → j < h.current_size → h.parent j = i → 0 < i →
      h.key (h.parent i) ≤ h.key j) :
    (heapify_down_fuel f h i).heap_upto h.current_size := by
  induction f generalizing h i with
  | zero =>
    intro j hj0 hjN
    apply hA j hj0 hjN
    intro e
    have := parent_lt h hk hj0
    simp at hf
    omega
  | succ f ih =>
    unfold heapify_down_fuel
    by_cases hl : h.is_leaf i = true
    · rw [if_pos hl]
      intro j hj0 hjN
      apply hA j hj0 hjN
      intro e
      have hb := parent_bounds h hk hj0
      rw [is_leaf_iff h hk hi hfi] at hl
      rw [e] at hb
      omega
    · rw [if_neg hl]
      have hne : h.child i 0 < h.current_size := by
        simp [is_leaf] at hl; omega
      obtain ⟨c, hc0, hck, hsc, hclt, hmin, -⟩ := smallest_child_spec h i hk hne
      obtain ⟨h1, h2, h3⟩ := smallest_child_range h i hk hi hfi hfN hne
      have hchild : ∀ j, 0 < j → j < h.current_size → h.parent j = i →
          h.key (h.smallest_child i) ≤ h.key j := by
        intro j hj0 hjN e
        have hb := parent_bounds h hk hj0
        rw [e] at hb
        have hne0 := hne
        rw [child_zero_eq h hk hi hfi] at hne0
        have hcj : h.child i (j - h.k * i - 1) = j := by
          rw [child_eq h hk hi (by omega)
            (child_fits h hk hi (by omega : j - h.k * i - 1 < h.k) hfN hne0)]
          ring
        have := hmin (j - h.k * i - 1) (by omega) (by omega) (by rw [hcj]; exact hjN)
        rw [hsc]
        rw [hcj] at this
        exact this
      by_cases hlt : h.key (h.smallest_child i) < h.key i
      · rw [if_pos hlt]
        set sc := h.smallest_child i with hscdef
        have := ih (h.swap i sc) (i := sc) (by simpa using hk) (by omega)
          (slot_fits h hk (by omega) hfN) (by simpa using hfN)
          (by simp only [swap_current_size]; push_cast at hf; omega) ?_ ?_
        · simpa using this
        · intro j hj0 hjN hjp
          simp only [swap_current_size, swap_parent] at hjN hjp
          have hjl := parent_lt h hk hj0
          simp only [swap_key, swap_parent]
          by_cases e1 : j = sc
          · have e2 : i ≠ sc := by omega
            simp only [e1, h3, e2, if_false, if_true]
            exact le_of_lt hlt
          · by_cases e2 : j = i
            · subst e2
              have hj0' : 0 < j := hj0
              have e3 : h.parent j ≠ j := by omega
              simp only [hjp, e3, e1, if_false, if_true]
              exact hB sc (by omega) h2 h3 hj0'
            · by_cases e3 : h.parent j = i
              · have e4 : i ≠ sc := by omega
                simp only [e3, e4, e1, e2, if_false, if_true]
                exact hchild j hj0 hjN e3
              · simp only [hjp, e3, e1, e2, if_false]
                exact hA j hj0 hjN e3
        · intro j hj0 hjN hjp _
          simp only [swap_current_size, swap_parent] at hjN hjp
          have hjl := parent_lt h hk hj0
          simp only [swap_key, swap_parent, h3]
          have e1 : i ≠ sc := by omega
          have e2 : j ≠ sc := by omega
          have e3 : j ≠ i := by omega
          simp only [e1, e2, e3, if_false, if_true]
          have := hA j hj0 hjN (by omega)
          rw [hjp] at this
          exact this
      · rw [if_neg hlt]
        intro j hj0 hjN
        by_cases e : h.parent j = i
        · rw [e]
          exact le_trans (not_lt.mp hlt) (hchild j hj0 hjN e)
        · exact hA j hj0 hjN e

end k_heap

/-! ## The recursion counters are never exhausted -/

namespace k_heap

theorem heapify_up_fuel_root (f : Nat) (h : k_heap) : heapify_up_fuel f h 0 = h := by
  cases f <;> simp [heapify_up_fuel, root]

theorem heapify_up_fuel_stable (f1 f2 : Nat) (h : k_heap) (i : Int) (hk : 1 ≤ h.k)
    (hi : 0 ≤ i) (h1 : i ≤ f1) (h2 : i ≤ f2) :
    heapify_up_fuel f1 h i = heapify_up_fuel f2 h i := by
  induction f1 generalizing f2 h i with
  | zero =>
    have : i = 0 := by simp at h1; omega
    subst this
    rw [heapify_up_fuel_root, heapify_up_fuel_root]
  | succ f1 ih =>
    cases f2 with
    | zero =>
      have : i = 0 := by simp at h2; omega
      subst this
      rw [heapify_up_fuel_root, heapify_up_fuel_root]
    | succ f2 =>
      conv_lhs => unfold heapify_up_fuel
      conv_rhs => unfold heapify_up_fuel
      by_cases hr : root i = true
      · simp [hr]
      · simp only [if_neg hr]
        have hi0 : 0 < i := by
          simp [root] at hr; omega
        have hpl := parent_lt h hk hi0
        have hp0 := parent_nonneg h hk hi0
        split_ifs
        · exact ih f2 (h.swap i (h.parent i)) (h.parent i) (by simpa using hk) hp0
            (by push_cast at h1; omega) (by push_cast at h2; omega)
        · rfl

/-- The recursive equation of `k_heap::heapify_up`. -/
theorem heapify_up_unfold (h : k_heap) (i : Int) (hk : 1 ≤ h.k) (hi : 0 ≤ i) :
    h.heapify_up i =
      if root i then h
      else if h.key (h.parent i) > h.key i then
        (h.swap i (h.parent i)).heapify_up (h.parent i)
      else h := by
  unfold heapify_up
  by_cases hr : root i = true
  · cases hf : i.toNat <;> simp [heapify_up_fuel, hr]
  · have hi0 : 0 < i := by
      simp [root] at hr; omega
    obtain ⟨m, hm⟩ : ∃ m, i.toNat = m + 1 := ⟨i.toNat - 1, by omega⟩
    rw [hm]
    conv_lhs => unfold heapify_up_fuel
    simp only [if_neg hr]
    have hpl := parent_lt h hk hi0
    split_ifs
    · exact heapify_up_fuel_stable _ _ _ _ (by simpa using hk) (parent_nonneg h hk hi0)
        (by omega) (by omega)
    · rfl

theorem heapify_down_fuel_stable (f1 f2 : Nat) (h : k_heap) (i : Int) (hk : 1 ≤ h.k)
    (hi : 0 ≤ i) (hfi : h.k * i < INT_MAX) (hfN : h.k * (h.current_size - 1) < INT_MAX)
    (h1 : h.current_size - i ≤ f1) (h2 : h.current_size - i ≤ f2) :
    heapify_down_fuel f1 h i = heapify_down_fuel f2 h i := by
  have leaf_of : ∀ (f : Nat), h.current_size - i ≤ 0 → heapify_down_fuel f h i = h := by
    intro f hle
    cases f with
    | zero => rfl
    | succ f =>
      unfold heapify_down_fuel
      have : h.is_leaf i = true := by
        rw [is_leaf_iff h hk hi hfi]
        nlinarith
      simp [this]
  induction f1 generalizing f2 h i with
  | zero => rw [leaf_of 0 (by simpa using h1), leaf_of f2 (by simpa using h1)]
  | succ f1 ih =>
    cases f2 with
    | zero => rw [leaf_of _ (by simpa using h2), leaf_of 0 (by simpa using h2)]
    | succ f2 =>
      conv_lhs => unfold heapify_down_fuel
      conv_rhs => unfold heapify_down_fuel
      by_cases hl : h.is_leaf i = true
      · simp [hl]
      · simp only [if_neg hl]
        have hne : h.child i 0 < h.current_size := by
          simp [is_leaf] at hl; omega
        obtain ⟨s1, s2, -⟩ := smallest_child_range h i hk hi hfi hfN hne
        split_ifs
        · apply ih f2 (h.swap i (h.smallest_child i)) (h.smallest_child i) (by simpa using hk)
            (by omega) (slot_fits h hk (by omega) hfN) (by simpa using hfN)
          · simp only [swap_current_size]; push_cast at h1; omega
          · simp only [swap_current_size]; push_cast at h2; omega
          · intro f hle
            simp only [swap_current_size] at hle
            omega
        · rfl

/-- The recursive equation of `k_heap::heapify_down`. -/
theorem heapify_down_unfold (h : k_heap) (i : Int) (hk : 1 ≤ h.k) (hi : 0 ≤ i)
    (hfi : h.k * i < INT_MAX) (hfN : h.k * (h.current_size - 1) < INT_MAX) :
    h.heapify_down i =
      if h.is_leaf i then h
      else if h.key (h.smallest_child i) < h.key i then
        (h.swap i (h.smallest_child i)).heapify_down (h.smallest_child i)
      else h := by
  unfold heapify_down
  by_cases hl : h.is_leaf i = true
  · cases hf : (h.current_size - i).toNat <;> simp [heapify_down_fuel, hl]
  · have hne : h.child i 0 < h.current_size := by
      simp [is_leaf] at hl; omega
    obtain ⟨s1, s2, -⟩ := smallest_child_range h i hk hi hfi hfN hne
    obtain ⟨m, hm⟩ : ∃ m, (h.current_size - i).toNat = m + 1 :=
      ⟨(h.current_size - i).toNat - 1, by omega⟩
    rw [hm]
    conv_lhs => unfold heapify_down_fuel
    simp only [if_neg hl]
    split_ifs
    · have hs := slot_fits h hk (show h.smallest_child i ≤ h.current_size - 1 by omega) hfN
      apply heapify_down_fuel_stable m _ (h.swap i (h.smallest_child i)) (h.smallest_child i)
        (by simpa using hk) (by omega) hs hfN
      · simp only [swap_current_size]; omega
      · simp only [swap_current_size]; omega
    · rfl

end k_heap

/-! ## Heap order and consistency depend on few fields -/

namespace k_heap

theorem heap_upto_congr {h1 h2 : k_heap} {N : Int} (hk : h1.k = h2.k)
    (hkey : ∀ i, 0 ≤ i → i < N → h1.key i = h2.key i) (hh : h1.heap_upto N) (hk1 : 1 ≤ h1.k) :
    h2.heap_upto N := by
  intro i hi0 hiN
  have hp : h2.parent i = h1.parent i := by unfold parent; rw [hk]
  have hp0 := parent_nonneg h1 hk1 hi0
  have hpl := parent_lt h1 hk1 hi0
  rw [hp, ← hkey i (by omega) hiN, ← hkey (h1.parent i) hp0 (by omega)]
  exact hh i hi0 hiN

/-- In a heap the root carries a least key. -/
theorem root_min (h : k_heap) {N : Int} (hk : 1 ≤ h.k) (hh : h.heap_upto N) :
    ∀ i, 0 ≤ i → i < N → h.key 0 ≤ h.key i := by
  have main : ∀ (n : Nat) (i : Int), 0 ≤ i → i ≤ n → i < N → h.key 0 ≤ h.key i := by
    intro n
    induction n with
    | zero =>
      intro i h0 h1 _
      have : i = 0 := by simp at h1; omega
      subst this; exact le_refl _
    | succ n ih =>
      intro i h0 h1 h2
      by_cases hi : i = 0
      · subst hi; exact le_refl _
      · have hi0 : 0 < i := by omega
        have hp0 := parent_nonneg h hk hi0
        have hpl := parent_lt h hk hi0
        exact le_trans (ih (h.parent i) hp0 (by push_cast at h1; omega) (by omega))
          (hh i hi0 h2)
  intro i h0 h1
  exact main i.toNat i h0 (by omega) h1

theorem valid.arity_pos {h : k_heap} (hv : h.valid) : 1 ≤ h.k := by
  have := hv.arity
  omega

/-- A vertex that is absent from the heap occupies no slot. -/
theorem absent_not_in_slots (h : k_heap) {N v : Int} (hc : h.slots_consistent N)
    (habs : h.positions v = -1) : ∀ i, 0 ≤ i → i < N → h.heap_arr i ≠ v := by
  intro i h0 h1 e
  have := (hc.1 i h0 h1).2
  rw [e, habs] at this
  omega

/-- A vertex that is in the heap occupies exactly the slot `positions` names. -/
theorem slot_of_present (h : k_heap) {N v : Int} (hc : h.slots_consistent N)
    (hv : 0 ≤ v ∧ v < h.capacity) (hp : h.positions v ≠ -1) :
    ∀ i, 0 ≤ i → i < N → (h.heap_arr i = v ↔ i = h.positions v) := by
  intro i h0 h1
  constructor
  · intro e
    have := (hc.1 i h0 h1).2
    rw [e] at this
    exact this.symm
  · intro e
    rw [e]
    exact (hc.2 v hv.1 hv.2 hp).2

end k_heap

/-! ## `insert` and `setDistance` -/

namespace k_heap

/-- The state of `insert` after the two array writes, before the sift-up. -/
theorem insert_placed (h : k_heap) (v : Int) (hv : h.valid) (hr : 0 ≤ v ∧ v < h.capacity)
    (habs : h.positions v = -1) :
    let h2 : k_heap :=
      { h with heap_arr := Function.update h.heap_arr h.current_size v
               positions := Function.update h.positions v h.current_size }
    h2.slots_consistent (h.current_size + 1) ∧
    (∀ j, 0 < j → j < h.current_size + 1 → j ≠ h.current_size →
      h2.key (h2.parent j) ≤ h2.key j) ∧
    (∀ j, 0 < j → j < h.current_size + 1 → h2.parent j ≠ h.current_size) := by
  intro h2
  have hk := hv.arity_pos
  have hs := hv.size_nonneg
  have hslot := absent_not_in_slots h hv.index habs
  have harr : ∀ x, x ≠ h.current_size → h2.heap_arr x = h.heap_arr x := by
    intro x hx
    simp [h2, Function.update_apply, hx]
  have hpar : ∀ x, h2.parent x = h.parent x := fun _ => rfl
  refine ⟨⟨?_, ?_⟩, ?_, ?_⟩
  · intro x hx0 hxN
    by_cases hx : x = h.current_size
    · subst hx
      simp [h2, hr.1, hr.2, Function.update_apply]
    · have hx' : x < h.current_size := by omega
      have := hv.index.1 x hx0 hx'
      have hne := hslot x hx0 hx'
      rw [harr x hx]
      refine ⟨this.1, ?_⟩
      simp only [h2, Function.update_apply, hne, if_false]
      exact this.2
  · intro u hu0 huc hpos
    by_cases hu : u = v
    · subst hu
      simp [h2, hs, Function.update_apply]
    · have hpos' : h.positions u ≠ -1 := by
        simpa [h2, Function.update_apply, hu] using hpos
      have := hv.index.2 u hu0 huc hpos'
      have e : h2.positions u = h.positions u := by
        simp [h2, Function.update_apply, hu]
      rw [e, harr _ (by omega)]
      exact ⟨⟨this.1.1, by omega⟩, this.2⟩
  · intro j hj0 hjN hj
    have hpl := parent_lt h hk hj0
    have hp0 := parent_nonneg h hk hj0
    have := hv.heap j hj0 (by omega)
    unfold key
    rw [hpar, harr _ (by omega), harr _ (by omega)]
    exact this
  · intro j hj0 hjN
    have hpl := parent_lt h hk hj0
    rw [hpar]
    omega

/-- The effect of `insert` on a valid heap: the result is valid, holds one vertex
more, and no distance has changed. -/
theorem insert_spec (h : k_heap) (v : Int) (hv : h.valid) (hr : 0 ≤ v ∧ v < h.capacity)
    (habs : h.positions v = -1) :
    (h.insert v).valid ∧ (h.insert v).dist = h.dist ∧ (h.insert v).capacity = h.capacity ∧
    (h.insert v).k = h.k ∧ (h.insert v).current_size = h.current_size + 1 ∧
    ∀ u, 0 ≤ u → u < h.capacity →
      ((h.insert v).positions u ≠ -1 ↔ (u = v ∨ h.positions u ≠ -1)) := by
  obtain ⟨hc2, hA, hB⟩ := insert_placed h v hv hr habs
  have hk := hv.arity_pos
  have hs := hv.size_nonneg
  set h2 : k_heap :=
    { h with heap_arr := Function.update h.heap_arr h.current_size v
             positions := Function.update h.positions v h.current_size } with h2def
  have hk2 : 1 ≤ h2.k := hk
  have hup : (h2.heapify_up h.current_size).heap_upto (h.current_size + 1) :=
    heapify_up_fuel_heap _ h2 hk2 ⟨hs, by omega⟩ (by omega) hA
      (fun j hj0 hjN e => absurd e (hB j hj0 hjN))
  have hcons := heapify_up_fuel_consistent h.current_size.toNat h2 hk2 hc2 ⟨hs, by omega⟩
  have hsz : (h2.heapify_up h.current_size).current_size = h.current_size := by simp [h2]
  refine ⟨⟨?_, ?_, ?_, ?_⟩, ?_, ?_, ?_, ?_, ?_⟩
  · show 2 ≤ (h2.heapify_up h.current_size).k
    simpa [h2] using hv.arity
  · show 0 ≤ (h2.heapify_up h.current_size).current_size + 1
    omega
  · show (h2.heapify_up h.current_size).heap_upto
      ((h2.heapify_up h.current_size).current_size + 1)
    rw [hsz]; exact hup
  · show (h2.heapify_up h.current_size).slots_consistent
      ((h2.heapify_up h.current_size).current_size + 1)
    rw [hsz]; exact hcons.1
  · show (h2.heapify_up h.current_size).dist = h.dist
    simp [h2]
  · show (h2.heapify_up h.current_size).capacity = h.capacity
    simp [h2]
  · show (h2.heapify_up h.current_size).k = h.k
    simp [h2]
  · show (h2.heapify_up h.current_size).current_size + 1 = h.current_size + 1
    omega
  · intro u hu0 huc
    show (h2.heapify_up h.current_size).positions u ≠ -1 ↔ _
    rw [show h2.heapify_up h.current_size = heapify_up_fuel h.current_size.toNat h2
      h.current_size from rfl, hcons.2 u hu0 huc]
    by_cases hu : u = v
    · subst hu
      simp [h2]; omega
    · simp [h2, Function.update_apply, hu]

/-- Changing the distance of a vertex that is not in the heap keeps the heap valid. -/
theorem setDistance_absent (h : k_heap) (v d : Int) (hv : h.valid)
    (habs : h.positions v = -1) : (h.setDistance v d).valid := by
  have hslot := absent_not_in_slots h hv.index habs
  refine ⟨hv.arity, hv.size_nonneg, ?_, hv.index⟩
  show (h.setDistance v d).heap_upto h.current_size
  apply @heap_upto_congr h (h.setDistance v d) _ rfl _ hv.heap hv.arity_pos
  intro i hi0 hiN
  show h.dist (h.heap_arr i) = Function.update h.dist v d (h.heap_arr i)
  rw [Function.update_noteq (hslot i hi0 hiN)]

end k_heap

/-! ## `update` -/

namespace k_heap

/-- The effect of `update` on a vertex that is in the heap, for any new value:
the result is valid, the same vertices are in the heap, and only the distance
of `v` has changed. -/
theorem update_present_spec (h : k_heap) (v d : Int) (hv : h.valid)
    (hr : 0 ≤ v ∧ v < h.capacity) (hp : h.positions v ≠ -1)
    (hfit : d > h.dist v → h.k * (h.current_size - 1) < INT_MAX) :
    (h.update v d).valid ∧ (h.update v d).dist = Function.update h.dist v d ∧
    (h.update v d).capacity = h.capacity ∧ (h.update v d).k = h.k ∧
    (h.update v d).current_size = h.current_size ∧
    ∀ u, 0 ≤ u → u < h.capacity → ((h.update v d).positions u ≠ -1 ↔ h.positions u ≠ -1) := by
  have hk := hv.arity_pos
  obtain ⟨⟨hi0, hiN⟩, hiv⟩ := hv.index.2 v hr.1 hr.2 hp
  have hslot := slot_of_present h hv.index hr hp
  set i := h.positions v with hidef
  set h1 : k_heap := { h with dist := Function.update h.dist v d } with h1def
  have hk1 : 1 ≤ h1.k := hk
  have hc1 : h1.slots_consistent h1.current_size := hv.index
  have hkey : ∀ x, 0 ≤ x → x < h.current_size →
      h1.key x = if x = i then d else h.key x := by
    intro x hx0 hxN
    show Function.update h.dist v d (h.heap_arr x) = _
    by_cases hx : x = i
    · rw [if_pos hx, hx, hiv, Function.update_same]
    · rw [if_neg hx, Function.update_noteq (fun e => hx ((hslot x hx0 hxN).1 e))]
      rfl
  have hki : h.key i = h.dist v := by unfold key; rw [hiv]
  have hpar : ∀ x, h1.parent x = h.parent x := fun _ => rfl
  have hsz : h1.current_size = h.current_size := rfl
  unfold update
  rw [if_neg hp]
  simp only []
  by_cases hlt : d < h.dist v
  · rw [if_pos hlt]
    have hup : (h1.heapify_up i).heap_upto h.current_size := by
      apply heapify_up_fuel_heap _ h1 hk1 ⟨hi0, hiN⟩ (by omega)
      · intro j hj0 hjN hji
        have hpl := parent_lt h hk hj0
        have hp0 := parent_nonneg h hk hj0
        have a := hv.heap j hj0 hjN
        rw [hpar, hkey j (by omega) hjN, hkey _ hp0 (by omega), if_neg hji]
        by_cases e : h.parent j = i
        · rw [if_pos e]; rw [e] at a; omega
        · rw [if_neg e]; exact a
      · intro j hj0 hjN e hi0'
        have hpl := parent_lt h hk hi0'
        have hp0 := parent_nonneg h hk hi0'
        have hjl := parent_lt h hk hj0
        rw [hpar] at e
        have a := hv.heap j hj0 hjN
        have b := hv.heap i hi0' hiN
        rw [hpar, hkey j (by omega) hjN, hkey _ hp0 (by omega), if_neg (by omega),
          if_neg (by omega)]
        rw [e] at a
        omega
    have hcons := heapify_up_fuel_consistent i.toNat h1 hk1 hc1 ⟨hi0, hiN⟩
    exact ⟨⟨by simpa [h1] using hv.arity, by simpa [h1] using hv.size_nonneg,
      by show (h1.heapify_up i).heap_upto (h1.heapify_up i).current_size
         rw [heapify_up_current_size]; exact hup,
      by show (h1.heapify_up i).slots_consistent (h1.heapify_up i).current_size
         rw [heapify_up_current_size]; exact hcons.1⟩,
      by simp [h1], by simp [h1], by simp [h1], by simp [h1], hcons.2⟩
  · rw [if_neg hlt]
    by_cases hgt : d > h.dist v
    · rw [if_pos hgt]
      have hdown : (h1.heapify_down i).heap_upto h.current_size := by
        apply heapify_down_fuel_heap _ h1 hk1 hi0 (slot_fits h hk (by omega) (hfit hgt))
          (hfit hgt) (by rw [hsz]; omega)
        · intro j hj0 hjN hji
          rw [hsz] at hjN
          rw [hpar] at hji
          have hpl := parent_lt h hk hj0
          have hp0 := parent_nonneg h hk hj0
          have a := hv.heap j hj0 hjN
          rw [hpar, hkey j (by omega) hjN, hkey _ hp0 (by omega), if_neg hji]
          by_cases e : j = i
          · rw [if_pos e]; rw [e] at a ⊢; omega
          · rw [if_neg e]; exact a
        · intro j hj0 hjN e hi0'
          rw [hsz] at hjN
          rw [hpar] at e
          have hpl := parent_lt h hk hi0'
          have hp0 := parent_nonneg h hk hi0'
          have hjl := parent_lt h hk hj0
          have a := hv.heap j hj0 hjN
          have b := hv.heap i hi0' hiN
          rw [hpar, hkey j (by omega) hjN, hkey _ hp0 (by omega), if_neg (by omega),
            if_neg (by omega)]
          rw [e] at a
          omega
      have hcons := heapify_down_fuel_consistent (h1.current_size - i).toNat h1 hk1 (hfit hgt)
        hc1 ⟨hi0, hiN⟩
      exact ⟨⟨by simpa [h1] using hv.arity, by simpa [h1] using hv.size_nonneg,
        by show (h1.heapify_down i).heap_upto (h1.heapify_down i).current_size
           rw [heapify_down_current_size]; exact hdown,
        by show (h1.heapify_down i).slots_consistent (h1.heapify_down i).current_size
           rw [heapify_down_current_size]; exact hcons.1⟩,
        by simp [h1], by simp [h1], by simp [h1], by simp [h1], hcons.2⟩
    · rw [if_neg hgt]
      have hd : d = h.dist v := by omega
      refine ⟨⟨hv.arity, hv.size_nonneg, ?_, hv.index⟩, rfl, rfl, rfl, rfl,
        fun _ _ _ => Iff.rfl⟩
      show h1.heap_upto h.current_size
      apply @heap_upto_congr h h1 _ rfl _ hv.heap hk
      intro x hx0 hxN
      rw [hkey x hx0 hxN]
      by_cases hx : x = i
      · rw [if_pos hx, hx, hki, hd]
      · rw [if_neg hx]

/-- The effect of `update` on a vertex that is not in the heap: its distance is
set and it is inserted. -/
theorem update_absent_spec (h : k_heap) (v d : Int) (hv : h.valid)
    (hr : 0 ≤ v ∧ v < h.capacity) (habs : h.positions v = -1) :
    (h.update v d).valid ∧ (h.update v d).dist = Function.update h.dist v d ∧
    (h.update v d).capacity = h.capacity ∧ (h.update v d).k = h.k ∧
    (h.update v d).current_size = h.current_size + 1 ∧
    ∀ u, 0 ≤ u → u < h.capacity →
      ((h.update v d).positions u ≠ -1 ↔ (u = v ∨ h.positions u ≠ -1)) := by
  have e : h.update v d = (h.setDistance v d).insert v := by
    unfold update
    rw [if_pos habs]
    rfl
  rw [e]
  exact insert_spec (h.setDistance v d) v (setDistance_absent h v d hv habs) hr habs

end k_heap

/-! ## `deleteKey`, `deleteMin` and `getMin` -/

namespace k_heap

/-- The state of `deleteKey i` after the array writes and the decrement, before
the repair. -/
theorem deleteKey_moved (h : k_heap) (i : Int) (hcons : h.index_consistent)
    (hi : 0 ≤ i ∧ i < h.current_size) :
    let a := Function.update h.heap_arr i (h.heap_arr (h.current_size - 1))
    let h1 : k_heap :=
      { h with heap_arr := a
               positions := Function.update (Function.update h.positions (a i) i)
                 (h.heap_arr i) (-1)
               current_size := h.current_size - 1 }
    h1.slots_consistent (h.current_size - 1) ∧
    (∀ u, 0 ≤ u → u < h.capacity →
      (h1.positions u ≠ -1 ↔ (u ≠ h.heap_arr i ∧ h.positions u ≠ -1))) ∧
    (∀ x, h1.key x = if x = i then h.key (h.current_size - 1) else h.key x) := by
  intro a h1
  have hN : 0 ≤ h.current_size - 1 ∧ h.current_size - 1 < h.current_size := by omega
  have hai : a i = h.heap_arr (h.current_size - 1) := by simp [a]
  have harr : ∀ x, h1.heap_arr x = if x = i then h.heap_arr (h.current_size - 1)
      else h.heap_arr x := by
    intro x
    simp [h1, a, Function.update_apply]
  have hpos : ∀ u, h1.positions u = if u = h.heap_arr i then -1
      else if u = h.heap_arr (h.current_size - 1) then i else h.positions u := by
    intro u
    show Function.update (Function.update h.positions (a i) i) (h.heap_arr i) (-1) u = _
    rw [hai]
    simp [Function.update_apply]
  have hinj := fun x y hx hy => @slots_consistent_inj h h.current_size x y hcons hx hy
  have hpi := hcons.1 i hi.1 hi.2
  have hpN := hcons.1 _ hN.1 hN.2
  refine ⟨⟨?_, ?_⟩, ?_, ?_⟩
  · intro x hx0 hxN
    have hpx := hcons.1 x hx0 (by omega)
    rw [harr, hpos]
    by_cases hx : x = i
    · subst hx
      have : h.heap_arr (h.current_size - 1) ≠ h.heap_arr x := fun e => by
        have := hinj _ _ hN hi e; omega
      simp [this, hpN.1]
    · have e1 : h.heap_arr x ≠ h.heap_arr i := fun e => hx (hinj _ _ ⟨hx0, by omega⟩ hi e)
      have e2 : h.heap_arr x ≠ h.heap_arr (h.current_size - 1) := fun e => by
        have := hinj _ _ ⟨hx0, by omega⟩ hN e; omega
      simp [hx, e1, e2, hpx.1, hpx.2]
  · intro u hu0 huc hu
    rw [hpos] at hu ⊢
    rw [harr]
    by_cases e1 : u = h.heap_arr i
    · simp [e1] at hu
    · simp only [e1, if_false] at hu ⊢
      by_cases e2 : u = h.heap_arr (h.current_size - 1)
      · simp only [e2, if_true]
        have : i ≠ h.current_size - 1 := fun e => e1 (by rw [e2, e])
        exact ⟨⟨hi.1, by omega⟩, trivial⟩
      · simp only [e2, if_false] at hu ⊢
        have hp := hcons.2 u hu0 huc hu
        have e3 : h.positions u ≠ i := fun e => e1 (by rw [← e]; exact hp.2.symm)
        have e4 : h.positions u ≠ h.current_size - 1 :=
          fun e => e2 (by rw [← e]; exact hp.2.symm)
        simp only [e3, if_false]
        exact ⟨⟨hp.1.1, by omega⟩, hp.2⟩
  · intro u hu0 huc
    rw [hpos]
    by_cases e1 : u = h.heap_arr i
    · simp [e1]
    · by_cases e2 : u = h.heap_arr (h.current_size - 1)
      · have : h.positions u = h.current_size - 1 := by rw [e2]; exact hpN.2
        simp only [e1, if_false, e2, if_true, ne_eq, not_false_eq_true, true_and]
        rw [e2] at this
        constructor <;> intro _ <;> omega
      · simp [e1, e2]
  · intro x
    unfold key
    rw [harr]
    split_ifs <;> rfl

end k_heap

namespace k_heap

/-- The effect of `deleteKey i` on a valid heap, `0 ≤ i < current_size`: it
succeeds, the result is valid, the vertex of slot `i` has left the heap and no
other vertex has, and no distance has changed. -/
theorem deleteKey_spec (h : k_heap) (i : Int) (hv : h.valid)
    (hi : 0 ≤ i ∧ i < h.current_size) (hfit : h.k * (h.current_size - 1) < INT_MAX) :
    ∃ h', h.deleteKey i = .ok h' ∧ h'.valid ∧ h'.dist = h.dist ∧
      h'.capacity = h.capacity ∧ h'.k = h.k ∧ h'.current_size = h.current_size - 1 ∧
      ∀ u, 0 ≤ u → u < h.capacity →
        (h'.positions u ≠ -1 ↔ (u ≠ h.heap_arr i ∧ h.positions u ≠ -1)) := by
  obtain ⟨hc1, hmem, hkey⟩ := deleteKey_moved h i hv.index hi
  have hk := hv.arity_pos
  set h1 : k_heap :=
    { h with heap_arr := Function.update h.heap_arr i (h.heap_arr (h.current_size - 1))
             positions := Function.update (Function.update h.positions
               (Function.update h.heap_arr i (h.heap_arr (h.current_size - 1)) i) i)
               (h.heap_arr i) (-1)
             current_size := h.current_size - 1 } with h1def
  have hk1 : 1 ≤ h1.k := hk
  have hpar : ∀ x, h1.parent x = h.parent x := fun _ => rfl
  have hsz : h1.current_size = h.current_size - 1 := rfl
  have hcap : h1.capacity = h.capacity := rfl
  have hfi : h1.k * i < INT_MAX := slot_fits h hk (by omega) hfit
  have hfit1 : h1.k * (h1.current_size - 1) < INT_MAX := by
    show h.k * (h.current_size - 1 - 1) < INT_MAX
    nlinarith
  have hB : ∀ j, 0 < j → j < h.current_size - 1 → h1.parent j = i → 0 < i →
      h1.key (h1.parent i) ≤ h1.key j := by
    intro j hj0 hjN e hi0
    rw [hpar] at e
    have hpl := parent_lt h hk hi0
    have hjl := parent_lt h hk hj0
    have a := hv.heap j hj0 (by omega)
    have b := hv.heap i hi0 hi.2
    rw [hpar, hkey, hkey, if_neg (by omega), if_neg (by omega)]
    rw [e] at a
    omega
  have e : h.deleteKey i =
      if i > 0 ∧ h1.key i < h1.key (h1.parent i) then .ok (h1.heapify_up i)
      else .ok (h1.heapify_down i) := by
    unfold deleteKey
    rw [if_neg (by omega)]
    rfl
  rw [e]
  by_cases hc : i > 0 ∧ h1.key i < h1.key (h1.parent i)
  · rw [if_pos hc]
    obtain ⟨hi0, hlt⟩ := hc
    have hpl := parent_lt h hk hi0
    rw [hpar, hkey, hkey, if_pos rfl, if_neg (by omega)] at hlt
    have hiN : i < h.current_size - 1 := by
      by_contra hcon
      have : i = h.current_size - 1 := by omega
      have b := hv.heap i hi0 hi.2
      rw [← this] at hlt
      omega
    have hup : (h1.heapify_up i).heap_upto (h.current_size - 1) := by
      apply heapify_up_fuel_heap _ h1 hk1 ⟨hi.1, hiN⟩ (by omega) _ hB
      intro j hj0 hjN hji
      have hjl := parent_lt h hk hj0
      have a := hv.heap j hj0 (by omega)
      rw [hpar, hkey, hkey, if_neg hji]
      by_cases e2 : h.parent j = i
      · rw [if_pos e2]
        have b := hv.heap i hi0 hi.2
        rw [e2] at a
        omega
      · rw [if_neg e2]; exact a
    have hcons := heapify_up_fuel_consistent i.toNat h1 hk1 hc1 ⟨hi.1, hiN⟩
    refine ⟨_, rfl, ⟨by simpa [h1] using hv.arity, ?_, ?_, ?_⟩, by simp [h1], by simp [h1],
      by simp [h1], by simp [h1], ?_⟩
    · rw [heapify_up_current_size, hsz]; omega
    · show (h1.heapify_up i).heap_upto (h1.heapify_up i).current_size
      rw [heapify_up_current_size]; exact hup
    · show (h1.heapify_up i).slots_consistent (h1.heapify_up i).current_size
      rw [heapify_up_current_size]; exact hcons.1
    · intro u hu0 huc
      rw [← hmem u hu0 huc]
      exact hcons.2 u hu0 huc
  · rw [if_neg hc]
    have hdown : (h1.heapify_down i).heap_upto (h.current_size - 1) := by
      apply heapify_down_fuel_heap _ h1 hk1 hi.1 hfi hfit1 (by rw [hsz]; omega) _ hB
      intro j hj0 hjN hji
      rw [hsz] at hjN
      rw [hpar] at hji
      have hjl := parent_lt h hk hj0
      have a := hv.heap j hj0 (by omega)
      rw [hpar, hkey, hkey, if_neg hji]
      by_cases e2 : j = i
      · rw [if_pos e2]
        rw [e2] at hj0 ⊢
        have hpl := parent_lt h hk hj0
        have : ¬ h1.key i < h1.key (h1.parent i) := fun hlt => hc ⟨hj0, hlt⟩
        rw [hpar, hkey, hkey, if_pos rfl, if_neg (by omega)] at this
        omega
      · rw [if_neg e2]; exact a
    have hcons : (h1.heapify_down i).slots_consistent (h.current_size - 1) ∧
        ∀ u, 0 ≤ u → u < h1.capacity →
          ((h1.heapify_down i).positions u ≠ -1 ↔ h1.positions u ≠ -1) := by
      by_cases hiN : i < h.current_size - 1
      · exact heapify_down_fuel_consistent _ h1 hk1 hfit1 hc1 ⟨hi.1, hiN⟩
      · have : (h1.current_size - i).toNat = 0 := by rw [hsz]; omega
        have e0 : h1.heapify_down i = h1 := by
          unfold heapify_down
          rw [this]
          rfl
        rw [e0]
        exact ⟨hc1, fun _ _ _ => Iff.rfl⟩
    refine ⟨_, rfl, ⟨by simpa [h1] using hv.arity, ?_, ?_, ?_⟩, by simp [h1], by simp [h1],
      by simp [h1], by simp [h1], ?_⟩
    · rw [heapify_down_current_size, hsz]; omega
    · show (h1.heapify_down i).heap_upto (h1.heapify_down i).current_size
      rw [heapify_down_current_size]; exact hdown
    · show (h1.heapify_down i).slots_consistent (h1.heapify_down i).current_size
      rw [heapify_down_current_size]; exact hcons.1
    · intro u hu0 huc
      rw [← hmem u hu0 huc]
      exact hcons.2 u hu0 huc

/-- On a non-empty valid heap `getMin` returns the vertex of slot 0, which is in
the heap and carries a least distance among the vertices in the heap. -/
theorem getMin_spec (h : k_heap) (hv : h.valid) (hne : 0 < h.current_size) :
    h.getMin = .ok (h.heap_arr 0) ∧
    (0 ≤ h.heap_arr 0 ∧ h.heap_arr 0 < h.capacity) ∧ h.positions (h.heap_arr 0) = 0 ∧
    (∀ i, 0 ≤ i → i < h.current_size → h.dist (h.heap_arr 0) ≤ h.dist (h.heap_arr i)) ∧
    (∀ u, 0 ≤ u → u < h.capacity → h.positions u ≠ -1 →
      h.dist (h.heap_arr 0) ≤ h.dist u) := by
  have h0 := hv.index.1 0 (le_refl _) hne
  have hmin := root_min h hv.arity_pos hv.heap
  refine ⟨?_, h0.1, h0.2, hmin, ?_⟩
  · unfold getMin
    rw [if_neg (by omega)]
  · intro u hu0 huc hpos
    have hp := hv.index.2 u hu0 huc hpos
    have := hmin _ hp.1.1 hp.1.2
    unfold key at this
    rw [hp.2] at this
    exact this

/-- On a non-empty heap `deleteMin` is `deleteKey 0`. -/
theorem deleteMin_eq (h : k_heap) (hne : 0 < h.current_size) : h.deleteMin = h.deleteKey 0 := by
  unfold deleteMin
  rw [if_neg (by omega)]

end k_heap

/-! ## The number of occupied slots -/

namespace k_heap

/-- An index-consistent heap has at most `capacity` occupied slots. -/
theorem size_le_capacity (h : k_heap) {N : Int} (hc : h.slots_consistent N) (hN : 0 < N) :
    N ≤ h.capacity := by
  have hinj := fun x y hx hy => @slots_consistent_inj h N x y hc hx hy
  have hcard : (Finset.range N.toNat).card ≤ (Finset.range h.capacity.toNat).card := by
    apply Finset.card_le_card_of_injOn (fun j : Nat => (h.heap_arr (j : Int)).toNat)
    · intro j hj
      have hj' : j < N.toNat := by simpa using hj
      have := (hc.1 (j : Int) (by omega) (by omega)).1
      rw [Finset.mem_range]
      omega
    · intro j1 h1 j2 h2 e
      have h1' : j1 < N.toNat := by simpa using h1
      have h2' : j2 < N.toNat := by simpa using h2
      have r1 := (hc.1 (j1 : Int) (by omega) (by omega)).1
      have r2 := (hc.1 (j2 : Int) (by omega) (by omega)).1
      have e' : h.heap_arr (j1 : Int) = h.heap_arr (j2 : Int) := by
        simp only at e
        omega
      have := hinj (j1 : Int) (j2 : Int) ⟨by omega, by omega⟩ ⟨by omega, by omega⟩ e'
      omega
  rw [Finset.card_range, Finset.card_range] at hcard
  omega

/-- An index-consistent heap that lacks a vertex of `0 .. capacity-1` has a free slot. -/
theorem size_lt_capacity_of_absent (h : k_heap) {N : Int} (hc : h.slots_consistent N)
    (hN : 0 ≤ N) {v : Int} (hr : 0 ≤ v ∧ v < h.capacity) (habs : h.positions v = -1) :
    N < h.capacity := by
  have hinj := fun x y hx hy => @slots_consistent_inj h N x y hc hx hy
  have hcard : (Finset.range N.toNat).card ≤
      ((Finset.range h.capacity.toNat).erase v.toNat).card := by
    apply Finset.card_le_card_of_injOn (fun j : Nat => (h.heap_arr (j : Int)).toNat)
    · intro j hj
      have hj' : j < N.toNat := by simpa using hj
      have := hc.1 (j : Int) (by omega) (by omega)
      have hne : h.heap_arr (j : Int) ≠ v := fun e => by
        have h2 := this.2
        rw [e, habs] at h2
        omega
      rw [Finset.mem_erase, Finset.mem_range]
      omega
    · intro j1 h1 j2 h2 e
      have h1' : j1 < N.toNat := by simpa using h1
      have h2' : j2 < N.toNat := by simpa using h2
      have r1 := (hc.1 (j1 : Int) (by omega) (by omega)).1
      have r2 := (hc.1 (j2 : Int) (by omega) (by omega)).1
      have e' : h.heap_arr (j1 : Int) = h.heap_arr (j2 : Int) := by
        simp only at e
        omega
      have := hinj (j1 : Int) (j2 : Int) ⟨by omega, by omega⟩ ⟨by omega, by omega⟩ e'
      omega
  have hmem : v.toNat ∈ Finset.range h.capacity.toNat := by
    rw [Finset.mem_range]
    omega
  rw [Finset.card_range, Finset.card_erase_of_mem hmem, Finset.card_range] at hcard
  omega

/-- On a valid heap the index arithmetic of the occupied slots fits into an `int` as soon as
that of the slots `0 .. capacity-1` does. -/
theorem valid.fits {h : k_heap} (hv : h.valid) (hfit : h.k * (h.capacity - 1) < INT_MAX) :
    h.k * (h.current_size - 1) < INT_MAX := by
  have hk := hv.arity
  by_cases hs : 0 < h.current_size
  · have hle := size_le_capacity h hv.index hs
    have : h.k * (h.current_size - 1) ≤ h.k * (h.capacity - 1) :=
      mul_le_mul_of_nonneg_left (by omega) (by omega)
    omega
  · have h0 : h.current_size = 0 := by
      have := hv.size_nonneg
      omega
    rw [h0]
    unfold INT_MAX
    omega

end k_heap

/-! ## The array accesses of the heap methods stay within bounds -/

namespace k_heap

theorem swap_slots_in_bounds (h : k_heap) {N i j : Int}
    (hr : ∀ x, 0 ≤ x → x < N → h.in_bounds (h.heap_arr x)) (hi : 0 ≤ i ∧ i < N)
    (hj : 0 ≤ j ∧ j < N) :
    ∀ x, 0 ≤ x → x < N → (h.swap i j).in_bounds ((h.swap i j).heap_arr x) := by
  intro x hx0 hxN
  rw [swap_heap_arr]
  split_ifs
  · exact hr i hi.1 hi.2
  · exact hr j hj.1 hj.2
  · exact hr x hx0 hxN

theorem heapify_up_fuel_in_bounds (f : Nat) (h : k_heap) {N i : Int} (hk : 1 ≤ h.k)
    (hr : ∀ x, 0 ≤ x → x < N → h.in_bounds (h.heap_arr x)) (hN : N ≤ h.capacity)
    (hi : 0 ≤ i ∧ i < N) : heapify_up_in_bounds_fuel f h i := by
  induction f generalizing h i with
  | zero => trivial
  | succ f ih =>
    unfold heapify_up_in_bounds_fuel
    by_cases hroot : root i = true
    · rw [if_pos hroot]
      trivial
    · rw [if_neg hroot]
      have hi0 : 0 < i := by
        simp [root] at hroot; omega
      have hpl := parent_lt h hk hi0
      have hp0 := parent_nonneg h hk hi0
      have a := hr i hi.1 hi.2
      have b := hr (h.parent i) hp0 (by omega)
      refine ⟨⟨⟨hp0, by omega⟩, b⟩, ⟨⟨hi.1, by omega⟩, a⟩, ?_⟩
      intro _
      refine ⟨⟨⟨hi.1, by omega⟩, ⟨hp0, by omega⟩, b, a⟩, ?_⟩
      exact ih (h.swap i (h.parent i)) hk
        (swap_slots_in_bounds h hr hi ⟨hp0, by omega⟩) hN ⟨hp0, by omega⟩

theorem heapify_down_fuel_in_bounds (f : Nat) (h : k_heap) {i : Int} (hk : 1 ≤ h.k)
    (hfN : h.k * (h.current_size - 1) < INT_MAX)
    (hr : ∀ x, 0 ≤ x → x < h.current_size → h.in_bounds (h.heap_arr x))
    (hN : h.current_size ≤ h.capacity) (hi : 0 ≤ i ∧ i < h.current_size) :
    heapify_down_in_bounds_fuel f h i := by
  induction f generalizing h i with
  | zero => trivial
  | succ f ih =>
    unfold heapify_down_in_bounds_fuel
    by_cases hl : h.is_leaf i = true
    · rw [if_pos hl]
      trivial
    · rw [if_neg hl]
      have hfi := slot_fits h hk (by omega : i ≤ h.current_size - 1) hfN
      have hne : h.child i 0 < h.current_size := by
        simp [is_leaf] at hl; omega
      obtain ⟨s1, s2, -⟩ := smallest_child_range h i hk hi.1 hfi hfN hne
      have hne0 := hne
      rw [child_zero_eq h hk hi.1 hfi] at hne0
      have a := hr i hi.1 hi.2
      have b := hr (h.smallest_child i) (by omega) s2
      refine ⟨?_, ⟨⟨hi.1, by omega⟩, a⟩, ?_⟩
      · intro j hj0 hjk hlt
        have hcg := child_gt h hk hi.1 hj0 (child_fits h hk hi.1 hjk hfN hne0)
        exact ⟨⟨by omega, by omega⟩, hr (h.child i j) (by omega) hlt⟩
      · intro _
        refine ⟨⟨⟨hi.1, by omega⟩, ⟨by omega, by omega⟩, b, a⟩, ?_⟩
        exact ih (h.swap i (h.smallest_child i)) hk hfN
          (swap_slots_in_bounds h hr hi ⟨by omega, s2⟩) hN ⟨by omega, s2⟩

/-- The accesses of `insert(v)` on a heap with a free slot are within bounds. -/
theorem insert_in_bounds_of_slots (h : k_heap) (v : Int) (hk : 1 ≤ h.k)
    (hs : 0 ≤ h.current_size)
    (hr : ∀ x, 0 ≤ x → x < h.current_size → h.in_bounds (h.heap_arr x))
    (hv : 0 ≤ v ∧ v < h.capacity) (hsz : h.current_size < h.capacity) :
    h.insert_in_bounds v := by
  refine ⟨⟨hs, hsz⟩, hv, ?_⟩
  unfold heapify_up_in_bounds
  have hk2 : 1 ≤ ({ h with heap_arr := Function.update h.heap_arr h.current_size v
                           positions := Function.update h.positions v h.current_size } :
      k_heap).k := hk
  apply @heapify_up_fuel_in_bounds _ _ (h.current_size + 1) _ hk2 _
    (by show h.current_size + 1 ≤ h.capacity; omega) ⟨hs, by omega⟩
  intro x hx0 hxN
  show in_bounds h (Function.update h.heap_arr h.current_size v x)
  rw [Function.update_apply]
  split_ifs
  · exact hv
  · exact hr x hx0 (by omega)

/-- The accesses of `deleteKey(i)` at an occupied slot are within bounds. -/
theorem deleteKey_in_bounds_of_slots (h : k_heap) (i : Int) (hk : 1 ≤ h.k)
    (hr : ∀ x, 0 ≤ x → x < h.current_size → h.in_bounds (h.heap_arr x))
    (hcap : h.current_size ≤ h.capacity) (hi : 0 ≤ i ∧ i < h.current_size)
    (hfit : h.k * (h.current_size - 1) < INT_MAX) : h.deleteKey_in_bounds i := by
  intro _
  have hm : ∀ x, 0 ≤ x → x < h.current_size →
      (h.moved_state i).in_bounds ((h.moved_state i).heap_arr x) := by
    intro x hx0 hxN
    show in_bounds h (Function.update h.heap_arr i (h.heap_arr (h.current_size - 1)) x)
    rw [Function.update_apply]
    split_ifs
    · exact hr _ (by omega) (by omega)
    · exact hr x hx0 hxN
  have hkm : 1 ≤ (h.moved_state i).k := hk
  have hcm : h.current_size ≤ (h.moved_state i).capacity := hcap
  have a := hr i hi.1 hi.2
  have b := hr (h.current_size - 1) (by omega) (by omega)
  refine ⟨⟨hi.1, by omega⟩, ⟨by omega, by omega⟩, b, a, ?_, ?_⟩
  · intro hi0
    have hpl := parent_lt h hk hi0
    have hp0 := parent_nonneg h hk hi0
    exact ⟨⟨⟨hi.1, by omega⟩, hm i hi.1 hi.2⟩,
      ⟨⟨hp0, by show h.parent i < h.capacity; omega⟩, hm _ hp0 (by show h.parent i < _; omega)⟩⟩
  · split_ifs
    · exact heapify_up_fuel_in_bounds _ _ hkm hm hcm hi
    · unfold heapify_down_in_bounds
      by_cases hiN : i < h.current_size - 1
      · apply heapify_down_fuel_in_bounds _ _ hkm _ _ _ ⟨hi.1, hiN⟩
        · show h.k * (h.current_size - 1 - 1) < INT_MAX
          nlinarith
        · intro x hx0 hxN
          exact hm x hx0 (by have : x < h.current_size - 1 := hxN; omega)
        · show h.current_size - 1 ≤ h.capacity
          omega
      · have hf : ((h.moved_state i).current_size - i).toNat = 0 := by
          show (h.current_size - 1 - i).toNat = 0
          omega
        rw [hf]
        trivial

/-- The accesses of `update(v, d)` are within bounds. -/
theorem update_in_bounds_of_slots (h : k_heap) (v d : Int) (hk : 1 ≤ h.k)
    (hs : 0 ≤ h.current_size)
    (hr : ∀ x, 0 ≤ x → x < h.current_size → h.in_bounds (h.heap_arr x))
    (hcap : h.current_size ≤ h.capacity) (hv : 0 ≤ v ∧ v < h.capacity)
    (hfree : h.positions v = -1 → h.current_size < h.capacity)
    (hpos : h.positions v ≠ -1 → 0 ≤ h.positions v ∧ h.positions v < h.current_size)
    (hfit : h.positions v ≠ -1 → d > h.dist v → h.k * (h.current_size - 1) < INT_MAX) :
    h.update_in_bounds v d := by
  refine ⟨hv, ?_⟩
  split_ifs with h1 h2 h3
  · exact insert_in_bounds_of_slots _ v hk hs hr hv (hfree h1)
  · exact heapify_up_fuel_in_bounds _ _ hk hr hcap (hpos h1)
  · exact heapify_down_fuel_in_bounds _ _ hk (hfit h1 h3) hr hcap (hpos h1)

/-- The vertices held by an index-consistent heap are indices of the arrays. -/
theorem slots_in_bounds_of_consistent (h : k_heap) {N : Int} (hc : h.slots_consistent N) :
    ∀ x, 0 ≤ x → x < N → h.in_bounds (h.heap_arr x) :=
  fun x hx0 hxN => (hc.1 x hx0 hxN).1

end k_heap

/-! ## Child indices that do not fit into an `int` -/

namespace k_heap

/-- The `for` loop of `heapify_down` keeps the first child as long as no further child index
is below `current_size`. -/
theorem smallest_child_skip (h : k_heap) (i : Int) (m : Nat)
    (hskip : ∀ j : Nat, j < m → ¬ h.child i ((j : Int) + 1) < h.current_size) :
    (List.range m).foldl (child_step h i) (h.child i 0) = h.child i 0 := by
  induction m with
  | zero => rfl
  | succ m ih =>
    rw [List.range_succ, List.foldl_append, ih (fun j hj => hskip j (by omega))]
    simp only [List.foldl_cons, List.foldl_nil, child_step]
    rw [if_neg (fun hc => hskip m (by omega) hc.1)]

/-- A slot that `is_leaf` takes for an inner slot and one of whose child indices has wrapped
around to a negative number: `heapify_down` evaluates `key` at that index. -/
theorem heapify_down_fuel_out_of_bounds (f : Nat) (h : k_heap) (i j : Int) (hj0 : 0 ≤ j)
    (hjk : j < h.k) (hnl : h.child i 0 < h.current_size) (hlt : h.child i j < h.current_size)
    (hneg : h.child i j < 0) : ¬ heapify_down_in_bounds_fuel (f + 1) h i := by
  intro hb
  unfold heapify_down_in_bounds_fuel at hb
  have hl : ¬ h.is_leaf i = true := by
    simp only [is_leaf, decide_eq_true_eq]
    omega
  rw [if_neg hl] at hb
  have := (hb.1 j hj0 hjk hlt).1.1
  omega

/-- With the arity `INT_MAX` and three occupied slots, the last of which has a larger key than
the second: `deleteKey(0)` moves the last slot to the root, swaps it with slot 1, and at
slot 1 the index `child(1, 0)` has wrapped around to `-2^31`. -/
theorem deleteKey_root_out_of_bounds (h : k_heap) (hk : h.k = 2147483647)
    (hsz : h.current_size = 3) (hkey : h.key 1 < h.key 2) : ¬ h.deleteKey_in_bounds 0 := by
  intro hb
  have hb := (hb (by omega)).2.2.2.2.2
  rw [if_neg (by omega)] at hb
  have hmk : (h.moved_state 0).k = 2147483647 := hk
  have hms : (h.moved_state 0).current_size = 2 := by
    show h.current_size - 1 = 2
    omega
  have hf : ((h.moved_state 0).current_size - 0).toNat = 1 + 1 := by
    rw [hms]
    rfl
  unfold heapify_down_in_bounds at hb
  rw [hf] at hb
  unfold heapify_down_in_bounds_fuel at hb
  have hc0 : (h.moved_state 0).child 0 0 = 1 := by
    rw [child_eq _ (by omega) (le_refl 0) (le_refl 0) (by rw [hmk]; decide)]
    ring
  have hl : ¬ (h.moved_state 0).is_leaf 0 = true := by
    simp only [is_leaf, decide_eq_true_eq, hc0, hms]
    omega
  rw [if_neg hl] at hb
  have hsc : (h.moved_state 0).smallest_child 0 = 1 := by
    unfold smallest_child
    rw [smallest_child_skip _ 0 _ ?_, hc0]
    intro j hj
    have hj' : (j : Int) < 2147483646 := by
      rw [hmk] at hj
      omega
    rw [child_eq _ (by omega) (le_refl 0) (by omega) (by rw [hmk]; unfold INT_MAX; omega), hms]
    omega
  have hlt : (h.moved_state 0).key ((h.moved_state 0).smallest_child 0) <
      (h.moved_state 0).key 0 := by
    rw [hsc]
    show h.dist (Function.update h.heap_arr 0 (h.heap_arr (h.current_size - 1)) 1) <
      h.dist (Function.update h.heap_arr 0 (h.heap_arr (h.current_size - 1)) 0)
    rw [Function.update_noteq (by decide), Function.update_same, hsz]
    exact hkey
  have hb2 := (hb.2.2 hlt).2
  rw [hsc] at hb2
  have hc1 : ((h.moved_state 0).swap 0 1).child 1 0 = -2147483648 := by
    show int_wrap ((h.moved_state 0).k * 1 + 0 + 1) = -2147483648
    rw [hmk]
    decide
  exact heapify_down_fuel_out_of_bounds 0 _ 1 0 (le_refl 0)
    (by show (0 : Int) < (h.moved_state 0).k; omega)
    (by rw [hc1]; show (-2147483648 : Int) < (h.moved_state 0).current_size; omega)
    (by rw [hc1]; show (-2147483648 : Int) < (h.moved_state 0).current_size; omega)
    (by rw [hc1]; decide) hb2

end k_heap

/-! ## The heap operations: extraction, order preservation -/

namespace k_heap

theorem isInHeap_eq_iff (h h' : k_heap) (u u' : Int) :
    h'.isInHeap u' = h.isInHeap u ↔ (h'.positions u' ≠ -1 ↔ h.positions u ≠ -1) := by
  unfold isInHeap
  exact decide_eq_decide

theorem isInHeap_false_iff (h : k_heap) (u : Int) :
    h.isInHeap u = false ↔ h.positions u = -1 := by
  unfold isInHeap
  simp

/-- A slot below `current_size` that `is_leaf` takes for an inner slot and one of whose child
indices has wrapped around to a negative number: `heapify_down` evaluates `key` there. -/
theorem heapify_down_out_of_bounds (h : k_heap) (i j : Int) (hi : i < h.current_size)
    (hj0 : 0 ≤ j) (hjk : j < h.k) (hnl : h.child i 0 < h.current_size)
    (hlt : h.child i j < h.current_size) (hneg : h.child i j < 0) :
    ¬ h.heapify_down_in_bounds i := by
  obtain ⟨m, hm⟩ : ∃ m, (h.current_size - i).toNat = m + 1 :=
    ⟨(h.current_size - i).toNat - 1, by omega⟩
  unfold heapify_down_in_bounds
  rw [hm]
  exact heapify_down_fuel_out_of_bounds m h i j hj0 hjk hnl hlt hneg

/-- Counterexample for C6 as stated, for every heap state with `k ≥ 2`: the heap
`wide_sample` has arity `INT_MAX`, the min-heap property and index consistency; vertex 3 is
present in slot 1 with the distance 2, and `update(3, 9)` runs `heapify_down(1)`, where the
index `child(1, 0)` has wrapped around to `-2147483648`: `is_leaf(1)` is false and `key` is
evaluated outside `heap_arr`. -/
theorem update_overflow_counterexample :
    (2 ≤ wide_sample.k ∧ 0 ≤ wide_sample.current_size ∧ wide_sample.heap_property ∧
      wide_sample.index_consistent) ∧
    ((0 : Int) ≤ 3 ∧ 3 < wide_sample.capacity ∧ wide_sample.positions 3 = 1 ∧
      wide_sample.dist 3 < 9) ∧
    wide_sample.child 1 0 = -2147483648 ∧ wide_sample.is_leaf 1 = false ∧
    ¬ wide_sample.update_in_bounds 3 9 := by
  refine ⟨⟨by decide, by decide, by decide, by decide⟩,
    ⟨by decide, by decide, by decide, by decide⟩, by decide, by decide, ?_⟩
  intro hb
  have hb := hb.2
  rw [if_neg (by decide), if_neg (by decide), if_pos (by decide)] at hb
  exact heapify_down_out_of_bounds _ _ 0 (by decide) (le_refl 0) (by decide) (by decide)
    (by decide) (by decide) hb

/-- C6, amended: `insert` and `update` preserve the min-heap property.  For every heap state
with `k ≥ 2` that has the min-heap property and index consistency, (a) after `insert(v)` of
an absent vertex with `current_size < capacity` and (b) after `update(v, d)` for any vertex
`v` (absent or present) and any integer `d`, where for a present vertex and a `d` above its
stored distance the index arithmetic has to fit into an `int`
(`k * (current_size - 1) < INT_MAX`), the call stays within the bounds of the arrays and
every non-root occupied slot carries a key at least its parent's key. -/
theorem insert_update_preserve_heap_property (h : k_heap) (hk : 2 ≤ h.k)
    (hs : 0 ≤ h.current_size) (hheap : h.heap_property) (hidx : h.index_consistent) :
    (∀ v, 0 ≤ v → v < h.capacity → h.positions v = -1 → h.current_size < h.capacity →
      h.insert_in_bounds v ∧
      ∀ i, 0 < i → i < (h.insert v).current_size →
        (h.insert v).dist ((h.insert v).heap_arr ((h.insert v).parent i)) ≤
          (h.insert v).dist ((h.insert v).heap_arr i)) ∧
    (∀ v d, 0 ≤ v → v < h.capacity →
      (h.positions v ≠ -1 → d > h.dist v → h.k * (h.current_size - 1) < INT_MAX) →
      h.update_in_bounds v d ∧
      ∀ i, 0 < i → i < (h.update v d).current_size →
        (h.update v d).dist ((h.update v d).heap_arr ((h.update v d).parent i)) ≤
          (h.update v d).dist ((h.update v d).heap_arr i)) := by
  have hv : h.valid := ⟨hk, hs, hheap, hidx⟩
  have hr := slots_in_bounds_of_consistent h hidx
  constructor
  · intro v hv0 hvc habs hsz
    exact ⟨insert_in_bounds_of_slots h v hv.arity_pos hs hr ⟨hv0, hvc⟩ hsz,
      (insert_spec h v hv ⟨hv0, hvc⟩ habs).1.heap⟩
  · intro v d hv0 hvc hfit
    have hcap : h.current_size ≤ h.capacity := by
      by_cases h0 : 0 < h.current_size
      · exact size_le_capacity h hidx h0
      · omega
    refine ⟨update_in_bounds_of_slots h v d hv.arity_pos hs hr hcap ⟨hv0, hvc⟩
      (fun habs => size_lt_capacity_of_absent h hidx hs ⟨hv0, hvc⟩ habs)
      (fun hp => (hidx.2 v hv0 hvc hp).1) hfit, ?_⟩
    by_cases hp : h.positions v = -1
    · exact (update_absent_spec h v d hv ⟨hv0, hvc⟩ hp).1.heap
    · exact (update_present_spec h v d hv ⟨hv0, hvc⟩ hp (hfit hp)).1.heap

/-- Witness for C6: inserting vertex 4 into the sample heap, and raising the
distance of its root vertex 2 to 8. -/
theorem insert_update_preserve_heap_property_witness :
    (2 ≤ sample.k ∧ 0 ≤ sample.current_size ∧ sample.heap_property ∧
      sample.index_consistent ∧ sample.k * (sample.current_size - 1) < INT_MAX) ∧
    (sample.insert_in_bounds 4 ∧
      ∀ i, 0 < i → i < (sample.insert 4).current_size →
        (sample.insert 4).dist ((sample.insert 4).heap_arr ((sample.insert 4).parent i)) ≤
          (sample.insert 4).dist ((sample.insert 4).heap_arr i)) ∧
    (sample.update_in_bounds 2 8 ∧
      ∀ i, 0 < i → i < (sample.update 2 8).current_size →
        (sample.update 2 8).dist ((sample.update 2 8).heap_arr ((sample.update 2 8).parent i)) ≤
          (sample.update 2 8).dist ((sample.update 2 8).heap_arr i)) :=
  ⟨⟨by decide, by decide, by decide, by decide, by decide⟩,
    (insert_update_preserve_heap_property sample (by decide) (by decide) (by decide)
      (by decide)).1 4 (by decide) (by decide) (by decide) (by decide),
    (insert_update_preserve_heap_property sample (by decide) (by decide) (by decide)
      (by decide)).2 2 8 (by decide) (by decide) (fun _ _ => by decide)⟩

/-- Counterexample for C7 as stated, for every heap state with `k ≥ 2`: on the heap
`wide_sample` (arity `INT_MAX`, min-heap property, index consistency) both `deleteKey(0)` and
`deleteKey(1)` run `heapify_down` at slot 1, where `child(1, 0)` has wrapped around to
`-2147483648`, so that `key` is evaluated outside `heap_arr`. -/
theorem deleteKey_overflow_counterexample :
    (2 ≤ wide_sample.k ∧ wide_sample.heap_property ∧ wide_sample.index_consistent ∧
      (1 : Int) < wide_sample.current_size) ∧
    (wide_sample.moved_state 1).child 1 0 = -2147483648 ∧
    ¬ wide_sample.deleteKey_in_bounds 0 ∧ ¬ wide_sample.deleteKey_in_bounds 1 := by
  refine ⟨⟨by decide, by decide, by decide, by decide⟩, by decide,
    deleteKey_root_out_of_bounds wide_sample rfl rfl (by decide), ?_⟩
  intro hb
  have hb := (hb (by decide)).2.2.2.2.2
  rw [if_neg (by decide)] at hb
  exact heapify_down_out_of_bounds _ _ 0 (by decide) (le_refl 0) (by decide) (by decide)
    (by decide) (by decide) hb

/-- C7, amended: `deleteKey` at an arbitrary slot preserves the min-heap property with a
single repair direction.  For every heap state with `k ≥ 2` that has the min-heap property
and index consistency and whose index arithmetic fits into an `int`
(`k * (current_size - 1) < INT_MAX`), and every `0 ≤ i < current_size`, `deleteKey(i)` stays
within the bounds of the arrays and succeeds, and in the resulting state every non-root
occupied slot carries a key at least its parent's key; the result is the moved state
repaired by `heapify_up` alone (when `i > 0` and the moved key is below its parent's key) or
by `heapify_down` alone (otherwise). -/
theorem deleteKey_preserves_heap_property (h : k_heap) (i : Int) (hk : 2 ≤ h.k)
    (hheap : h.heap_property) (hidx : h.index_consistent)
    (hi0 : 0 ≤ i) (hiN : i < h.current_size) (hfit : h.k * (h.current_size - 1) < INT_MAX) :
    h.deleteKey_in_bounds i ∧
    ∃ h', h.deleteKey i = .ok h' ∧
      (∀ j, 0 < j → j < h'.current_size →
        h'.dist (h'.heap_arr (h'.parent j)) ≤ h'.dist (h'.heap_arr j)) ∧
      ((i > 0 ∧ (h.moved_state i).key i < (h.moved_state i).key ((h.moved_state i).parent i) ∧
          h' = (h.moved_state i).heapify_up i) ∨
        (¬ (i > 0 ∧ (h.moved_state i).key i < (h.moved_state i).key ((h.moved_state i).parent i)) ∧
          h' = (h.moved_state i).heapify_down i)) := by
  have hv : h.valid := ⟨hk, by omega, hheap, hidx⟩
  obtain ⟨h', hd, hv', -⟩ := deleteKey_spec h i hv ⟨hi0, hiN⟩ hfit
  refine ⟨deleteKey_in_bounds_of_slots h i hv.arity_pos (slots_in_bounds_of_consistent h hidx)
    (size_le_capacity h hidx (by omega)) ⟨hi0, hiN⟩ hfit, h', hd, hv'.heap, ?_⟩
  have e : h.deleteKey i =
      if i > 0 ∧ (h.moved_state i).key i < (h.moved_state i).key ((h.moved_state i).parent i)
      then .ok ((h.moved_state i).heapify_up i)
      else .ok ((h.moved_state i).heapify_down i) := by
    unfold deleteKey
    rw [if_neg (by omega)]
  rw [e] at hd
  by_cases hc : i > 0 ∧
      (h.moved_state i).key i < (h.moved_state i).key ((h.moved_state i).parent i)
  · rw [if_pos hc] at hd
    injection hd with hd
    exact Or.inl ⟨hc.1, hc.2, hd.symm⟩
  · rw [if_neg hc] at hd
    injection hd with hd
    exact Or.inr ⟨hc, hd.symm⟩

end k_heap

namespace k_heap

/-- Witness for C7: deleting the root slot and deleting the last slot of the
sample heap. -/
theorem deleteKey_preserves_heap_property_witness :
    (2 ≤ sample.k ∧ sample.heap_property ∧ sample.index_consistent ∧
      (0 : Int) ≤ 0 ∧ 0 < sample.current_size ∧ (0 : Int) ≤ 2 ∧ 2 < sample.current_size ∧
      sample.k * (sample.current_size - 1) < INT_MAX) ∧
    (sample.deleteKey_in_bounds 0 ∧
      ∃ h', sample.deleteKey 0 = .ok h' ∧
      (∀ j, 0 < j → j < h'.current_size →
        h'.dist (h'.heap_arr (h'.parent j)) ≤ h'.dist (h'.heap_arr j)) ∧
      (((0 : Int) > 0 ∧
          (sample.moved_state 0).key 0 <
            (sample.moved_state 0).key ((sample.moved_state 0).parent 0) ∧
          h' = (sample.moved_state 0).heapify_up 0) ∨
        (¬ ((0 : Int) > 0 ∧ (sample.moved_state 0).key 0 <
            (sample.moved_state 0).key ((sample.moved_state 0).parent 0)) ∧
          h' = (sample.moved_state 0).heapify_down 0))) ∧
    (sample.deleteKey_in_bounds 2 ∧
      ∃ h', sample.deleteKey 2 = .ok h' ∧
      (∀ j, 0 < j → j < h'.current_size →
        h'.dist (h'.heap_arr (h'.parent j)) ≤ h'.dist (h'.heap_arr j)) ∧
      (((2 : Int) > 0 ∧
          (sample.moved_state 2).key 2 <
            (sample.moved_state 2).key ((sample.moved_state 2).parent 2) ∧
          h' = (sample.moved_state 2).heapify_up 2) ∨
        (¬ ((2 : Int) > 0 ∧ (sample.moved_state 2).key 2 <
            (sample.moved_state 2).key ((sample.moved_state 2).parent 2)) ∧
          h' = (sample.moved_state 2).heapify_down 2))) :=
  ⟨⟨by decide, by decide, by decide, by decide, by decide, by decide, by decide, by decide⟩,
    deleteKey_preserves_heap_property sample 0 (by decide) (by decide) (by decide)
      (by decide) (by decide) (by decide),
    deleteKey_preserves_heap_property sample 2 (by decide) (by decide) (by decide)
      (by decide) (by decide) (by decide)⟩

/-- The freshly constructed heap is valid, empty, and has every distance at the
sentinel. -/
theorem new_spec (mem : Int → Int) (cap k_value : Int) (hk : 2 ≤ k_value) (hcap : 0 ≤ cap) :
    ∃ h, k_heap.new mem cap k_value = .ok h ∧ h.valid ∧ h.current_size = 0 ∧
      h.capacity = cap ∧ h.k = k_value ∧ h.dist = (fun _ => INT_MAX) ∧
      h.positions = (fun _ => -1) ∧ h.heap_arr = mem := by
  refine ⟨_, by unfold k_heap.new; rw [if_neg (by omega), if_neg (by omega)],
    ⟨hk, le_refl _, ?_, ?_, ?_⟩, rfl, rfl, rfl, rfl, rfl, rfl⟩
  · intro i h0 h1
    exact absurd h1 (by simp; omega)
  · intro i h0 h1
    exact absurd h1 (by simp; omega)
  · intro v _ _ hp
    exact absurd rfl hp

theorem new_ok_arity (mem : Int → Int) (cap k_value : Int) (h : k_heap)
    (e : k_heap.new mem cap k_value = .ok h) : 2 ≤ k_value ∧ 0 ≤ cap := by
  unfold k_heap.new at e
  constructor
  · by_contra hcon
    rw [if_pos (by omega)] at e
    cases e
  · by_contra hcon
    split_ifs at e
    omega

/-- Every state reached from the fresh heap by the mutating operations is valid and keeps
the capacity and the arity given to the constructor. -/
theorem reachable_state_valid (mem : Int → Int) (cap k_value : Int) (h : k_heap)
    (hfit : k_value * (cap - 1) < INT_MAX) (hr : reachable_state mem cap k_value h) :
    h.valid ∧ h.capacity = cap ∧ h.k = k_value := by
  induction hr with
  | init e =>
    obtain ⟨hk, hc⟩ := new_ok_arity mem cap k_value _ e
    obtain ⟨h0, e0, hv, -, hcap, hkk, -⟩ := new_spec mem cap k_value hk hc
    rw [e] at e0
    injection e0 with e0
    rw [e0]; exact ⟨hv, hcap, hkk⟩
  | insert v _ hv0 hvc habs _ ih =>
    obtain ⟨a, -, b, c, -⟩ := insert_spec _ v ih.1 ⟨hv0, hvc⟩ habs
    exact ⟨a, by rw [b]; exact ih.2.1, by rw [c]; exact ih.2.2⟩
  | @update h1 v d _ hv0 hvc ih =>
    by_cases hp : h1.positions v = -1
    · obtain ⟨a, -, b, c, -⟩ := update_absent_spec _ v d ih.1 ⟨hv0, hvc⟩ hp
      exact ⟨a, by rw [b]; exact ih.2.1, by rw [c]; exact ih.2.2⟩
    · obtain ⟨a, -, b, c, -⟩ := update_present_spec _ v d ih.1 ⟨hv0, hvc⟩ hp
        (fun _ => ih.1.fits (by rw [ih.2.1, ih.2.2]; exact hfit))
      exact ⟨a, by rw [b]; exact ih.2.1, by rw [c]; exact ih.2.2⟩
  | deleteKey i _ hi0 hiN e ih =>
    obtain ⟨h2, e2, hv2, -, b, c, -⟩ := deleteKey_spec _ i ih.1 ⟨hi0, hiN⟩
      (ih.1.fits (by rw [ih.2.1, ih.2.2]; exact hfit))
    rw [e] at e2
    injection e2 with e2
    rw [e2]; exact ⟨hv2, by rw [b]; exact ih.2.1, by rw [c]; exact ih.2.2⟩
  | deleteMin _ hne e ih =>
    obtain ⟨h2, e2, hv2, -, b, c, -⟩ := deleteKey_spec _ 0 ih.1 ⟨le_refl _, hne⟩
      (ih.1.fits (by rw [ih.2.1, ih.2.2]; exact hfit))
    rw [deleteMin_eq _ hne, e2] at e
    injection e with e
    rw [← e]; exact ⟨hv2, by rw [b]; exact ih.2.1, by rw [c]; exact ih.2.2⟩

/-- Counterexample for C8 as stated, for every arity: the heap `k_heap(4, INT_MAX)` after
`update(1, 1)`, `update(2, 2)` and `update(3, 3)` is a state reached by the mutating
operations within their preconditions, it is not empty, and `deleteMin`, which is
`deleteKey(0)`, evaluates `key` at the index `child(1, 0) = -2147483648` of `heap_arr`: no
state, consistent or not, is reached by it in a defined way. -/
theorem reachable_state_overflow_counterexample :
    ∃ h, reachable_state (fun _ => 0) 4 2147483647 h ∧
      h = (((k_heap.mk (fun _ => 0) (fun _ => -1) (fun _ => INT_MAX) 4 0 2147483647).update 1
        1).update 2 2).update 3 3 ∧
      0 < h.current_size ∧ ¬ h.deleteKey_in_bounds 0 := by
  have r0 : reachable_state (fun _ => 0) 4 2147483647
      (k_heap.mk (fun _ => 0) (fun _ => -1) (fun _ => INT_MAX) 4 0 2147483647) :=
    reachable_state.init rfl
  have r1 := reachable_state.update 1 1 r0 (by decide) (by decide)
  have r2 := reachable_state.update 2 2 r1 (by decide) (by decide)
  have r3 := reachable_state.update 3 3 r2 (by decide) (by decide)
  exact ⟨_, r3, rfl, by decide, deleteKey_root_out_of_bounds _ (by decide) (by decide)
    (by decide)⟩

/-- C8, amended: index consistency is an invariant of every mutating heap operation as long
as the index arithmetic fits into an `int` (`k * (cap - 1) < INT_MAX`).  In every state
reached from the freshly constructed heap by `insert` (absent vertex, size below capacity),
`update`, `deleteKey` (valid index) and `deleteMin` (non-empty heap), `positions` and the
slots are mutually inverse, no vertex occupies two slots, and each of these operations
stays within the bounds of the arrays. -/
theorem index_consistency_invariant (mem : Int → Int) (cap k_value : Int) (h : k_heap)
    (hfit : k_value * (cap - 1) < INT_MAX) (hr : reachable_state mem cap k_value h) :
    (∀ i, 0 ≤ i → i < h.current_size → h.positions (h.heap_arr i) = i) ∧
    (∀ v i, 0 ≤ v → v < h.capacity → h.positions v = i → i ≠ -1 →
      0 ≤ i ∧ i < h.current_size ∧ h.heap_arr i = v) ∧
    (∀ i j, 0 ≤ i → i < h.current_size → 0 ≤ j → j < h.current_size →
      h.heap_arr i = h.heap_arr j → i = j) ∧
    (∀ v, 0 ≤ v → v < h.capacity → h.positions v = -1 → h.current_size < h.capacity →
      h.insert_in_bounds v) ∧
    (∀ v d, 0 ≤ v → v < h.capacity → h.update_in_bounds v d) ∧
    (∀ i, 0 ≤ i → i < h.current_size → h.deleteKey_in_bounds i) := by
  obtain ⟨hv, hcap, hkk⟩ := reachable_state_valid mem cap k_value h hfit hr
  have hf := hv.fits (by rw [hcap, hkk]; exact hfit)
  have hsl := slots_in_bounds_of_consistent h hv.index
  have hle : h.current_size ≤ h.capacity ∨ h.current_size = 0 := by
    by_cases h0 : 0 < h.current_size
    · exact Or.inl (size_le_capacity h hv.index h0)
    · have := hv.size_nonneg
      exact Or.inr (by omega)
  refine ⟨fun i h0 h1 => (hv.index.1 i h0 h1).2, ?_, ?_, ?_, ?_, ?_⟩
  · intro v i hv0 hvc e hne
    subst e
    have := hv.index.2 v hv0 hvc hne
    exact ⟨this.1.1, this.1.2, this.2⟩
  · intro i j hi0 hiN hj0 hjN e
    exact slots_consistent_inj h hv.index ⟨hi0, hiN⟩ ⟨hj0, hjN⟩ e
  · intro v hv0 hvc _ hsz
    exact insert_in_bounds_of_slots h v hv.arity_pos hv.size_nonneg hsl ⟨hv0, hvc⟩ hsz
  · intro v d hv0 hvc
    exact update_in_bounds_of_slots h v d hv.arity_pos hv.size_nonneg hsl (by omega)
      ⟨hv0, hvc⟩ (fun habs => size_lt_capacity_of_absent h hv.index hv.size_nonneg ⟨hv0, hvc⟩ habs)
      (fun hp => (hv.index.2 v hv0 hvc hp).1) (fun _ _ => hf)
  · intro i hi0 hiN
    exact deleteKey_in_bounds_of_slots h i hv.arity_pos hsl (by omega) ⟨hi0, hiN⟩ hf

/-- Witness for C8: a fresh binary heap of capacity 4 after `update(1, 5)`,
`update(2, 3)` and `deleteMin`. -/
theorem index_consistency_invariant_witness :
    (2 : Int) * (4 - 1) < INT_MAX ∧
    ∃ h, reachable_state (fun _ => 0) 4 2 h ∧
      (((k_heap.mk (fun _ => 0) (fun _ => -1) (fun _ => INT_MAX) 4 0 2).update 1 5).update 2
        3).deleteMin = .ok h ∧
      (∀ i, 0 ≤ i → i < h.current_size → h.positions (h.heap_arr i) = i) ∧
      (∀ v i, 0 ≤ v → v < h.capacity → h.positions v = i → i ≠ -1 →
        0 ≤ i ∧ i < h.current_size ∧ h.heap_arr i = v) ∧
      (∀ i j, 0 ≤ i → i < h.current_size → 0 ≤ j → j < h.current_size →
        h.heap_arr i = h.heap_arr j → i = j) ∧
      (∀ v, 0 ≤ v → v < h.capacity → h.positions v = -1 → h.current_size < h.capacity →
        h.insert_in_bounds v) ∧
      (∀ v d, 0 ≤ v → v < h.capacity → h.update_in_bounds v d) ∧
      (∀ i, 0 ≤ i → i < h.current_size → h.deleteKey_in_bounds i) := by
  have r0 : reachable_state (fun _ => 0) 4 2
      (k_heap.mk (fun _ => 0) (fun _ => -1) (fun _ => INT_MAX) 4 0 2) :=
    reachable_state.init rfl
  have r1 := reachable_state.update 1 5 r0 (by decide) (by decide)
  have r2 := reachable_state.update 2 3 r1 (by decide) (by decide)
  have hv2 := (reachable_state_valid _ _ _ _ (by decide) r2).1
  have hne : 0 < (((k_heap.mk (fun _ => 0) (fun _ => -1) (fun _ => INT_MAX) 4 0 2).update 1
      5).update 2 3).current_size := by decide
  obtain ⟨h3, e3, -⟩ := deleteKey_spec _ 0 hv2 ⟨le_refl _, hne⟩ (by decide)
  rw [← deleteMin_eq _ hne] at e3
  have r3 := reachable_state.deleteMin r2 hne e3
  exact ⟨by decide, h3, r3, e3, index_consistency_invariant _ _ _ h3 (by decide) r3⟩

end k_heap

namespace k_heap

/-- C10: single-element round trip.  For a freshly constructed heap with
`capacity ≥ 1` and `k ≥ 2`, a vertex `v` in range and any distance set for `v`
(or none), after `insert(v)` the heap has size 1 and `getMin` returns `v`; after
the following `deleteMin` (which is `deleteKey(0)`) `isEmpty` is true, `size`
is 0 and `isInHeap(v)` is false. -/
theorem single_element_round_trip (mem : Int → Int) (cap k_value v d : Int)
    (hcap : 1 ≤ cap) (hk : 2 ≤ k_value) (hv0 : 0 ≤ v) (hvc : v < cap) :
    ∃ h0, k_heap.new mem cap k_value = .ok h0 ∧
      ∀ hs, hs = h0 ∨ hs = h0.setDistance v d →
        (hs.insert v).size = 1 ∧ (hs.insert v).getMin = .ok v ∧
        ∃ h2, (hs.insert v).deleteMin = .ok h2 ∧ (hs.insert v).deleteKey 0 = .ok h2 ∧
          h2.isEmpty = true ∧ h2.size = 0 ∧ h2.isInHeap v = false := by
  obtain ⟨h0, e0, hval0, hsz0, hcap0, -, -, hpos0, -⟩ :=
    new_spec mem cap k_value hk (by omega)
  refine ⟨h0, e0, ?_⟩
  intro hs hhs
  have habs0 : h0.positions v = -1 := by rw [hpos0]
  have hvals : hs.valid ∧ hs.positions v = -1 ∧ hs.current_size = 0 ∧ hs.capacity = cap := by
    rcases hhs with e | e
    · rw [e]; exact ⟨hval0, habs0, hsz0, hcap0⟩
    · rw [e]; exact ⟨setDistance_absent h0 v d hval0 habs0, habs0, hsz0, hcap0⟩
  obtain ⟨hv, habs, hsz, hc⟩ := hvals
  obtain ⟨hv1, -, hc1, -, hsz1, hmem1⟩ := insert_spec hs v hv ⟨hv0, by omega⟩ habs
  have hone : (hs.insert v).current_size = 1 := by omega
  have hin : (hs.insert v).positions v ≠ -1 := (hmem1 v hv0 (by omega)).2 (Or.inl rfl)
  obtain ⟨hg, -⟩ := getMin_spec _ hv1 (by omega)
  have hslot := hv1.index.2 v hv0 (by omega) hin
  have hroot : (hs.insert v).heap_arr 0 = v := by
    have : (hs.insert v).positions v = 0 := by omega
    rw [← this]; exact hslot.2
  obtain ⟨h2, e2, -, -, -, -, hsz2, hmem2⟩ := deleteKey_spec _ 0 hv1 ⟨le_refl _, by omega⟩
    (by rw [hone]; norm_num [INT_MAX])
  refine ⟨hone, by rw [hg, hroot], h2, by rw [deleteMin_eq _ (by omega)]; exact e2, e2, ?_, ?_, ?_⟩
  · unfold isEmpty; simp; omega
  · unfold size; omega
  · rw [isInHeap_false_iff]
    by_contra hcon
    exact ((hmem2 v hv0 (by omega)).1 hcon).1 hroot.symm

/-- Witness for C10: capacity 3, arity 2, vertex 1 with distance 5. -/
theorem single_element_round_trip_witness :
    ((1 : Int) ≤ 3 ∧ (2 : Int) ≤ 2 ∧ (0 : Int) ≤ 1 ∧ (1 : Int) < 3) ∧
    ∃ h0, k_heap.new (fun _ => 0) 3 2 = .ok h0 ∧
      ∀ hs, hs = h0 ∨ hs = h0.setDistance 1 5 →
        (hs.insert 1).size = 1 ∧ (hs.insert 1).getMin = .ok 1 ∧
        ∃ h2, (hs.insert 1).deleteMin = .ok h2 ∧ (hs.insert 1).deleteKey 0 = .ok h2 ∧
          h2.isEmpty = true ∧ h2.size = 0 ∧ h2.isInHeap 1 = false :=
  ⟨⟨by decide, by decide, by decide, by decide⟩,
    single_element_round_trip (fun _ => 0) 3 2 1 5 (by decide) (by decide) (by decide)
      (by decide)⟩

/-! ## Where `update` leaves the vertex -/

theorem ancestor_or_self_congr {h h' : k_heap} {a p : Int} (hk : h'.k = h.k)
    (ha : ancestor_or_self h a p) : ancestor_or_self h' a p := by
  induction ha with
  | refl => exact ancestor_or_self.refl a
  | @step q hp _ ih =>
    refine ancestor_or_self.step hp ?_
    have : h'.parent q = h.parent q := by unfold parent; rw [hk]
    rw [this]; exact ih

theorem ancestor_or_self_trans {h : k_heap} {a b c : Int} (hab : ancestor_or_self h a b)
    (hbc : ancestor_or_self h b c) : ancestor_or_self h a c := by
  induction hbc with
  | refl => exact hab
  | step hp _ ih => exact ancestor_or_self.step hp ih

/-- Sift-up from slot `i` leaves the vertex of slot `i` at `i` or at an ancestor. -/
theorem heapify_up_fuel_tracks (f : Nat) (h : k_heap) {N i : Int} (hk : 1 ≤ h.k)
    (hc : h.slots_consistent N) (hi : 0 ≤ i ∧ i < N) :
    ancestor_or_self h ((heapify_up_fuel f h i).positions (h.heap_arr i)) i := by
  have hself : h.positions (h.heap_arr i) = i := (hc.1 i hi.1 hi.2).2
  induction f generalizing h i with
  | zero =>
    show ancestor_or_self h (h.positions (h.heap_arr i)) i
    rw [hself]; exact ancestor_or_self.refl i
  | succ f ih =>
    unfold heapify_up_fuel
    by_cases hr : root i = true
    · rw [if_pos hr, hself]; exact ancestor_or_self.refl i
    · rw [if_neg hr]
      have hi0 : 0 < i := by
        simp [root] at hr; omega
      have hp0 := parent_nonneg h hk hi0
      have hpl := parent_lt h hk hi0
      split_ifs
      · have hs := swap_consistent h hc hi ⟨hp0, by omega⟩ (by omega)
        have e : (h.swap i (h.parent i)).heap_arr (h.parent i) = h.heap_arr i := by
          rw [swap_heap_arr]; simp
        have := ih (h.swap i (h.parent i)) (i := h.parent i) (by simpa using hk) hs.1
          ⟨hp0, by omega⟩ ((hs.1.1 _ hp0 (by omega)).2)
        rw [e] at this
        exact ancestor_or_self.step hi0 (ancestor_or_self_congr (by simp) this)
      · rw [hself]; exact ancestor_or_self.refl i

/-- Sift-down from slot `i` leaves the vertex of slot `i` at `i` or at a descendant. -/
theorem heapify_down_fuel_tracks (f : Nat) (h : k_heap) {i : Int} (hk : 1 ≤ h.k)
    (hfN : h.k * (h.current_size - 1) < INT_MAX)
    (hc : h.slots_consistent h.current_size) (hi : 0 ≤ i ∧ i < h.current_size) :
    ancestor_or_self h i ((heapify_down_fuel f h i).positions (h.heap_arr i)) := by
  have hself : h.positions (h.heap_arr i) = i := (hc.1 i hi.1 hi.2).2
  induction f generalizing h i with
  | zero =>
    show ancestor_or_self h i (h.positions (h.heap_arr i))
    rw [hself]; exact ancestor_or_self.refl i
  | succ f ih =>
    unfold heapify_down_fuel
    by_cases hl : h.is_leaf i = true
    · rw [if_pos hl, hself]; exact ancestor_or_self.refl i
    · rw [if_neg hl]
      have hne : h.child i 0 < h.current_size := by
        simp [is_leaf] at hl; omega
      obtain ⟨h1, h2, h3⟩ := smallest_child_range h i hk hi.1
        (slot_fits h hk (by omega) hfN) hfN hne
      split_ifs
      · have hs := swap_consistent h hc hi ⟨by omega, h2⟩ (by omega)
        have e : (h.swap i (h.smallest_child i)).heap_arr (h.smallest_child i) =
            h.heap_arr i := by
          rw [swap_heap_arr]; simp
        have := ih (h.swap i (h.smallest_child i)) (i := h.smallest_child i)
          (by simpa using hk) (by simpa using hfN) (by simpa using hs.1)
          (by simpa using ⟨by omega, h2⟩)
          ((hs.1.1 _ (by omega) h2).2)
        rw [e] at this
        have hstep : ancestor_or_self h i (h.smallest_child i) :=
          ancestor_or_self.step (by omega) (by rw [h3]; exact ancestor_or_self.refl i)
        exact ancestor_or_self_trans hstep (ancestor_or_self_congr (by simp) this)
      · rw [hself]; exact ancestor_or_self.refl i

end k_heap

namespace k_heap

theorem depth_fuel_stable (h : k_heap) (hk : 1 ≤ h.k) (f1 f2 : Nat) (i : Int) (hi : 0 ≤ i)
    (h1 : i ≤ f1) (h2 : i ≤ f2) : h.depth_fuel f1 i = h.depth_fuel f2 i := by
  induction f1 generalizing f2 i with
  | zero =>
    have : i = 0 := by simp at h1; omega
    subst this
    cases f2 <;> simp [depth_fuel]
  | succ f1 ih =>
    cases f2 with
    | zero =>
      have : i = 0 := by simp at h2; omega
      subst this
      simp [depth_fuel]
    | succ f2 =>
      unfold depth_fuel
      by_cases hi0 : i ≤ 0
      · rw [if_pos hi0, if_pos hi0]
      · rw [if_neg hi0, if_neg hi0]
        have hpl := parent_lt h hk (by omega : 0 < i)
        have hp0 := parent_nonneg h hk (by omega : 0 < i)
        rw [ih f2 (h.parent i) hp0 (by push_cast at h1; omega) (by push_cast at h2; omega)]

/-- The depth of a non-root slot is one more than its parent's. -/
theorem depth_unfold (h : k_heap) (hk : 1 ≤ h.k) {i : Int} (hi : 0 < i) :
    h.depth i = h.depth (h.parent i) + 1 := by
  unfold depth
  obtain ⟨m, hm⟩ : ∃ m, i.toNat = m + 1 := ⟨i.toNat - 1, by omega⟩
  rw [hm]
  conv_lhs => unfold depth_fuel
  rw [if_neg (by omega)]
  have hpl := parent_lt h hk hi
  have hp0 := parent_nonneg h hk hi
  rw [depth_fuel_stable h hk m (h.parent i).toNat (h.parent i) hp0 (by omega) (by omega)]

theorem depth_le_of_ancestor (h : k_heap) (hk : 1 ≤ h.k) {a p : Int}
    (ha : ancestor_or_self h a p) : h.depth a ≤ h.depth p := by
  induction ha with
  | refl => exact le_refl _
  | step hp _ ih =>
    rw [depth_unfold h hk hp]
    omega

/-- Counterexample for C9 as stated, for every valid heap: in the heap `wide_sample` (arity
`INT_MAX`, min-heap property, index consistency) vertex 4 is present in slot 2 with the
distance 3, and `update(4, 9)` runs `heapify_down(2)`, where the index `child(2, 0)` has
wrapped around to `-1`: `is_leaf(2)` is false and `key` is evaluated outside `heap_arr`, so
that the call leaves the vertex at no slot in a defined way. -/
theorem update_depth_overflow_counterexample :
    (2 ≤ wide_sample.k ∧ wide_sample.heap_property ∧ wide_sample.index_consistent) ∧
    ((0 : Int) ≤ 4 ∧ 4 < wide_sample.capacity ∧ wide_sample.positions 4 = 2 ∧
      wide_sample.dist 4 < 9) ∧
    wide_sample.child 2 0 = -1 ∧ wide_sample.is_leaf 2 = false ∧
    ¬ wide_sample.update_in_bounds 4 9 := by
  refine ⟨⟨by decide, by decide, by decide⟩, ⟨by decide, by decide, by decide, by decide⟩,
    by decide, by decide, ?_⟩
  intro hb
  have hb := hb.2
  rw [if_neg (by decide), if_neg (by decide), if_pos (by decide)] at hb
  exact heapify_down_out_of_bounds _ _ 0 (by decide) (le_refl 0) (by decide) (by decide)
    (by decide) (by decide) hb

/-- C9, amended: for every valid heap and every vertex `v` present at slot `p`, where for a
`d` above the stored distance the index arithmetic has to fit into an `int`
(`k * (current_size - 1) < INT_MAX`), `update(v, d)` stays within the bounds of the arrays;
with `d` strictly below the stored distance it leaves `v` at `p` or at an ancestor of `p`
(depth not larger); with `d` strictly above it leaves `v` at `p` or at a descendant of `p`
(depth not smaller); with `d` equal to the stored distance it leaves the slot array and the
position index unchanged. -/
theorem update_moves_vertex_in_one_direction (h : k_heap) (v d : Int) (hk : 2 ≤ h.k)
    (_hheap : h.heap_property) (hidx : h.index_consistent)
    (hv0 : 0 ≤ v) (hvc : v < h.capacity) (hp : h.positions v ≠ -1)
    (hfit : d > h.dist v → h.k * (h.current_size - 1) < INT_MAX) :
    h.update_in_bounds v d ∧
    (d < h.dist v →
      ancestor_or_self h ((h.update v d).positions v) (h.positions v) ∧
      h.depth ((h.update v d).positions v) ≤ h.depth (h.positions v)) ∧
    (d > h.dist v →
      ancestor_or_self h (h.positions v) ((h.update v d).positions v) ∧
      h.depth (h.positions v) ≤ h.depth ((h.update v d).positions v)) ∧
    (d = h.dist v →
      (h.update v d).heap_arr = h.heap_arr ∧ (h.update v d).positions = h.positions) := by
  have hk1 : 1 ≤ h.k := by omega
  obtain ⟨hpr, hpv⟩ := hidx.2 v hv0 hvc hp
  set h1 : k_heap := { h with dist := Function.update h.dist v d } with h1def
  have hc1 : h1.slots_consistent h1.current_size := hidx
  have harr : h1.heap_arr (h.positions v) = v := hpv
  refine ⟨?_, ?_, ?_, ?_⟩
  · exact update_in_bounds_of_slots h v d hk1 (by omega) (slots_in_bounds_of_consistent h hidx)
      (size_le_capacity h hidx (by omega)) ⟨hv0, hvc⟩ (fun habs => absurd habs hp)
      (fun _ => hpr) (fun _ => hfit)
  · intro hlt
    have e : h.update v d = h1.heapify_up (h.positions v) := by
      unfold update
      rw [if_neg hp]
      simp only [if_pos hlt]
    have := heapify_up_fuel_tracks (h.positions v).toNat h1 hk1 hc1 hpr
    rw [harr] at this
    have hanc : ancestor_or_self h ((h.update v d).positions v) (h.positions v) := by
      rw [e]; exact @ancestor_or_self_congr h1 h _ _ rfl this
    exact ⟨hanc, depth_le_of_ancestor h hk1 hanc⟩
  · intro hgt
    have e : h.update v d = h1.heapify_down (h.positions v) := by
      unfold update
      rw [if_neg hp]
      simp only [if_neg (not_lt.mpr (le_of_lt hgt)), if_pos hgt]
    have := heapify_down_fuel_tracks (h1.current_size - h.positions v).toNat h1 hk1
      (hfit hgt) hc1 hpr
    rw [harr] at this
    have hanc : ancestor_or_self h (h.positions v) ((h.update v d).positions v) := by
      rw [e]; exact @ancestor_or_self_congr h1 h _ _ rfl this
    exact ⟨hanc, depth_le_of_ancestor h hk1 hanc⟩
  · intro heq
    have e : h.update v d = h1 := by
      unfold update
      rw [if_neg hp]
      simp only [if_neg (by omega : ¬ d < h.dist v), if_neg (by omega : ¬ d > h.dist v)]
    rw [e]
    exact ⟨rfl, rfl⟩

/-- Witness for C9: in the sample heap vertex 3 (slot 2, distance 9) lowered to 1,
vertex 2 (slot 0, distance 4) raised to 100, vertex 1 (distance 7) set to 7. -/
theorem update_moves_vertex_in_one_direction_witness :
    (2 ≤ sample.k ∧ sample.heap_property ∧ sample.index_consistent ∧
      sample.positions 3 ≠ -1 ∧ sample.positions 2 ≠ -1 ∧ sample.positions 1 ≠ -1 ∧
      (1 : Int) < sample.dist 3 ∧ (100 : Int) > sample.dist 2 ∧ (7 : Int) = sample.dist 1 ∧
      sample.k * (sample.current_size - 1) < INT_MAX) ∧
    (sample.update_in_bounds 3 1 ∧
      ancestor_or_self sample ((sample.update 3 1).positions 3) (sample.positions 3) ∧
      sample.depth ((sample.update 3 1).positions 3) ≤ sample.depth (sample.positions 3)) ∧
    (sample.update_in_bounds 2 100 ∧
      ancestor_or_self sample (sample.positions 2) ((sample.update 2 100).positions 2) ∧
      sample.depth (sample.positions 2) ≤ sample.depth ((sample.update 2 100).positions 2)) ∧
    ((sample.update 1 7).heap_arr = sample.heap_arr ∧
      (sample.update 1 7).positions = sample.positions) :=
  ⟨⟨by decide, by decide, by decide, by decide, by decide, by decide, by decide, by decide,
      by decide, by decide⟩,
    ⟨(update_moves_vertex_in_one_direction sample 3 1 (by decide) (by decide) (by decide)
      (by decide) (by decide) (by decide) (fun _ => by decide)).1,
     (update_moves_vertex_in_one_direction sample 3 1 (by decide) (by decide) (by decide)
      (by decide) (by decide) (by decide) (fun _ => by decide)).2.1 (by decide)⟩,
    ⟨(update_moves_vertex_in_one_direction sample 2 100 (by decide) (by decide) (by decide)
      (by decide) (by decide) (by decide) (fun _ => by decide)).1,
     (update_moves_vertex_in_one_direction sample 2 100 (by decide) (by decide) (by decide)
      (by decide) (by decide) (by decide) (fun _ => by decide)).2.2.1 (by decide)⟩,
    (update_moves_vertex_in_one_direction sample 1 7 (by decide) (by decide) (by decide)
      (by decide) (by decide) (by decide) (fun _ => by decide)).2.2.2 (by decide)⟩

end k_heap

/-! ## Paths -/

theorem graph_at_mem_row (g : graph) (v : Int) (e : Int × Int) (he : e ∈ graph_at g v) :
    ∃ row ∈ g, e ∈ row := by
  unfold graph_at at he
  by_cases hlt : v.toNat < g.length
  · rw [List.getD_eq_getElem g [] hlt] at he
    exact ⟨_, List.getElem_mem hlt, he⟩
  · rw [List.getD_eq_default g [] (by omega)] at he
    cases he

theorem is_edge_target (g : graph) (htr : targets_in_range g) {a b w : Int}
    (he : is_edge g a b w) : 1 ≤ b ∧ b < (g.length : Int) := by
  obtain ⟨row, hrow, hmem⟩ := graph_at_mem_row g a (b, w) he.2
  have := htr row hrow (b, w) hmem
  simp only at this
  omega

theorem is_edge_weight (g : graph) (hnn : nonneg_weights g) {a b w : Int}
    (he : is_edge g a b w) : 0 ≤ w := by
  obtain ⟨row, hrow, hmem⟩ := graph_at_mem_row g a (b, w) he.2
  exact hnn row hrow (b, w) hmem

theorem path_weight_nonneg (g : graph) (hnn : nonneg_weights g) {src v w : Int}
    {vs : List Int} (hp : path g src v vs w) : 0 ≤ w := by
  induction hp with
  | nil => exact le_refl _
  | snoc _ he ih =>
    have := is_edge_weight g hnn he
    omega

theorem path_end_range (g : graph) (htr : targets_in_range g) {src v w : Int}
    {vs : List Int} (hsrc : 1 ≤ src ∧ src < (g.length : Int)) (hp : path g src v vs w) :
    1 ≤ v ∧ v < (g.length : Int) := by
  cases hp with
  | nil => exact hsrc
  | snoc _ he => exact is_edge_target g htr he

theorem path_end_mem (g : graph) {src v w : Int} {vs : List Int} (hp : path g src v vs w) :
    v ∈ vs := by
  cases hp with
  | nil => exact List.mem_singleton.mpr rfl
  | snoc _ _ => exact List.mem_cons_self _ _

/-- The minimum path weight is unique. -/
theorem is_shortest_unique (g : graph) {src dest r1 r2 : Int} (h1 : is_shortest g src dest r1)
    (h2 : is_shortest g src dest r2) : r1 = r2 := by
  obtain ⟨vs1, p1⟩ := h1.1
  obtain ⟨vs2, p2⟩ := h2.1
  have a := h1.2 vs2 r2 p2
  have b := h2.2 vs1 r1 p1
  omega

theorem int_add_exact {a b : Int} (h0 : 0 ≤ a + b) (h1 : a + b < INT_MAX) :
    int_add a b = a + b := by
  unfold int_add
  unfold INT_MAX at h1
  omega

/-- Some vertex on a path to an unvisited vertex is unvisited, has a distance
that is not the sentinel, and this distance is at most the weight of the path. -/
theorem frontier_on_path (g : graph) (hnn : nonneg_weights g) {src : Int}
    {s : dijkstra_state} (hinv : dijkstra_inv g src (fun _ _ _ => True) s)
    {t w : Int} {vs : List Int} (hp : path g src t vs w) (ht : s.visited t = false) :
    ∃ y, s.visited y = false ∧ s.Q.dist y ≠ INT_MAX ∧ s.Q.dist y ≤ w := by
  induction hp with
  | nil =>
    refine ⟨src, ht, ?_, ?_⟩
    · rw [hinv.src_dist]; decide
    · rw [hinv.src_dist]
  | @snoc v u c w' vs' hp' he ih =>
    have hc := is_edge_weight g hnn he
    by_cases hv : s.visited v = true
    · have hr := hinv.relaxed v hv u c he trivial ht
      have hf := hinv.final v hv vs' w' hp'
      exact ⟨u, ht, hr.1, by omega⟩
    · obtain ⟨y, hy1, hy2, hy3⟩ := ih (by simpa using hv)
      exact ⟨y, hy1, hy2, by omega⟩

/-! ## One iteration of the `while` loop -/

theorem visited_update (vis : Int → Bool) (v u : Int) :
    Function.update vis v true u = true ↔ (u = v ∨ vis u = true) := by
  rw [Function.update_apply]
  by_cases h : u = v <;> simp [h]

theorem visited_update_false (vis : Int → Bool) (v u : Int) :
    Function.update vis v true u = false ↔ (u ≠ v ∧ vis u = false) := by
  rw [Function.update_apply]
  by_cases h : u = v <;> simp [h]

/-- Extraction of the minimum: the extracted vertex is unvisited and in range,
its distance is the minimum path weight, and the invariant holds again with no
edge of the extracted vertex relaxed yet. -/
theorem extract_step (g : graph) (htr : targets_in_range g) (hnn : nonneg_weights g)
    {src : Int} (hsrc : 1 ≤ src ∧ src < (g.length : Int)) {s : dijkstra_state}
    (hinv : dijkstra_inv g src (fun _ _ _ => True) s) (hne : s.Q.isEmpty = false) :
    ∃ v Q1, s.Q.getMin = .ok v ∧ s.Q.deleteMin = .ok Q1 ∧
      (1 ≤ v ∧ v < (g.length : Int)) ∧ s.visited v = false ∧ Q1.dist = s.Q.dist ∧
      s.Q.dist v ≠ INT_MAX ∧ (∀ vs w, path g src v vs w → s.Q.dist v ≤ w) ∧
      dijkstra_inv g src (fun x _ _ => x ≠ v) ⟨Q1, Function.update s.visited v true⟩ := by
  have hv := hinv.heap_valid
  have hsz : 0 < s.Q.current_size := by
    have := hv.size_nonneg
    simp [k_heap.isEmpty] at hne
    omega
  obtain ⟨hg, hr, hpos, -, hmin⟩ := k_heap.getMin_spec s.Q hv hsz
  obtain ⟨Q1, hd, hv1, hdist, hcap, hkq, -, hmem⟩ :=
    k_heap.deleteKey_spec s.Q 0 hv ⟨le_refl _, hsz⟩ (hv.fits hinv.fit)
  set v := s.Q.heap_arr 0 with hvdef
  have hcapg := hinv.cap
  have hvh : s.Q.positions v ≠ -1 := by rw [hpos]; decide
  have hvin := (hinv.in_heap v hr.1 (by omega)).1 hvh
  obtain ⟨pvs, ppath, -, -⟩ := hinv.tree v hvin.2
  have hvr := path_end_range g htr hsrc ppath
  have hfin : ∀ vs w, path g src v vs w → s.Q.dist v ≤ w := by
    intro vs w hp
    obtain ⟨y, hy1, hy2, hy3⟩ := frontier_on_path g hnn hinv hp hvin.1
    obtain ⟨yvs, ypath, -, -⟩ := hinv.tree y hy2
    have hyr := path_end_range g htr hsrc ypath
    have hyh := (hinv.in_heap y (by omega) hyr.2).2 ⟨hy1, hy2⟩
    have := hmin y (by omega) (by omega) hyh
    omega
  refine ⟨v, Q1, hg, by rw [k_heap.deleteMin_eq _ hsz]; exact hd, hvr, hvin.1, hdist, hvin.2,
    hfin, ?_⟩
  refine ⟨hv1, by rw [hcap]; exact hcapg, by rw [hdist]; exact hinv.src_dist, ?_, ?_, ?_, ?_, ?_,
    by show Q1.k * (Q1.capacity - 1) < INT_MAX; rw [hkq, hcap]; exact hinv.fit⟩
  · intro u hu0 hul
    show Q1.positions u ≠ -1 ↔ (Function.update s.visited v true u = false ∧ Q1.dist u ≠ INT_MAX)
    rw [hmem u hu0 (by omega), visited_update_false, hdist, hinv.in_heap u hu0 hul]
    tauto
  · intro x hx
    show Q1.dist x ≠ INT_MAX
    rw [hdist]
    rcases (visited_update _ _ _).1 hx with e | e
    · rw [e]; exact hvin.2
    · exact hinv.visited_dist x e
  · intro u hu
    show ∃ vs, path g src u vs (Q1.dist u) ∧ vs.Nodup ∧
      ∀ x ∈ vs, x ≠ u → Function.update s.visited v true x = true
    rw [hdist] at hu ⊢
    obtain ⟨vs, hp, hnd, hvis⟩ := hinv.tree u hu
    exact ⟨vs, hp, hnd, fun x hx hxu => (visited_update _ _ _).2 (Or.inr (hvis x hx hxu))⟩
  · intro x hx vs w hp
    show Q1.dist x ≤ w
    rw [hdist]
    rcases (visited_update _ _ _).1 hx with e | e
    · rw [e]; exact hfin vs w (e ▸ hp)
    · exact hinv.final x e vs w hp
  · intro x hx u c he hR hu
    show Q1.dist u ≠ INT_MAX ∧ Q1.dist u ≤ Q1.dist x + c
    rw [hdist]
    rcases (visited_update _ _ _).1 hx with e | e
    · exact absurd e hR
    · exact hinv.relaxed x e u c he trivial ((visited_update_false _ _ _).1 hu).2

/-! ## One pass of the `for` loop over the edges -/

/-- The invariant survives when more edges count as relaxed, as long as each of
them satisfies the relaxation inequality. -/
theorem dijkstra_inv_weaken (g : graph) {src : Int} {R R' : Int → Int → Int → Prop}
    {s : dijkstra_state} (hinv : dijkstra_inv g src R s)
    (hR : ∀ x u c, s.visited x = true → s.visited u = false → is_edge g x u c → R' x u c →
      R x u c ∨ (s.Q.dist u ≠ INT_MAX ∧ s.Q.dist u ≤ s.Q.dist x + c)) :
    dijkstra_inv g src R' s := by
  refine ⟨hinv.heap_valid, hinv.cap, hinv.src_dist, hinv.in_heap, hinv.visited_dist, hinv.tree,
    hinv.final, ?_, hinv.fit⟩
  intro x hx u c he hr hu
  rcases hR x u c hx hu he hr with h | h
  · exact hinv.relaxed x hx u c he h hu
  · exact h

/-- The invariant survives a relaxation that lowers the distance of the
unvisited vertex `u` to `cand = dist v + c` along the edge `v → u`. -/
theorem dijkstra_inv_improve (g : graph) {src v u c cand : Int}
    {R R' : Int → Int → Int → Prop} {s : dijkstra_state} {Q' : k_heap}
    (hinv : dijkstra_inv g src R s)
    (hR : ∀ x u' c', R' x u' c' → R x u' c' ∨ (x = v ∧ u' = u ∧ c' = c))
    (hQv : Q'.valid) (hcap : Q'.capacity = s.Q.capacity) (hQk : Q'.k = s.Q.k)
    (hdist : Q'.dist = Function.update s.Q.dist u cand)
    (hmem : ∀ x, 0 ≤ x → x < s.Q.capacity →
      (Q'.positions x ≠ -1 ↔ (x = u ∨ s.Q.positions x ≠ -1)))
    (hu : s.visited u = false) (husrc : u ≠ src)
    (hcand : cand = s.Q.dist v + c) (hcm : cand ≠ INT_MAX) (hle : cand ≤ s.Q.dist u)
    (hpath : ∃ vs, path g src u vs cand ∧ vs.Nodup ∧ ∀ x ∈ vs, x ≠ u → s.visited x = true) :
    dijkstra_inv g src R' ⟨Q', s.visited⟩ := by
  have hvis_ne : ∀ x, s.visited x = true → x ≠ u := by
    intro x hx e
    rw [e, hu] at hx
    cases hx
  have hd_ne : ∀ x, x ≠ u → Q'.dist x = s.Q.dist x := by
    intro x hx
    rw [hdist, Function.update_noteq hx]
  have hd_u : Q'.dist u = cand := by rw [hdist, Function.update_same]
  refine ⟨hQv, by rw [hcap]; exact hinv.cap, ?_, ?_, ?_, ?_, ?_, ?_,
    by show Q'.k * (Q'.capacity - 1) < INT_MAX; rw [hQk, hcap]; exact hinv.fit⟩
  · show Q'.dist src = 0
    rw [hd_ne src (Ne.symm husrc)]; exact hinv.src_dist
  · intro x hx0 hxl
    show Q'.positions x ≠ -1 ↔ (s.visited x = false ∧ Q'.dist x ≠ INT_MAX)
    rw [hmem x hx0 (by rw [hinv.cap]; exact hxl), hinv.in_heap x hx0 hxl]
    by_cases e : x = u
    · rw [e, hd_u]; tauto
    · rw [hd_ne x e]; tauto
  · intro x hx
    show Q'.dist x ≠ INT_MAX
    rw [hd_ne x (hvis_ne x hx)]; exact hinv.visited_dist x hx
  · intro x hx
    show ∃ vs, path g src x vs (Q'.dist x) ∧ vs.Nodup ∧ ∀ y ∈ vs, y ≠ x → s.visited y = true
    by_cases e : x = u
    · rw [e, hd_u]; exact hpath
    · rw [hd_ne x e] at hx ⊢
      exact hinv.tree x hx
  · intro x hx vs w hp
    show Q'.dist x ≤ w
    rw [hd_ne x (hvis_ne x hx)]; exact hinv.final x hx vs w hp
  · intro x hx u' c' he hr hu'
    show Q'.dist u' ≠ INT_MAX ∧ Q'.dist u' ≤ Q'.dist x + c'
    rw [hd_ne x (hvis_ne x hx)]
    by_cases e : u' = u
    · rw [e, hd_u]
      refine ⟨hcm, ?_⟩
      rcases hR x u' c' hr with h | ⟨h1, -, h3⟩
      · have := (hinv.relaxed x hx u' c' he h hu').2
        rw [e] at this
        omega
      · rw [h1, h3]; omega
    · rw [hd_ne u' e]
      rcases hR x u' c' hr with h | ⟨-, h2, -⟩
      · exact hinv.relaxed x hx u' c' he h hu'
      · exact absurd h2 e

/-- The body of the `for` loop keeps the invariant and relaxes the edge it examines. -/
theorem relax_step (g : graph) (htr : targets_in_range g) (hnn : nonneg_weights g)
    {src : Int} (hsum : sums_below_sentinel g src) {s : dijkstra_state} {v : Int}
    (done : List (Int × Int)) (e : Int × Int) (hv : s.visited v = true) (hv0 : 0 ≤ v)
    (he : e ∈ graph_at g v)
    (hinv : dijkstra_inv g src (fun x u c => x ≠ v ∨ (u, c) ∈ done) s) :
    dijkstra_inv g src (fun x u c => x ≠ v ∨ (u, c) ∈ done ++ [e]) (relax v s e) ∧
      (relax v s e).visited = s.visited := by
  obtain ⟨u, c⟩ := e
  have hedge : is_edge g v u c := ⟨hv0, he⟩
  have hur := is_edge_target g htr hedge
  have hc := is_edge_weight g hnn hedge
  have hRsplit : ∀ x u' c', (x ≠ v ∨ (u', c') ∈ done ++ [(u, c)]) →
      (x ≠ v ∨ (u', c') ∈ done) ∨ (x = v ∧ u' = u ∧ c' = c) := by
    intro x u' c' h
    by_cases hx : x = v
    · rcases h with h | h
      · exact absurd hx h
      · rcases List.mem_append.1 h with h | h
        · exact Or.inl (Or.inr h)
        · have := List.mem_singleton.1 h
          rw [Prod.mk.injEq] at this
          exact Or.inr ⟨hx, this.1, this.2⟩
    · exact Or.inl (Or.inl hx)
  by_cases hvu : s.visited u = true
  · have e0 : relax v s (u, c) = s := by
      unfold relax
      simp [hvu]
    rw [e0]
    refine ⟨dijkstra_inv_weaken g hinv ?_, rfl⟩
    intro x u' c' _ hu' _ hr
    rcases hRsplit x u' c' hr with h | ⟨-, h2, -⟩
    · exact Or.inl h
    · rw [h2, hvu] at hu'
      cases hu'
  · have hvu' : s.visited u = false := by simpa using hvu
    obtain ⟨vs, hp, hnd, hvis⟩ := hinv.tree v (hinv.visited_dist v hv)
    have hall : ∀ x ∈ vs, s.visited x = true := by
      intro x hx
      by_cases e : x = v
      · rw [e]; exact hv
      · exact hvis x hx e
    have hnotin : u ∉ vs := fun h => by
      have := hall u h
      rw [hvu'] at this
      cases this
    have hp' : path g src u (u :: vs) (s.Q.dist v + c) := path.snoc hp hedge
    have hnd' : (u :: vs).Nodup := List.nodup_cons.2 ⟨hnotin, hnd⟩
    have hvis' : ∀ x ∈ u :: vs, x ≠ u → s.visited x = true := by
      intro x hx hxu
      rcases List.mem_cons.1 hx with h | h
      · exact absurd h hxu
      · exact hall x h
    have hlt := hsum u _ _ hp' hnd'
    have h0 := path_weight_nonneg g hnn hp'
    have hadd : int_add (s.Q.dist v) c = s.Q.dist v + c := int_add_exact h0 hlt
    have hcapu : 0 ≤ u ∧ u < s.Q.capacity := by
      rw [hinv.cap]; omega
    by_cases hdu : s.Q.dist u = INT_MAX
    · have e0 : relax v s (u, c) =
          { s with Q := (s.Q.setDistance u (s.Q.dist v + c)).insert u } := by
        unfold relax
        simp [hvu', k_heap.getDistance, hdu, hadd]
      have habs : s.Q.positions u = -1 := by
        by_contra hcon
        exact ((hinv.in_heap u (by omega) hur.2).1 hcon).2 hdu
      obtain ⟨hQv, hQd, hQc, hQk, -, hQm⟩ :=
        k_heap.insert_spec (s.Q.setDistance u (s.Q.dist v + c)) u
          (k_heap.setDistance_absent s.Q u _ hinv.heap_valid habs) hcapu habs
      rw [e0]
      refine ⟨dijkstra_inv_improve g hinv hRsplit hQv hQc hQk hQd hQm hvu' ?_ rfl (by omega)
        (by omega) ⟨u :: vs, hp', hnd', hvis'⟩, rfl⟩
      intro e
      have := hinv.src_dist
      rw [← e, hdu] at this
      revert this; decide
    · simp only [INT_MAX] at hdu
      by_cases hless : s.Q.dist v + c < s.Q.dist u
      · have e0 : relax v s (u, c) = { s with Q := s.Q.update u (s.Q.dist v + c) } := by
          unfold relax
          simp [hvu', k_heap.getDistance, hdu, hadd, hless, INT_MAX]
        have hin : s.Q.positions u ≠ -1 :=
          (hinv.in_heap u (by omega) hur.2).2 ⟨hvu', by simpa [INT_MAX] using hdu⟩
        obtain ⟨hQv, hQd, hQc, hQk, -, hQm⟩ :=
          k_heap.update_present_spec s.Q u (s.Q.dist v + c) hinv.heap_valid hcapu hin
            (fun hgt => absurd hless (by omega))
        rw [e0]
        refine ⟨dijkstra_inv_improve g hinv hRsplit hQv hQc hQk hQd ?_ hvu' ?_ rfl (by omega)
          (by omega) ⟨u :: vs, hp', hnd', hvis'⟩, rfl⟩
        · intro x hx0 hxc
          rw [hQm x hx0 hxc]
          constructor
          · exact fun h => Or.inr h
          · rintro (h | h)
            · rw [h]; exact hin
            · exact h
        · intro e
          have := hinv.src_dist
          rw [← e] at this
          omega
      · have e0 : relax v s (u, c) = s := by
          unfold relax
          simp [hvu', k_heap.getDistance, hdu, hadd, hless, INT_MAX]
        rw [e0]
        refine ⟨dijkstra_inv_weaken g hinv ?_, rfl⟩
        intro x u' c' _ _ _ hr
        rcases hRsplit x u' c' hr with h | ⟨h1, h2, h3⟩
        · exact Or.inl h
        · rw [h1, h2, h3]
          exact Or.inr ⟨by simpa [INT_MAX] using hdu, by omega⟩

/-- The whole `for` loop over the edges of the extracted vertex. -/
theorem relax_fold (g : graph) (htr : targets_in_range g) (hnn : nonneg_weights g)
    {src : Int} (hsum : sums_below_sentinel g src) {v : Int} (hv0 : 0 ≤ v)
    (rest : List (Int × Int)) :
    ∀ (done : List (Int × Int)) (s : dijkstra_state), (∀ e ∈ rest, e ∈ graph_at g v) →
      s.visited v = true → dijkstra_inv g src (fun x u c => x ≠ v ∨ (u, c) ∈ done) s →
      dijkstra_inv g src (fun x u c => x ≠ v ∨ (u, c) ∈ done ++ rest)
        (rest.foldl (relax v) s) ∧ (rest.foldl (relax v) s).visited = s.visited := by
  induction rest with
  | nil =>
    intro done s _ _ hinv
    rw [List.append_nil]
    exact ⟨hinv, rfl⟩
  | cons e rest ih =>
    intro done s hsub hv hinv
    obtain ⟨h1, h2⟩ := relax_step g htr hnn hsum done e hv hv0
      (hsub e (List.mem_cons_self _ _)) hinv
    have := ih (done ++ [e]) (relax v s e)
      (fun e' he' => hsub e' (List.mem_cons_of_mem _ he')) (by rw [h2]; exact hv) h1
    rw [List.append_assoc, List.singleton_append] at this
    rw [List.foldl_cons]
    exact ⟨this.1, by rw [this.2, h2]⟩

/-- After the `for` loop every edge of every visited vertex is relaxed. -/
theorem relax_all (g : graph) (htr : targets_in_range g) (hnn : nonneg_weights g)
    {src : Int} (hsum : sums_below_sentinel g src) {v : Int} (hv0 : 0 ≤ v)
    (s : dijkstra_state) (hv : s.visited v = true)
    (hinv : dijkstra_inv g src (fun x _ _ => x ≠ v) s) :
    dijkstra_inv g src (fun _ _ _ => True) ((graph_at g v).foldl (relax v) s) ∧
      ((graph_at g v).foldl (relax v) s).visited = s.visited := by
  have h0 : dijkstra_inv g src (fun x u c => x ≠ v ∨ (u, c) ∈ ([] : List (Int × Int))) s := by
    apply dijkstra_inv_weaken g hinv
    intro x u c _ _ _ hr
    rcases hr with h | h
    · exact Or.inl h
    · cases h
  obtain ⟨h1, h2⟩ := relax_fold g htr hnn hsum hv0 (graph_at g v) [] s (fun _ h => h) hv h0
  refine ⟨dijkstra_inv_weaken g h1 ?_, h2⟩
  intro x u c _ _ he _
  by_cases hx : x = v
  · rw [hx] at he
    exact Or.inl (Or.inr (by rw [List.nil_append]; exact he.2))
  · exact Or.inl (Or.inl hx)

/-! ## The `while` loop -/

theorem unvisited_count_extract (g : graph) (s s' : dijkstra_state) (v : Int)
    (hvr : 1 ≤ v ∧ v < (g.length : Int)) (hv : s.visited v = false)
    (hvis : s'.visited = Function.update s.visited v true) :
    unvisited_count g s' < unvisited_count g s := by
  unfold unvisited_count
  apply Finset.card_lt_card
  refine ⟨?_, ?_⟩
  · intro i hi
    rw [Finset.mem_filter] at hi ⊢
    refine ⟨hi.1, ?_⟩
    have := hi.2
    rw [hvis, visited_update_false] at this
    exact this.2
  · intro hsub
    have hmem : (v - 1).toNat ∈ (Finset.range (g.length - 1)).filter
        (fun i : Nat => s.visited ((i : Int) + 1) = false) := by
      rw [Finset.mem_filter, Finset.mem_range]
      refine ⟨by omega, ?_⟩
      have : (((v - 1).toNat : Nat) : Int) + 1 = v := by omega
      rw [this]; exact hv
    have := hsub hmem
    rw [Finset.mem_filter, hvis, visited_update_false] at this
    have e : (((v - 1).toNat : Nat) : Int) + 1 = v := by omega
    exact this.2.1 e

/-- The `while` loop of `dijkstra` started in a state that satisfies the
invariant ends within the budget.  When the destination is reachable it returns
the minimum path weight, at the extraction of the destination; when it is not,
it returns -1 with the heap empty and the destination never extracted. -/
theorem dijkstra_loop_spec (g : graph) (htr : targets_in_range g) (hnn : nonneg_weights g)
    {src : Int} (hsrc : 1 ≤ src ∧ src < (g.length : Int)) (hsum : sums_below_sentinel g src)
    (dest : Int) :
    ∀ (fuel : Nat) (s : dijkstra_state), dijkstra_inv g src (fun _ _ _ => True) s →
      s.visited dest = false → unvisited_count g s < fuel →
      ∃ r sf, dijkstra_loop g dest fuel s = some (.ok (r, sf)) ∧
        (reachable g src dest → is_shortest g src dest r ∧ sf.visited dest = true) ∧
        (¬ reachable g src dest →
          r = -1 ∧ sf.Q.isEmpty = true ∧ sf.visited dest = false) := by
  intro fuel
  induction fuel with
  | zero => intro s _ _ h; omega
  | succ fuel ih =>
    intro s hinv hdest hcount
    cases hE : s.Q.isEmpty with
    | true =>
      refine ⟨-1, s, by simp [dijkstra_loop, hE], ?_, fun _ => ⟨rfl, hE, hdest⟩⟩
      rintro ⟨vs, w, hp⟩
      exfalso
      obtain ⟨y, hy1, hy2, -⟩ := frontier_on_path g hnn hinv hp hdest
      obtain ⟨yvs, ypath, -, -⟩ := hinv.tree y hy2
      have hyr := path_end_range g htr hsrc ypath
      have hyh := (hinv.in_heap y (by omega) hyr.2).2 ⟨hy1, hy2⟩
      have := (hinv.heap_valid.index.2 y (by omega) (by rw [hinv.cap]; exact hyr.2) hyh).1
      simp [k_heap.isEmpty] at hE
      omega
    | false =>
      obtain ⟨v, Q1, hg, hd, hvr, hvv, hdist, hvm, hfin, hinv1⟩ :=
        extract_step g htr hnn hsrc hinv hE
      by_cases hvd : v = dest
      · refine ⟨s.Q.dist v, ⟨Q1, Function.update s.visited v true⟩, ?_, ?_, ?_⟩
        · simp [dijkstra_loop, hE, hg, hd, hvd, k_heap.getDistance, hdist]
        · intro _
          obtain ⟨vs, hp, -, -⟩ := hinv.tree v hvm
          rw [← hvd]
          exact ⟨⟨⟨vs, hp⟩, hfin⟩, (visited_update _ _ _).2 (Or.inl rfl)⟩
        · intro hnr
          exfalso
          obtain ⟨vs, hp, -, -⟩ := hinv.tree v hvm
          exact hnr ⟨vs, _, hvd ▸ hp⟩
      · have hv1 : (⟨Q1, Function.update s.visited v true⟩ : dijkstra_state).visited v = true :=
          (visited_update _ _ _).2 (Or.inl rfl)
        obtain ⟨hinv2, hvis2⟩ := relax_all g htr hnn hsum (by omega : 0 ≤ v) _ hv1 hinv1
        have hdest2 : ((graph_at g v).foldl (relax v)
            ⟨Q1, Function.update s.visited v true⟩).visited dest = false := by
          rw [hvis2]
          exact (visited_update_false _ _ _).2 ⟨fun e => hvd e.symm, hdest⟩
        have hcount2 := unvisited_count_extract g s _ v hvr hvv hvis2
        obtain ⟨r, sf, hr, hr1, hr2⟩ := ih _ hinv2 hdest2 (by omega)
        refine ⟨r, sf, ?_, hr1, hr2⟩
        simp only [dijkstra_loop, hE, hg, hd, hvd]
        simpa using hr

/-! ## Initialisation and the whole of `dijkstra` -/

theorem init_distances_fold (l : List Nat) (Q : k_heap) (hQ : Q.dist = fun _ => INT_MAX) :
    l.foldl (fun (Q : k_heap) (j : Nat) => Q.setDistance ((j : Int) + 1) INT_MAX) Q = Q := by
  induction l with
  | nil => rfl
  | cons j l ih =>
    rw [List.foldl_cons]
    have : Q.setDistance ((j : Int) + 1) INT_MAX = Q := by
      unfold k_heap.setDistance
      have e : Function.update Q.dist ((j : Int) + 1) INT_MAX = Q.dist := by
        rw [hQ]
        funext x
        rw [Function.update_apply]
        split_ifs <;> rfl
      rw [e]
    rw [this]
    exact ih

/-- The state of `dijkstra` on entry to the `while` loop: the heap holds the
source alone, with distance 0; every other distance is the sentinel. -/
theorem dijkstra_init_spec (mem : Int → Int) (g : graph) (src k_value : Int)
    (hk : 2 ≤ k_value) (hsrc : 1 ≤ src ∧ src < (g.length : Int)) :
    ∃ s, dijkstra_init mem g src k_value = .ok s ∧ s.visited = (fun _ => false) ∧
      s.Q.valid ∧ s.Q.capacity = (g.length : Int) ∧ s.Q.k = k_value ∧
      s.Q.dist = Function.update (fun _ => INT_MAX) src 0 ∧ s.Q.current_size = 1 ∧
      ∀ u, 0 ≤ u → u < (g.length : Int) → (s.Q.positions u ≠ -1 ↔ u = src) := by
  obtain ⟨Q0, e0, hv0, hsz0, hcap0, hk0, hd0, hp0, -⟩ :=
    k_heap.new_spec mem ((g.length : Int) - 1 + 1) k_value hk (by omega)
  have hcap : Q0.capacity = (g.length : Int) := by omega
  have habs : Q0.positions src = -1 := by rw [hp0]
  have hv2 := k_heap.setDistance_absent Q0 src 0 hv0 habs
  obtain ⟨hv3, hd3, hc3, hk3, hs3, hm3⟩ :=
    k_heap.insert_spec (Q0.setDistance src 0) src hv2 ⟨by omega, by
      show src < Q0.capacity
      omega⟩ habs
  refine ⟨⟨(Q0.setDistance src 0).insert src, fun _ => false⟩, ?_, rfl, hv3, ?_, ?_, ?_, ?_, ?_⟩
  · unfold dijkstra_init
    simp only [e0]
    rw [init_distances_fold _ Q0 hd0]
  · show ((Q0.setDistance src 0).insert src).capacity = _
    rw [hc3]; exact hcap
  · show ((Q0.setDistance src 0).insert src).k = _
    rw [hk3]; exact hk0
  · show ((Q0.setDistance src 0).insert src).dist = _
    rw [hd3]
    show Function.update Q0.dist src 0 = _
    rw [hd0]
  · show ((Q0.setDistance src 0).insert src).current_size = 1
    rw [hs3]
    show Q0.current_size + 1 = 1
    omega
  · intro u hu0 hul
    show ((Q0.setDistance src 0).insert src).positions u ≠ -1 ↔ _
    rw [hm3 u hu0 (by show u < Q0.capacity; omega)]
    show (u = src ∨ Q0.positions u ≠ -1) ↔ _
    rw [hp0]
    simp

theorem dijkstra_init_inv (mem : Int → Int) (g : graph) (src k_value : Int)
    (hk : 2 ≤ k_value) (hkn : k_value * ((g.length : Int) - 1) < INT_MAX)
    (hsrc : 1 ≤ src ∧ src < (g.length : Int)) :
    ∃ s, dijkstra_init mem g src k_value = .ok s ∧ s.visited = (fun _ => false) ∧
      dijkstra_inv g src (fun _ _ _ => True) s := by
  obtain ⟨s, e, hvis, hv, hcap, hkq, hd, -, hm⟩ :=
    dijkstra_init_spec mem g src k_value hk hsrc
  have hdist : ∀ u, s.Q.dist u ≠ INT_MAX ↔ u = src := by
    intro u
    rw [hd, Function.update_apply]
    by_cases h : u = src
    · simp [h, INT_MAX]
    · simp [h]
  refine ⟨s, e, hvis, hv, hcap, ?_, ?_, ?_, ?_, ?_, ?_, by rw [hkq, hcap]; exact hkn⟩
  · rw [hd, Function.update_same]
  · intro u hu0 hul
    rw [hm u hu0 hul, hvis, hdist]
    simp
  · intro x hx
    rw [hvis] at hx
    cases hx
  · intro u hu
    have := (hdist u).1 hu
    subst this
    have hz : s.Q.dist u = 0 := by rw [hd, Function.update_same]
    rw [hz]
    refine ⟨[u], path.nil, List.nodup_singleton u, ?_⟩
    intro x hx hxu
    exact absurd (List.mem_singleton.1 hx) hxu
  · intro x hx
    rw [hvis] at hx
    cases hx
  · intro x hx
    rw [hvis] at hx
    cases hx

theorem dijkstra_of_run {fuel : Nat} {mem : Int → Int} {g : graph} {src dest k_value r : Int}
    {sf : dijkstra_state} (h : dijkstra_run fuel mem g src dest k_value = some (.ok (r, sf))) :
    dijkstra fuel mem g src dest k_value = some (.ok r) := by
  unfold dijkstra
  rw [h]

/-- Functional specification of `dijkstra`: on a graph on the vertices `1 .. n`
with non-negative weights whose path sums stay below the sentinel, from a source
in `[1, n]`, a budget of `n + 1` loop tests is enough, and the result is the
minimum path weight when the destination is reachable and -1 when it is not. -/
theorem dijkstra_run_spec (fuel : Nat) (mem : Int → Int) (g : graph) (src dest k_value : Int)
    (hk : 2 ≤ k_value) (hkn : k_value * ((g.length : Int) - 1) < INT_MAX)
    (htr : targets_in_range g) (hnn : nonneg_weights g)
    (hsum : sums_below_sentinel g src) (hsrc : 1 ≤ src ∧ src ≤ (g.length : Int) - 1)
    (hf : g.length ≤ fuel) :
    ∃ r sf, dijkstra_run fuel mem g src dest k_value = some (.ok (r, sf)) ∧
      (reachable g src dest → is_shortest g src dest r ∧ sf.visited dest = true) ∧
      (¬ reachable g src dest → r = -1 ∧ sf.Q.isEmpty = true ∧ sf.visited dest = false) := by
  have hsrc' : 1 ≤ src ∧ src < (g.length : Int) := by omega
  obtain ⟨s, e, hvis, hinv⟩ := dijkstra_init_inv mem g src k_value hk hkn hsrc'
  have hcount : unvisited_count g s < fuel := by
    unfold unvisited_count
    have := Finset.card_filter_le (Finset.range (g.length - 1))
      (fun i : Nat => s.visited ((i : Int) + 1) = false)
    rw [Finset.card_range] at this
    omega
  obtain ⟨r, sf, hr, h1, h2⟩ := dijkstra_loop_spec g htr hnn hsrc' hsum dest fuel s hinv
    (by rw [hvis]) hcount
  refine ⟨r, sf, ?_, h1, h2⟩
  unfold dijkstra_run
  rw [e]
  exact hr

theorem dijkstra_spec (fuel : Nat) (mem : Int → Int) (g : graph) (src dest k_value : Int)
    (hk : 2 ≤ k_value) (hkn : k_value * ((g.length : Int) - 1) < INT_MAX)
    (htr : targets_in_range g) (hnn : nonneg_weights g)
    (hsum : sums_below_sentinel g src) (hsrc : 1 ≤ src ∧ src ≤ (g.length : Int) - 1)
    (hf : g.length ≤ fuel) :
    ∃ r, dijkstra fuel mem g src dest k_value = some (.ok r) ∧
      (reachable g src dest → is_shortest g src dest r) ∧
      (¬ reachable g src dest → r = -1) := by
  obtain ⟨r, sf, hr, h1, h2⟩ :=
    dijkstra_run_spec fuel mem g src dest k_value hk hkn htr hnn hsum hsrc hf
  exact ⟨r, dijkstra_of_run hr, fun h => (h1 h).1, fun h => (h2 h).1⟩

/-! ## The sample graph -/

theorem sample_graph_paths {v w : Int} {vs : List Int} (hp : path sample_graph 1 v vs w) :
    (v = 1 ∧ w = 0) ∨ (v = 2 ∧ w = 1) ∨ (v = 3 ∧ 3 ≤ w ∧ w ≤ 4) ∨
      (v = 4 ∧ 6 ≤ w ∧ w ≤ 8) := by
  induction hp with
  | nil => exact Or.inl ⟨rfl, rfl⟩
  | @snoc v u c w vs _ he ih =>
    obtain ⟨-, he⟩ := he
    rcases ih with ⟨h1, h2⟩ | ⟨h1, h2⟩ | ⟨h1, h2⟩ | ⟨h1, h2⟩ <;> subst h1 <;>
      simp [graph_at, sample_graph] at he <;> omega

theorem sample_graph_targets : targets_in_range sample_graph := by
  unfold targets_in_range; decide

theorem sample_graph_nonneg : nonneg_weights sample_graph := by
  unfold nonneg_weights; decide

theorem sample_graph_sums : sums_below_sentinel sample_graph 1 := by
  intro v vs w hp _
  have := sample_graph_paths hp
  unfold INT_MAX
  omega

theorem sample_graph_shortest : is_shortest sample_graph 1 4 6 := by
  constructor
  · have e12 : is_edge sample_graph 1 2 1 := ⟨by decide, by decide⟩
    have e23 : is_edge sample_graph 2 3 2 := ⟨by decide, by decide⟩
    have e34 : is_edge sample_graph 3 4 3 := ⟨by decide, by decide⟩
    exact ⟨_, path.snoc (path.snoc (path.snoc path.nil e12) e23) e34⟩
  · intro vs w hp
    have := sample_graph_paths hp
    omega

theorem sample_graph_unreachable : ¬ reachable sample_graph 1 5 := by
  rintro ⟨vs, w, hp⟩
  have := sample_graph_paths hp
  omega

/-- Counterexample for C11 as stated, for every capacity: with `k_value = 2 ≥ 2` and the
capacity `-1` the constructor does not succeed; the array allocation `new int[capacity]`
throws `std::bad_array_new_length`. -/
theorem k_heap.new_negative_capacity_counterexample :
    (2 : Int) ≤ 2 ∧ k_heap.new (fun _ => 0) (-1) 2 = .error .bad_array_new_length ∧
    ¬ ∃ h, k_heap.new (fun _ => 0) (-1) 2 = .ok h := by
  refine ⟨by decide, rfl, ?_⟩
  rintro ⟨h, e⟩
  cases e

/-- C11, amended: constructing `k_heap(cap, k_value)` throws `invalid_argument` exactly when
`k_value < 2` (for every integer `k_value`); for `k_value ≥ 2` and a negative capacity it
throws `bad_array_new_length`; for every `k_value ≥ 2` and `cap ≥ 0` it succeeds and yields a
heap of size 0 (`isEmpty()` true) in which every vertex `0..cap-1` has distance `INT_MAX` and
is absent (`isInHeap` false). -/
theorem k_heap.new_fails_iff_arity_below_two (mem : Int → Int) (cap k_value : Int) :
    (k_heap.new mem cap k_value = .error .invalid_argument ↔ k_value < 2) ∧
    ((∃ e, k_heap.new mem cap k_value = .error e) ↔ (k_value < 2 ∨ cap < 0)) ∧
    (2 ≤ k_value → cap < 0 → k_heap.new mem cap k_value = .error .bad_array_new_length) ∧
    (2 ≤ k_value → 0 ≤ cap →
      ∃ h, k_heap.new mem cap k_value = .ok h ∧ h.size = 0 ∧ h.isEmpty = true ∧
        h.capacity = cap ∧ h.k = k_value ∧
        ∀ v, 0 ≤ v → v < cap → h.getDistance v = INT_MAX ∧ h.isInHeap v = false) := by
  have hbad : 2 ≤ k_value → cap < 0 →
      k_heap.new mem cap k_value = .error .bad_array_new_length := by
    intro hk hc
    unfold k_heap.new
    rw [if_neg (by omega), if_pos hc]
  have hok : 2 ≤ k_value → 0 ≤ cap → k_heap.new mem cap k_value =
      .ok ⟨mem, fun _ => -1, fun _ => INT_MAX, cap, 0, k_value⟩ := by
    intro hk hc
    unfold k_heap.new
    rw [if_neg (by omega), if_neg (by omega)]
  have hinv : k_value < 2 → k_heap.new mem cap k_value = .error .invalid_argument := by
    intro hk
    unfold k_heap.new
    rw [if_pos hk]
  refine ⟨⟨?_, hinv⟩, ⟨?_, ?_⟩, hbad, ?_⟩
  · intro h
    by_contra hk
    by_cases hc : cap < 0
    · rw [hbad (by omega) hc] at h
      cases h
    · rw [hok (by omega) (by omega)] at h
      cases h
  · rintro ⟨e, h⟩
    by_contra hcon
    rw [hok (by omega) (by omega)] at h
    cases h
  · rintro (hk | hc)
    · exact ⟨_, hinv hk⟩
    · by_cases hk : k_value < 2
      · exact ⟨_, hinv hk⟩
      · exact ⟨_, hbad (by omega) hc⟩
  · intro hk hc
    refine ⟨_, hok hk hc, rfl, ?_, rfl, rfl, ?_⟩
    · simp [k_heap.isEmpty]
    · intro v _ _
      exact ⟨rfl, by simp [k_heap.isInHeap]⟩

/-- Witness for C11: a binary heap of capacity 3. -/
theorem k_heap.new_fails_iff_arity_below_two_witness :
    ((2 : Int) ≤ 2 ∧ (0 : Int) ≤ 3) ∧
    ∃ h, k_heap.new (fun _ => 0) 3 2 = .ok h ∧ h.size = 0 ∧ h.isEmpty = true ∧
      h.capacity = 3 ∧ h.k = 2 ∧
      ∀ v, 0 ≤ v → v < 3 → h.getDistance v = INT_MAX ∧ h.isInHeap v = false :=
  ⟨⟨by decide, by decide⟩,
    (k_heap.new_fails_iff_arity_below_two (fun _ => 0) 3 2).2.2.2 (by decide) (by decide)⟩

/-! ## The instrumented heap computes what the plain heap computes -/

theorem erase_swap (h : counters.k_heap) (i j : Int) :
    erase_counters (h.swap i j) = (erase_counters h).swap i j := rfl

theorem erase_smallest_child (h : counters.k_heap) (i : Int) :
    h.smallest_child i = (erase_counters h).smallest_child i := rfl

theorem erase_heapify_up_fuel (fuel : Nat) (h : counters.k_heap) (c : OperationCounter)
    (i : Int) :
    erase_counters (counters.k_heap.heapify_up_fuel fuel h c i).1 =
      k_heap.heapify_up_fuel fuel (erase_counters h) i := by
  induction fuel generalizing h c i with
  | zero => rfl
  | succ f ih =>
    unfold counters.k_heap.heapify_up_fuel k_heap.heapify_up_fuel
    by_cases hr : counters.k_heap.root i = true
    · have hr' : k_heap.root i = true := hr
      simp only [hr, hr', if_true]
    · have hr' : ¬ k_heap.root i = true := hr
      simp only [if_neg hr, if_neg hr']
      by_cases hc : h.key (h.parent i) > h.key i
      · have hc' : (erase_counters h).key ((erase_counters h).parent i) >
            (erase_counters h).key i := hc
        simp only [if_pos hc, if_pos hc']
        rw [ih]
        rfl
      · have hc' : ¬ (erase_counters h).key ((erase_counters h).parent i) >
            (erase_counters h).key i := hc
        simp only [if_neg hc, if_neg hc']

theorem erase_heapify_down_fuel (fuel : Nat) (h : counters.k_heap) (c : OperationCounter)
    (i : Int) :
    erase_counters (counters.k_heap.heapify_down_fuel fuel h c i).1 =
      k_heap.heapify_down_fuel fuel (erase_counters h) i := by
  induction fuel generalizing h c i with
  | zero => rfl
  | succ f ih =>
    unfold counters.k_heap.heapify_down_fuel k_heap.heapify_down_fuel
    by_cases hr : h.is_leaf i = true
    · have hr' : (erase_counters h).is_leaf i = true := hr
      simp only [hr, hr', if_true]
    · have hr' : ¬ (erase_counters h).is_leaf i = true := hr
      simp only [if_neg hr, if_neg hr']
      by_cases hc : h.key (h.smallest_child i) < h.key i
      · have hc' : (erase_counters h).key ((erase_counters h).smallest_child i) <
            (erase_counters h).key i := hc
        simp only [if_pos hc, if_pos hc']
        rw [ih]
        rfl
      · have hc' : ¬ (erase_counters h).key ((erase_counters h).smallest_child i) <
            (erase_counters h).key i := hc
        simp only [if_neg hc, if_neg hc']

theorem erase_heapify_up (h : counters.k_heap) (c : OperationCounter) (i : Int) :
    erase_counters (h.heapify_up c i).1 = (erase_counters h).heapify_up i :=
  erase_heapify_up_fuel _ h c i

theorem erase_heapify_down (h : counters.k_heap) (c : OperationCounter) (i : Int) :
    erase_counters (h.heapify_down c i).1 = (erase_counters h).heapify_down i :=
  erase_heapify_down_fuel _ h c i

theorem erase_size_succ (X : counters.k_heap) (Y : k_heap) (op : Operation)
    (e : erase_counters X = Y) :
    erase_counters { X with current_size := X.current_size + 1, current_operation := op } =
      { Y with current_size := Y.current_size + 1 } := by
  subst e
  rfl

theorem erase_insert (h : counters.k_heap) (c : OperationCounter) (vertex : Int) :
    erase_counters (h.insert c vertex).1 = (erase_counters h).insert vertex :=
  erase_size_succ _ _ _ (erase_heapify_up
    { h with current_operation := .INSERT,
             heap_arr := Function.update h.heap_arr h.current_size vertex,
             positions := Function.update h.positions vertex h.current_size }
    { c with insert_calls := c.insert_calls + 1 } h.current_size)

theorem erase_moved_state (h : counters.k_heap) (i : Int) :
    erase_counters (h.moved_state i) = (erase_counters h).moved_state i := rfl

theorem erase_deleteKey (h : counters.k_heap) (c : OperationCounter) (i : Int) :
    erase_outcome (h.deleteKey c i) = (erase_counters h).deleteKey i := by
  unfold counters.k_heap.deleteKey k_heap.deleteKey
  by_cases hi : i ≥ h.current_size
  · have hi' : i ≥ (erase_counters h).current_size := hi
    rw [if_pos hi, if_pos hi']
    rfl
  · have hi' : ¬ i ≥ (erase_counters h).current_size := hi
    rw [if_neg hi, if_neg hi']
    simp only
    by_cases hc : i > 0 ∧ (h.moved_state i).key i < (h.moved_state i).key ((h.moved_state i).parent i)
    · have hc' : i > 0 ∧ ((erase_counters h).moved_state i).key i <
          ((erase_counters h).moved_state i).key (((erase_counters h).moved_state i).parent i) := hc
      rw [if_pos hc, if_pos hc']
      unfold erase_outcome
      simp only
      rw [erase_heapify_up, erase_moved_state]
    · have hc' : ¬ (i > 0 ∧ ((erase_counters h).moved_state i).key i <
          ((erase_counters h).moved_state i).key (((erase_counters h).moved_state i).parent i)) := hc
      rw [if_neg hc, if_neg hc']
      unfold erase_outcome
      simp only
      rw [erase_heapify_down, erase_moved_state]

theorem erase_deleteMin (h : counters.k_heap) (c : OperationCounter) :
    erase_outcome (h.deleteMin c) = (erase_counters h).deleteMin := by
  unfold counters.k_heap.deleteMin k_heap.deleteMin
  simp only
  by_cases hs : h.current_size ≤ 0
  · have hs' : (erase_counters h).current_size ≤ 0 := hs
    rw [if_pos hs, if_pos hs']
    rfl
  · have hs' : ¬ (erase_counters h).current_size ≤ 0 := hs
    rw [if_neg hs, if_neg hs']
    have e := erase_deleteKey { h with current_operation := .DELETE_MIN }
      { c with deleteMin_calls := c.deleteMin_calls + 1 } 0
    have e2 : erase_counters { h with current_operation := .DELETE_MIN } = erase_counters h := rfl
    rw [e2] at e
    rw [← e]
    cases counters.k_heap.deleteKey { h with current_operation := .DELETE_MIN }
      { c with deleteMin_calls := c.deleteMin_calls + 1 } 0 with
    | error x => rfl
    | ok r => rfl

theorem erase_getMin (h : counters.k_heap) (c : OperationCounter) :
    (match h.getMin c with | .error e => Except.error e.1 | .ok v => Except.ok v) =
      (erase_counters h).getMin := by
  unfold counters.k_heap.getMin k_heap.getMin
  by_cases hs : h.current_size ≤ 0
  · have hs' : (erase_counters h).current_size ≤ 0 := hs
    rw [if_pos hs, if_pos hs']
  · have hs' : ¬ (erase_counters h).current_size ≤ 0 := hs
    rw [if_neg hs, if_neg hs']
    rfl

theorem erase_update (h : counters.k_heap) (c : OperationCounter) (vertex new_value : Int) :
    erase_counters (h.update c vertex new_value).1 = (erase_counters h).update vertex new_value := by
  unfold counters.k_heap.update k_heap.update
  simp only
  by_cases hp : h.positions vertex = -1
  · have hp' : (erase_counters h).positions vertex = -1 := hp
    rw [if_pos hp, if_pos hp']
    exact erase_insert _ _ _
  · have hp' : ¬ (erase_counters h).positions vertex = -1 := hp
    rw [if_neg hp, if_neg hp']
    by_cases h1 : new_value < h.dist vertex
    · have h1' : new_value < (erase_counters h).dist vertex := h1
      rw [if_pos h1, if_pos h1']
      exact erase_heapify_up _ _ _
    · have h1' : ¬ new_value < (erase_counters h).dist vertex := h1
      rw [if_neg h1, if_neg h1']
      by_cases h2 : new_value > h.dist vertex
      · have h2' : new_value > (erase_counters h).dist vertex := h2
        rw [if_pos h2, if_pos h2']
        exact erase_heapify_down _ _ _
      · have h2' : ¬ new_value > (erase_counters h).dist vertex := h2
        rw [if_neg h2, if_neg h2']
        rfl

theorem erase_relax (v : Int) (s : counters.dijkstra_state) (edge : Int × Int) :
    erase_state (counters.relax v s edge) = relax v (erase_state s) edge := by
  unfold counters.relax relax
  simp only
  by_cases hv : (!s.visited edge.1) = true
  · have hv' : (!(erase_state s).visited edge.1) = true := hv
    rw [if_pos hv, if_pos hv']
    by_cases hd : s.Q.getDistance edge.1 = INT_MAX
    · have hd' : (erase_state s).Q.getDistance edge.1 = INT_MAX := hd
      rw [if_pos hd, if_pos hd']
      unfold erase_state
      simp only
      rw [erase_insert]
      rfl
    · have hd' : ¬ (erase_state s).Q.getDistance edge.1 = INT_MAX := hd
      rw [if_neg hd, if_neg hd']
      by_cases hc : int_add (s.Q.getDistance v) edge.2 < s.Q.getDistance edge.1
      · have hc' : int_add ((erase_state s).Q.getDistance v) edge.2 <
            (erase_state s).Q.getDistance edge.1 := hc
        rw [if_pos hc, if_pos hc']
        unfold erase_state
        simp only
        rw [erase_update]
        rfl
      · have hc' : ¬ int_add ((erase_state s).Q.getDistance v) edge.2 <
            (erase_state s).Q.getDistance edge.1 := hc
        rw [if_neg hc, if_neg hc']
  · have hv' : ¬ (!(erase_state s).visited edge.1) = true := hv
    rw [if_neg hv, if_neg hv']

theorem erase_relax_fold (v : Int) (es : List (Int × Int)) (s : counters.dijkstra_state) :
    erase_state (es.foldl (counters.relax v) s) = es.foldl (relax v) (erase_state s) := by
  induction es generalizing s with
  | nil => rfl
  | cons e es ih => rw [List.foldl_cons, List.foldl_cons, ih, erase_relax]

theorem erase_dijkstra_loop (g : graph) (dest : Int) (fuel : Nat) (s : counters.dijkstra_state) :
    erase_run (counters.dijkstra_loop g dest fuel s) = dijkstra_loop g dest fuel (erase_state s) := by
  induction fuel generalizing s with
  | zero => rfl
  | succ f ih =>
    unfold counters.dijkstra_loop dijkstra_loop
    by_cases he : (!s.Q.isEmpty) = true
    · have he' : (!(erase_state s).Q.isEmpty) = true := he
      rw [if_pos he, if_pos he']
      have eg := erase_getMin s.Q s.counter
      have ed := erase_deleteMin s.Q s.counter
      have eg' : (erase_state s).Q.getMin = (erase_counters s.Q).getMin := rfl
      have ed' : (erase_state s).Q.deleteMin = (erase_counters s.Q).deleteMin := rfl
      rw [eg', ed', ← eg, ← ed]
      cases hg : s.Q.getMin s.counter with
      | error e => rfl
      | ok v =>
        cases hd : s.Q.deleteMin s.counter with
        | error e => rfl
        | ok r =>
          simp only [erase_outcome]
          by_cases hv : v = dest
          · rw [if_pos hv, if_pos hv]
            rfl
          · rw [if_neg hv, if_neg hv, ih, erase_relax_fold]
            rfl
    · have he' : ¬ (!(erase_state s).Q.isEmpty) = true := he
      rw [if_neg he, if_neg he']
      rfl

theorem erase_init_fold (l : List Nat) (Q : counters.k_heap) :
    erase_counters (l.foldl
      (fun (Q : counters.k_heap) (j : Nat) => Q.setDistance ((j : Int) + 1) INT_MAX) Q) =
    l.foldl (fun (Q : k_heap) (j : Nat) => Q.setDistance ((j : Int) + 1) INT_MAX)
      (erase_counters Q) := by
  induction l generalizing Q with
  | nil => rfl
  | cons a l ih =>
    rw [List.foldl_cons, List.foldl_cons, ih]
    rfl

theorem erase_dijkstra_init (mem : Int → Int) (g : graph) (src k_value : Int)
    (c : OperationCounter) :
    (match counters.dijkstra_init mem g src k_value c with
      | .error e => Except.error e.1
      | .ok s => Except.ok (erase_state s)) = dijkstra_init mem g src k_value := by
  unfold counters.dijkstra_init dijkstra_init counters.k_heap.new k_heap.new
  by_cases hk : k_value < 2
  · simp only [if_pos hk]
  · have hc : ¬ ((g.length : Int) - 1 + 1 < 0) := by omega
    simp only [if_neg hk, if_neg hc]
    unfold erase_state
    simp only
    rw [erase_insert]
    have e := erase_init_fold (List.range ((g.length : Int) - 1).toNat)
      { heap_arr := mem, positions := fun _ => -1, dist := fun _ => INT_MAX,
        capacity := (g.length : Int) - 1 + 1, current_size := 0, k := k_value,
        current_operation := .NONE }
    have e2 : ∀ (Q : counters.k_heap) (v d : Int),
        erase_counters (Q.setDistance v d) = (erase_counters Q).setDistance v d := fun _ _ _ => rfl
    rw [e2, e]
    rfl

theorem erase_dijkstra_run (fuel : Nat) (mem : Int → Int) (g : graph) (src dest k_value : Int)
    (c : OperationCounter) :
    erase_run (counters.dijkstra_run fuel mem g src dest k_value c) =
      dijkstra_run fuel mem g src dest k_value := by
  unfold counters.dijkstra_run dijkstra_run
  rw [← erase_dijkstra_init mem g src k_value c]
  cases counters.dijkstra_init mem g src k_value c with
  | error e => rfl
  | ok s => exact erase_dijkstra_loop g dest fuel s

theorem erase_dijkstra (fuel : Nat) (mem : Int → Int) (g : graph) (src dest k_value : Int)
    (c : OperationCounter) :
    counters.dijkstra fuel mem g src dest k_value c = dijkstra fuel mem g src dest k_value := by
  unfold counters.dijkstra dijkstra
  rw [← erase_dijkstra_run fuel mem g src dest k_value c]
  cases counters.dijkstra_run fuel mem g src dest k_value c with
  | none => rfl
  | some r =>
    cases r with
    | error e => rfl
    | ok r => rfl

/-! ## The recursion counters of the instrumented heap are never exhausted -/

theorem counters_heapify_up_fuel_root (f : Nat) (h : counters.k_heap) (c : OperationCounter) :
    counters.k_heap.heapify_up_fuel f h c 0 = (h, h.heapify_up_count c) := by
  cases f <;> simp [counters.k_heap.heapify_up_fuel, counters.k_heap.root]

theorem counters_heapify_up_fuel_stable (f1 f2 : Nat) (h : counters.k_heap)
    (c : OperationCounter) (i : Int) (hk : 1 ≤ h.k) (hi : 0 ≤ i) (h1 : i ≤ f1) (h2 : i ≤ f2) :
    counters.k_heap.heapify_up_fuel f1 h c i = counters.k_heap.heapify_up_fuel f2 h c i := by
  induction f1 generalizing f2 h c i with
  | zero =>
    have : i = 0 := by simp at h1; omega
    subst this
    rw [counters_heapify_up_fuel_root, counters_heapify_up_fuel_root]
  | succ f1 ih =>
    cases f2 with
    | zero =>
      have : i = 0 := by simp at h2; omega
      subst this
      rw [counters_heapify_up_fuel_root, counters_heapify_up_fuel_root]
    | succ f2 =>
      conv_lhs => unfold counters.k_heap.heapify_up_fuel
      conv_rhs => unfold counters.k_heap.heapify_up_fuel
      by_cases hr : counters.k_heap.root i = true
      · simp [hr]
      · simp only [if_neg hr]
        have hi0 : 0 < i := by
          simp [counters.k_heap.root] at hr; omega
        have hpl : h.parent i < i := k_heap.parent_lt (erase_counters h) hk hi0
        have hp0 : 0 ≤ h.parent i := k_heap.parent_nonneg (erase_counters h) hk hi0
        split_ifs
        · exact ih f2 (h.swap i (h.parent i)) _ (h.parent i) hk hp0
            (by push_cast at h1; omega) (by push_cast at h2; omega)
        · rfl

/-- The recursive equation of the instrumented `k_heap::heapify_up`: count the call, then
proceed as the plain method does. -/
theorem counters_heapify_up_unfold (h : counters.k_heap) (c : OperationCounter) (i : Int)
    (hk : 1 ≤ h.k) (hi : 0 ≤ i) :
    h.heapify_up c i =
      if counters.k_heap.root i then (h, h.heapify_up_count c)
      else if h.key (h.parent i) > h.key i then
        (h.swap i (h.parent i)).heapify_up (h.heapify_up_count c) (h.parent i)
      else (h, h.heapify_up_count c) := by
  unfold counters.k_heap.heapify_up
  by_cases hr : counters.k_heap.root i = true
  · cases hf : i.toNat <;> simp [counters.k_heap.heapify_up_fuel, hr]
  · have hi0 : 0 < i := by
      simp [counters.k_heap.root] at hr; omega
    have hpl : h.parent i < i := k_heap.parent_lt (erase_counters h) hk hi0
    have hp0 : 0 ≤ h.parent i := k_heap.parent_nonneg (erase_counters h) hk hi0
    obtain ⟨f, hf⟩ : ∃ f, i.toNat = f + 1 := ⟨i.toNat - 1, by omega⟩
    rw [hf]
    conv_lhs => unfold counters.k_heap.heapify_up_fuel
    simp only [if_neg hr]
    split_ifs
    · exact counters_heapify_up_fuel_stable _ _ _ _ _ hk hp0 (by omega) (by omega)
    · rfl

theorem counters_heapify_down_fuel_stable (f1 f2 : Nat) (h : counters.k_heap)
    (c : OperationCounter) (i : Int) (hk : 1 ≤ h.k) (hi : 0 ≤ i)
    (hfi : h.k * i < INT_MAX) (hfN : h.k * (h.current_size - 1) < INT_MAX)
    (h1 : h.current_size - i ≤ f1) (h2 : h.current_size - i ≤ f2) :
    counters.k_heap.heapify_down_fuel f1 h c i = counters.k_heap.heapify_down_fuel f2 h c i := by
  have leaf_of : ∀ (f : Nat), h.current_size - i ≤ 0 →
      counters.k_heap.heapify_down_fuel f h c i = (h, h.heapify_down_count c) := by
    intro f hle
    cases f with
    | zero => rfl
    | succ f =>
      unfold counters.k_heap.heapify_down_fuel
      have : h.is_leaf i = true := by
        have := (k_heap.is_leaf_iff (erase_counters h) hk hi hfi).2 (by
          show h.current_size ≤ h.k * i + 1
          nlinarith)
        exact this
      simp [this]
  induction f1 generalizing f2 h c i with
  | zero => rw [leaf_of 0 (by simpa using h1), leaf_of f2 (by simpa using h1)]
  | succ f1 ih =>
    cases f2 with
    | zero => rw [leaf_of _ (by simpa using h2), leaf_of 0 (by simpa using h2)]
    | succ f2 =>
      conv_lhs => unfold counters.k_heap.heapify_down_fuel
      conv_rhs => unfold counters.k_heap.heapify_down_fuel
      by_cases hl : h.is_leaf i = true
      · simp [hl]
      · simp only [if_neg hl]
        have hne : (erase_counters h).child i 0 < (erase_counters h).current_size := by
          simp [counters.k_heap.is_leaf] at hl; exact hl
        obtain ⟨s1, s2, -⟩ :=
          k_heap.smallest_child_range (erase_counters h) i hk hi hfi hfN hne
        have s1' : i < h.smallest_child i := s1
        have s2' : h.smallest_child i < h.current_size := s2
        have hfs : h.k * h.smallest_child i < INT_MAX :=
          k_heap.slot_fits (erase_counters h) hk (show h.smallest_child i ≤ h.current_size - 1 by
            omega) hfN
        split_ifs
        · apply ih f2 (h.swap i (h.smallest_child i)) _ (h.smallest_child i) hk (by omega)
            hfs hfN
          · show h.current_size - _ ≤ _
            push_cast at h1; omega
          · show h.current_size - _ ≤ _
            push_cast at h2; omega
          · intro f hle
            have : h.current_size - h.smallest_child i ≤ 0 := hle
            omega
        · rfl

/-- The recursive equation of the instrumented `k_heap::heapify_down`. -/
theorem counters_heapify_down_unfold (h : counters.k_heap) (c : OperationCounter) (i : Int)
    (hk : 1 ≤ h.k) (hi : 0 ≤ i) (hfi : h.k * i < INT_MAX)
    (hfN : h.k * (h.current_size - 1) < INT_MAX) :
    h.heapify_down c i =
      if h.is_leaf i then (h, h.heapify_down_count c)
      else if h.key (h.smallest_child i) < h.key i then
        (h.swap i (h.smallest_child i)).heapify_down (h.heapify_down_count c)
          (h.smallest_child i)
      else (h, h.heapify_down_count c) := by
  unfold counters.k_heap.heapify_down
  by_cases hl : h.is_leaf i = true
  · cases hf : (h.current_size - i).toNat <;> simp [counters.k_heap.heapify_down_fuel, hl]
  · have hne : (erase_counters h).child i 0 < (erase_counters h).current_size := by
      simp [counters.k_heap.is_leaf] at hl; exact hl
    obtain ⟨s1, s2, -⟩ :=
      k_heap.smallest_child_range (erase_counters h) i hk hi hfi hfN hne
    have s1' : i < h.smallest_child i := s1
    have s2' : h.smallest_child i < h.current_size := s2
    have hfs : h.k * h.smallest_child i < INT_MAX :=
      k_heap.slot_fits (erase_counters h) hk (show h.smallest_child i ≤ h.current_size - 1 by
        omega) hfN
    obtain ⟨f, hf⟩ : ∃ f, (h.current_size - i).toNat = f + 1 :=
      ⟨(h.current_size - i).toNat - 1, by omega⟩
    rw [hf]
    conv_lhs => unfold counters.k_heap.heapify_down_fuel
    simp only [if_neg hl]
    split_ifs
    · apply counters_heapify_down_fuel_stable f _ (h.swap i (h.smallest_child i)) _
        (h.smallest_child i) hk (by omega) hfs hfN
      · show h.current_size - _ ≤ _
        omega
      · show h.current_size - h.smallest_child i ≤
          ((h.current_size - h.smallest_child i).toNat : Int)
        omega
    · rfl

/-! ## The failure paths of `getMin`, `deleteMin` and `deleteKey` -/

/-- The plain `getMin` and `deleteMin` throw the empty-heap error exactly when
`current_size ≤ 0` (for a size that is not negative: exactly when it is 0), and `deleteMin` on a
non-empty heap is `deleteKey(0)`; the instrumented `getMin` throws with the object and the
counter untouched, and the instrumented `deleteMin` on a non-empty heap leaves the plain state
that the plain `deleteKey(0)` leaves. -/
theorem empty_heap_errors (h : k_heap) (hc : counters.k_heap) (c : OperationCounter) :
    ((∃ e, h.getMin = .error e) ↔ h.current_size ≤ 0) ∧
    ((∃ e, h.deleteMin = .error e) ↔ h.current_size ≤ 0) ∧
    (h.current_size ≤ 0 → h.getMin = .error .runtime_error ∧ h.deleteMin = .error .runtime_error) ∧
    (0 < h.current_size → h.deleteMin = h.deleteKey 0 ∧ ∃ h', h.deleteMin = .ok h') ∧
    (hc.current_size ≤ 0 → hc.getMin c = .error (.runtime_error, hc, c)) ∧
    (0 < hc.current_size → erase_outcome (hc.deleteMin c) = (erase_counters hc).deleteKey 0) := by
  refine ⟨?_, ?_, ?_, ?_, ?_, ?_⟩
  · unfold k_heap.getMin
    constructor
    · rintro ⟨e, he⟩
      by_contra hn
      rw [if_neg hn] at he
      cases he
    · intro hs
      exact ⟨_, if_pos hs⟩
  · unfold k_heap.deleteMin k_heap.deleteKey
    constructor
    · rintro ⟨e, he⟩
      by_contra hn
      rw [if_neg hn, if_neg (by omega)] at he
      simp only at he
      split_ifs at he
    · intro hs
      exact ⟨_, if_pos hs⟩
  · intro hs
    exact ⟨if_pos hs, if_pos hs⟩
  · intro hs
    have e : h.deleteMin = h.deleteKey 0 := by
      unfold k_heap.deleteMin
      rw [if_neg (by omega)]
    refine ⟨e, ?_⟩
    rw [e]
    unfold k_heap.deleteKey
    rw [if_neg (by omega)]
    simp only
    split_ifs
    · exact ⟨_, rfl⟩
    · exact ⟨_, rfl⟩
  · intro hs
    unfold counters.k_heap.getMin
    rw [if_pos hs]
  · intro hs
    rw [erase_deleteMin]
    unfold k_heap.deleteMin
    have : ¬ (erase_counters hc).current_size ≤ 0 := by
      show ¬ hc.current_size ≤ 0
      omega
    rw [if_neg this]

/-- C12 (the instrumented `deleteMin` breaks it): on an empty instrumented heap `deleteMin`
throws the empty-heap error only after it has counted the call and overwritten
`current_operation`, and the throw skips the statement that restores the field; the heap object
left behind differs from the one before the call in `current_operation`. -/
theorem counters_deleteMin_failure_mutates (h : counters.k_heap) (c : OperationCounter)
    (hs : h.current_size ≤ 0) :
    h.deleteMin c = .error (.runtime_error, { h with current_operation := .DELETE_MIN },
      { c with deleteMin_calls := c.deleteMin_calls + 1 }) ∧
    (h.current_operation ≠ .DELETE_MIN →
      ({ h with current_operation := .DELETE_MIN } : counters.k_heap) ≠ h) := by
  constructor
  · unfold counters.k_heap.deleteMin
    simp only
    rw [if_pos hs]
  · intro hne he
    apply hne
    rw [← he]

/-- Witness for C12: the heap `k_heap Q(3, 2)` right after its construction; the failing
`Q.deleteMin()` leaves `current_operation == DELETE_MIN` where it was `NONE`, and
`counter.deleteMin_calls == 1`. -/
theorem counters_deleteMin_failure_mutates_witness :
    ∃ h c, counters.k_heap.new (fun _ => 0) 3 2 counters.counter = .ok (h, c) ∧
      h.current_size ≤ 0 ∧ h.current_operation = .NONE ∧
      ∃ h' c', h.deleteMin c = .error (.runtime_error, h', c') ∧
        h'.current_operation = .DELETE_MIN ∧ h' ≠ h ∧ c'.deleteMin_calls = 1 :=
  ⟨_, _, rfl, by decide, rfl, _, _,
    (counters_deleteMin_failure_mutates _ _ (by decide)).1, rfl,
    (counters_deleteMin_failure_mutates _ counters.counter (by decide)).2 (by decide), rfl⟩

namespace k_heap

/-- The effect of `deleteKey i` on an index-consistent heap whose order may be broken: as long
as the key of the last slot is not below its parent's key when it is the last slot that is
deleted, the vertex of slot `i`, and no other, leaves the heap. -/
theorem deleteKey_consistent (h : k_heap) (i : Int) (hk : 1 ≤ h.k) (hcons : h.index_consistent)
    (hi : 0 ≤ i ∧ i < h.current_size) (hfit : h.k * (h.current_size - 1) < INT_MAX)
    (hlast : i = h.current_size - 1 → 0 < i → h.key (h.parent i) ≤ h.key i) :
    ∃ h', h.deleteKey i = .ok h' ∧ h'.index_consistent ∧ h'.dist = h.dist ∧
      h'.capacity = h.capacity ∧ h'.k = h.k ∧ h'.current_size = h.current_size - 1 ∧
      ∀ u, 0 ≤ u → u < h.capacity →
        (h'.positions u ≠ -1 ↔ (u ≠ h.heap_arr i ∧ h.positions u ≠ -1)) := by
  have hm : (h.moved_state i).slots_consistent (h.current_size - 1) ∧
      (∀ u, 0 ≤ u → u < h.capacity →
        ((h.moved_state i).positions u ≠ -1 ↔ (u ≠ h.heap_arr i ∧ h.positions u ≠ -1))) ∧
      (∀ x, (h.moved_state i).key x = if x = i then h.key (h.current_size - 1) else h.key x) :=
    deleteKey_moved h i hcons hi
  obtain ⟨hc1, hmem, hkey⟩ := hm
  have hk1 : 1 ≤ (h.moved_state i).k := hk
  have hsz : (h.moved_state i).current_size = h.current_size - 1 := rfl
  have hfN : (h.moved_state i).k * ((h.moved_state i).current_size - 1) < INT_MAX := by
    show h.k * (h.current_size - 1 - 1) < INT_MAX
    nlinarith
  have e : h.deleteKey i =
      if i > 0 ∧ (h.moved_state i).key i < (h.moved_state i).key ((h.moved_state i).parent i)
      then .ok ((h.moved_state i).heapify_up i) else .ok ((h.moved_state i).heapify_down i) := by
    unfold deleteKey
    rw [if_neg (by omega)]
  rw [e]
  by_cases hc : i > 0 ∧
      (h.moved_state i).key i < (h.moved_state i).key ((h.moved_state i).parent i)
  · rw [if_pos hc]
    obtain ⟨hi0, hlt⟩ := hc
    have hpl := parent_lt h hk hi0
    have hpar : (h.moved_state i).parent i = h.parent i := rfl
    rw [hpar, hkey, hkey, if_pos rfl, if_neg (by omega)] at hlt
    have hiN : i < h.current_size - 1 := by
      by_contra hcon
      have hil : i = h.current_size - 1 := by omega
      have b := hlast hil hi0
      rw [← hil] at hlt
      omega
    have hup := heapify_up_fuel_consistent i.toNat (h.moved_state i) hk1 hc1 ⟨hi.1, hiN⟩
    refine ⟨_, rfl, ?_, by rw [heapify_up_dist]; rfl, by rw [heapify_up_capacity]; rfl,
      by rw [heapify_up_k]; rfl, by rw [heapify_up_current_size]; rfl, ?_⟩
    · show ((h.moved_state i).heapify_up i).slots_consistent
        ((h.moved_state i).heapify_up i).current_size
      rw [heapify_up_current_size]
      exact hup.1
    · intro u hu0 huc
      rw [← hmem u hu0 huc]
      exact hup.2 u hu0 huc
  · rw [if_neg hc]
    by_cases hiN : i < h.current_size - 1
    · have hdn := heapify_down_fuel_consistent ((h.moved_state i).current_size - i).toNat
        (h.moved_state i) hk1 hfN hc1 ⟨hi.1, hiN⟩
      refine ⟨_, rfl, ?_, by rw [heapify_down_dist]; rfl, by rw [heapify_down_capacity]; rfl,
        by rw [heapify_down_k]; rfl, by rw [heapify_down_current_size]; rfl, ?_⟩
      · show ((h.moved_state i).heapify_down i).slots_consistent
          ((h.moved_state i).heapify_down i).current_size
        rw [heapify_down_current_size]
        exact hdn.1
      · intro u hu0 huc
        rw [← hmem u hu0 huc]
        exact hdn.2 u hu0 huc
    · have hf : ((h.moved_state i).current_size - i).toNat = 0 := by
        rw [hsz]
        omega
      have hd : (h.moved_state i).heapify_down i = h.moved_state i := by
        unfold heapify_down
        rw [hf]
        rfl
      rw [hd]
      exact ⟨_, rfl, hc1, rfl, rfl, rfl, rfl, hmem⟩

end k_heap

/-- C17 fails for a heap that is index-consistent only: in the two-element heap left by
`setDistance(1,5); insert(1); setDistance(2,7); insert(2); setDistance(2,3)` slot 1 holds
vertex 2 with a key below its parent's key; `deleteKey(1)` decrements the size, then runs
`heapify_up(1)` on the vacated slot, which swaps vertex 2 back into slot 0: afterwards
`isInHeap(2)` is true, the one occupied slot holds the vertex that was to be removed, and
vertex 1 has left the occupied slots.  It also fails for an index-consistent heap whose
child indices do not fit into an `int`: on `wide_sample` (arity `INT_MAX`) `deleteKey(0)`
runs `heapify_down` at slot 1, where `child(1, 0)` has wrapped around to `-2147483648`, and
evaluates `key` outside `heap_arr`. -/
theorem k_heap.deleteKey_removes_vertex_counterexample :
    (k_heap.unordered_sample.index_consistent ∧ k_heap.unordered_sample.current_size = 2 ∧
      k_heap.unordered_sample.k = 2 ∧ k_heap.unordered_sample.heap_arr 1 = 2 ∧
      ∃ h', k_heap.unordered_sample.deleteKey 1 = .ok h' ∧ h'.current_size = 1 ∧
        h'.isInHeap 2 = true ∧ h'.heap_arr 0 = 2 ∧ h'.positions 1 = 1) ∧
    (k_heap.wide_sample.index_consistent ∧ (0 : Int) < k_heap.wide_sample.current_size ∧
      (k_heap.wide_sample.moved_state 0).child 1 0 = -2147483648 ∧
      ¬ k_heap.wide_sample.deleteKey_in_bounds 0) := by
  have e : k_heap.unordered_sample.deleteKey 1 =
      .ok ((k_heap.unordered_sample.moved_state 1).heapify_up 1) := by
    unfold k_heap.deleteKey
    rw [if_neg (by decide!)]
    simp only
    rw [if_pos (by decide!)]
  exact ⟨⟨by decide!, by decide!, by decide!, by decide!, _, e, by decide!, by decide!,
    by decide!, by decide!⟩, by decide, by decide, by decide,
    k_heap.deleteKey_root_out_of_bounds k_heap.wide_sample rfl rfl (by decide)⟩

/-- C17, amended: for every index-consistent heap state with `k ≥ 2` whose index arithmetic
fits into an `int` (`k * (current_size - 1) < INT_MAX`) and every `0 ≤ i < current_size` such
that, when `i` is the last occupied slot and not the root, the key of slot `i` is not below
its parent's key (as in every heap with the min-heap property), with `r = heap_arr[i]` before
the call: `deleteKey(i)` stays within the bounds of the arrays and succeeds, the size is one
less, `isInHeap(r)` is false, `isInHeap(u)` is unchanged for every other vertex `u` of
`0..capacity-1`, the occupied slots hold exactly the vertices held before minus `r`, no stored
distance is changed, and the heap is index-consistent again. -/
theorem k_heap.deleteKey_removes_exactly_one_vertex (h : k_heap) (i : Int) (hk : 2 ≤ h.k)
    (hcons : h.index_consistent) (hi0 : 0 ≤ i) (hi : i < h.current_size)
    (hfit : h.k * (h.current_size - 1) < INT_MAX)
    (hlast : i = h.current_size - 1 → 0 < i → h.key (h.parent i) ≤ h.key i) :
    h.deleteKey_in_bounds i ∧
    ∃ h', h.deleteKey i = .ok h' ∧ h'.size = h.size - 1 ∧
      h'.isInHeap (h.heap_arr i) = false ∧
      (∀ u, 0 ≤ u → u < h.capacity → u ≠ h.heap_arr i → h'.isInHeap u = h.isInHeap u) ∧
      (∀ u, (∃ j, 0 ≤ j ∧ j < h'.current_size ∧ h'.heap_arr j = u) ↔
        (u ≠ h.heap_arr i ∧ ∃ j, 0 ≤ j ∧ j < h.current_size ∧ h.heap_arr j = u)) ∧
      (∀ u, h'.getDistance u = h.getDistance u) ∧ h'.index_consistent := by
  obtain ⟨h', e, hc', hd, hcap, -, hsz, hmem⟩ :=
    k_heap.deleteKey_consistent h i (by omega) hcons ⟨hi0, hi⟩ hfit hlast
  have hr := hcons.1 i hi0 hi
  refine ⟨k_heap.deleteKey_in_bounds_of_slots h i (by omega)
    (k_heap.slots_in_bounds_of_consistent h hcons) (k_heap.size_le_capacity h hcons (by omega))
    ⟨hi0, hi⟩ hfit, h', e, hsz, ?_, ?_, ?_, fun u => by unfold k_heap.getDistance; rw [hd], hc'⟩
  · rw [k_heap.isInHeap_false_iff]
    by_contra hcon
    exact ((hmem _ hr.1.1 hr.1.2).1 hcon).1 rfl
  · intro u hu0 huc hne
    rw [k_heap.isInHeap_eq_iff, hmem u hu0 huc]
    exact ⟨fun a => a.2, fun a => ⟨hne, a⟩⟩
  · intro u
    constructor
    · rintro ⟨j, hj0, hjs, hju⟩
      have a := hc'.1 j hj0 hjs
      rw [hju, hcap] at a
      have hp : h'.positions u ≠ -1 := by omega
      have b := (hmem u a.1.1 a.1.2).1 hp
      have c := hcons.2 u a.1.1 a.1.2 b.2
      exact ⟨b.1, _, c.1.1, c.1.2, c.2⟩
    · rintro ⟨hne, j, hj0, hjs, hju⟩
      have a := hcons.1 j hj0 hjs
      rw [hju] at a
      have hp : h.positions u ≠ -1 := by omega
      have b := (hmem u a.1.1 a.1.2).2 ⟨hne, hp⟩
      have c := hc'.2 u a.1.1 (by rw [hcap]; exact a.1.2) b
      exact ⟨_, c.1.1, c.1.2, c.2⟩

/-- Witness for C17: the last slot of the three-element sample heap. -/
theorem k_heap.deleteKey_removes_exactly_one_vertex_witness :
    ((2 : Int) ≤ k_heap.sample.k ∧ k_heap.sample.index_consistent ∧ (0 : Int) ≤ 2 ∧
      (2 : Int) < k_heap.sample.current_size ∧
      k_heap.sample.k * (k_heap.sample.current_size - 1) < INT_MAX ∧
      ((2 : Int) = k_heap.sample.current_size - 1 → (0 : Int) < 2 →
        k_heap.sample.key (k_heap.sample.parent 2) ≤ k_heap.sample.key 2)) ∧
    k_heap.sample.deleteKey_in_bounds 2 ∧
    ∃ h', k_heap.sample.deleteKey 2 = .ok h' ∧ h'.size = k_heap.sample.size - 1 ∧
      h'.isInHeap (k_heap.sample.heap_arr 2) = false ∧
      (∀ u, 0 ≤ u → u < k_heap.sample.capacity → u ≠ k_heap.sample.heap_arr 2 →
        h'.isInHeap u = k_heap.sample.isInHeap u) ∧
      (∀ u, (∃ j, 0 ≤ j ∧ j < h'.current_size ∧ h'.heap_arr j = u) ↔
        (u ≠ k_heap.sample.heap_arr 2 ∧
          ∃ j, 0 ≤ j ∧ j < k_heap.sample.current_size ∧ k_heap.sample.heap_arr j = u)) ∧
      (∀ u, h'.getDistance u = k_heap.sample.getDistance u) ∧ h'.index_consistent :=
  ⟨⟨by decide, by decide!, by decide, by decide, by decide, fun _ _ => by decide!⟩,
    k_heap.deleteKey_removes_exactly_one_vertex k_heap.sample 2 (by decide) (by decide!)
      (by decide) (by decide) (by decide) (fun _ _ => by decide!)⟩

/-! ## The instrumentation is pure observability -/

/-- C18: for every graph, `src`, `dest`, `k_value` (and every iteration budget and initial
counter) the instrumented `dijkstra` returns what the plain `dijkstra` returns, and the plain
part of its final state is the final state of the plain run; after each of `insert`, `update`,
`deleteKey`, `deleteMin` (and after each edge relaxation of the driver) the slots, positions,
distances and size of the instrumented heap are those of the plain heap after the same
operation, with the same exception if one is thrown; and these results do not depend on the
counter or on `current_operation`, which the algorithm only writes. -/
theorem instrumented_dijkstra_equals_plain (fuel : Nat) (mem : Int → Int) (g : graph)
    (src dest k_value : Int) (c : OperationCounter) :
    counters.dijkstra fuel mem g src dest k_value c = dijkstra fuel mem g src dest k_value ∧
    erase_run (counters.dijkstra_run fuel mem g src dest k_value c) =
      dijkstra_run fuel mem g src dest k_value ∧
    (∀ (h : counters.k_heap) (c1 : OperationCounter) (v d i : Int),
      erase_counters (h.insert c1 v).1 = (erase_counters h).insert v ∧
      erase_counters (h.update c1 v d).1 = (erase_counters h).update v d ∧
      erase_outcome (h.deleteKey c1 i) = (erase_counters h).deleteKey i ∧
      erase_outcome (h.deleteMin c1) = (erase_counters h).deleteMin ∧
      erase_counters (h.setDistance v d) = (erase_counters h).setDistance v d ∧
      h.getDistance v = (erase_counters h).getDistance v ∧
      h.isEmpty = (erase_counters h).isEmpty) ∧
    (∀ (s : counters.dijkstra_state) (v : Int) (e : Int × Int),
      erase_state (counters.relax v s e) = relax v (erase_state s) e) ∧
    (∀ (h : counters.k_heap) (c1 c2 : OperationCounter) (op1 op2 : Operation) (v d i : Int),
      erase_counters (({ h with current_operation := op1 } : counters.k_heap).insert c1 v).1 =
        erase_counters (({ h with current_operation := op2 } : counters.k_heap).insert c2 v).1 ∧
      erase_counters (({ h with current_operation := op1 } : counters.k_heap).update c1 v d).1 =
        erase_counters
          (({ h with current_operation := op2 } : counters.k_heap).update c2 v d).1 ∧
      erase_outcome (({ h with current_operation := op1 } : counters.k_heap).deleteKey c1 i) =
        erase_outcome (({ h with current_operation := op2 } : counters.k_heap).deleteKey c2 i) ∧
      erase_outcome (({ h with current_operation := op1 } : counters.k_heap).deleteMin c1) =
        erase_outcome (({ h with current_operation := op2 } : counters.k_heap).deleteMin c2)) ∧
    (∀ c2 : OperationCounter,
      erase_run (counters.dijkstra_run fuel mem g src dest k_value c2) =
        erase_run (counters.dijkstra_run fuel mem g src dest k_value c)) := by
  refine ⟨erase_dijkstra fuel mem g src dest k_value c,
    erase_dijkstra_run fuel mem g src dest k_value c, ?_, fun s v e => erase_relax v s e, ?_, ?_⟩
  · intro h c1 v d i
    exact ⟨erase_insert h c1 v, erase_update h c1 v d, erase_deleteKey h c1 i,
      erase_deleteMin h c1, rfl, rfl, rfl⟩
  · intro h c1 c2 op1 op2 v d i
    refine ⟨?_, ?_, ?_, ?_⟩
    · rw [erase_insert, erase_insert]
      rfl
    · rw [erase_update, erase_update]
      rfl
    · rw [erase_deleteKey, erase_deleteKey]
      rfl
    · rw [erase_deleteMin, erase_deleteMin]
      rfl
  · intro c2
    rw [erase_dijkstra_run, erase_dijkstra_run]

/-! ## The heap calls of the driver -/

theorem int_add_le_max (a b : Int) : int_add a b ≤ INT_MAX := by
  unfold int_add INT_MAX
  omega

theorem relax_event_insert {v : Int} {s : dijkstra_state} {e : Int × Int} {u d : Int}
    (h : relax_event v s e = some (.insert u d)) :
    u = e.1 ∧ s.visited u = false ∧ s.Q.dist u = INT_MAX ∧ d = int_add (s.Q.dist v) e.2 := by
  unfold relax_event at h
  simp only [k_heap.getDistance] at h
  split_ifs at h with h1 h2 h3
  · cases h
    exact ⟨rfl, by simpa using h1, h2, rfl⟩
  · cases h

theorem relax_event_update {v : Int} {s : dijkstra_state} {e : Int × Int} {u d : Int}
    (h : relax_event v s e = some (.update u d)) :
    u = e.1 ∧ s.visited u = false ∧ s.Q.dist u ≠ INT_MAX ∧ d < s.Q.dist u ∧
      d = int_add (s.Q.dist v) e.2 := by
  unfold relax_event at h
  simp only [k_heap.getDistance] at h
  split_ifs at h with h1 h2 h3
  · cases h
  · cases h
    exact ⟨rfl, by simpa using h1, h2, h3, rfl⟩

theorem relax_event_extract {v : Int} {s : dijkstra_state} {e : Int × Int} {x : Int} :
    relax_event v s e ≠ some (.extract x) := by
  unfold relax_event
  simp only
  split_ifs <;> simp

/-- A round of the `for` loop does what its heap call does. -/
theorem relax_by_event (v : Int) (s : dijkstra_state) (e : Int × Int) :
    relax v s e =
      match relax_event v s e with
      | some (.insert u d) => { s with Q := (s.Q.setDistance u d).insert u }
      | some (.update u d) => { s with Q := s.Q.update u d }
      | _ => s := by
  unfold relax relax_event
  simp only
  split_ifs <;> rfl

theorem dijkstra_init_eq (mem : Int → Int) (g : graph) (src k_value : Int) {s : dijkstra_state}
    (e : dijkstra_init mem g src k_value = .ok s) :
    2 ≤ k_value ∧
    s = ⟨((⟨mem, fun _ => -1, fun _ => INT_MAX, (g.length : Int) - 1 + 1, 0, k_value⟩ :
      k_heap).setDistance src 0).insert src, fun _ => false⟩ := by
  unfold dijkstra_init k_heap.new at e
  by_cases hk : k_value < 2
  · simp only [if_pos hk] at e
    cases e
  · have hc : ¬ ((g.length : Int) - 1 + 1 < 0) := by omega
    simp only [if_neg hk, if_neg hc] at e
    rw [init_distances_fold _ _ rfl] at e
    injection e with e
    exact ⟨by omega, e.symm⟩

theorem dijkstra_init_ok (mem : Int → Int) (g : graph) (src k_value : Int) (hk : 2 ≤ k_value) :
    dijkstra_init mem g src k_value =
      .ok ⟨((⟨mem, fun _ => -1, fun _ => INT_MAX, (g.length : Int) - 1 + 1, 0, k_value⟩ :
        k_heap).setDistance src 0).insert src, fun _ => false⟩ := by
  unfold dijkstra_init k_heap.new
  have hc : ¬ ((g.length : Int) - 1 + 1 < 0) := by omega
  simp only [if_neg (not_lt.2 hk), if_neg hc]
  rw [init_distances_fold _ _ rfl]

theorem sample_start_reached (dest : Int) :
    dijkstra_reaches (fun _ => 0) sample_graph 1 dest 2 [.insert 1 0] (.loop_head sample_start) :=
  .init (dijkstra_init_ok (fun _ => 0) sample_graph 1 2 (by decide))

theorem unvisited_count_congr (g : graph) {s s' : dijkstra_state}
    (h : s'.visited = s.visited) : unvisited_count g s' = unvisited_count g s := by
  unfold unvisited_count
  rw [h]

/-! ## The steps of the driver as long as no vertex is inserted with the distance `INT_MAX` -/

theorem dijkstra_inv_safe (g : graph) {src : Int} {R : Int → Int → Int → Prop}
    {s : dijkstra_state} (hinv : dijkstra_inv g src R s) (hle : ∀ x, s.Q.dist x ≤ INT_MAX)
    (hz : s.Q.dist 0 = INT_MAX) : safe_inv g s :=
  ⟨hinv.heap_valid, hinv.cap, hinv.in_heap, hle, hinv.visited_dist, hz, hinv.fit⟩

theorem config_safe_state (g : graph) {c : dijkstra_config} (hc : config_safe g c) :
    ∃ s, c.state = some s ∧ safe_inv g s := by
  cases c with
  | loop_head s => exact ⟨s, rfl, hc⟩
  | for_edges v rest s => exact ⟨s, rfl, hc.1⟩
  | returned r s => exact ⟨s, rfl, hc⟩
  | failed e => exact absurd hc (by simp [config_safe])

/-- A heap that satisfies the safe invariant has at most `n` occupied slots: vertex 0 is
never in it. -/
theorem size_bound (g : graph) {s : dijkstra_state} (hs : safe_inv g s)
    (hlen : 1 ≤ g.length) : s.Q.current_size ≤ (g.length : Int) - 1 := by
  have habs : s.Q.positions 0 = -1 := by
    by_contra hcon
    exact ((hs.in_heap 0 (le_refl _) (by omega)).1 hcon).2 hs.zero
  have := k_heap.size_lt_capacity_of_absent s.Q hs.heap_valid.index hs.heap_valid.size_nonneg
    ⟨le_refl _, by rw [hs.cap]; omega⟩ habs
  rw [hs.cap] at this
  omega

theorem extract_safe (g : graph) {s : dijkstra_state} (hs : safe_inv g s)
    (hne : s.Q.isEmpty = false) :
    ∃ Q1, s.Q.getMin = .ok (s.Q.heap_arr 0) ∧ s.Q.deleteMin = .ok Q1 ∧
      0 < s.Q.current_size ∧ Q1.current_size = s.Q.current_size - 1 ∧
      (1 ≤ s.Q.heap_arr 0 ∧ s.Q.heap_arr 0 < (g.length : Int)) ∧
      s.visited (s.Q.heap_arr 0) = false ∧ s.Q.isInHeap (s.Q.heap_arr 0) = true ∧
      Q1.dist = s.Q.dist ∧
      safe_inv g ⟨Q1, Function.update s.visited (s.Q.heap_arr 0) true⟩ := by
  have hv := hs.heap_valid
  have hsz : 0 < s.Q.current_size := by
    have := hv.size_nonneg
    simp [k_heap.isEmpty] at hne
    omega
  obtain ⟨hg, hr, hpos, -, -⟩ := k_heap.getMin_spec s.Q hv hsz
  obtain ⟨Q1, hd, hv1, hdist, hcap, hk1, hsz1, hmem⟩ :=
    k_heap.deleteKey_spec s.Q 0 hv ⟨le_refl _, hsz⟩ (hv.fits hs.fit)
  have hdm : s.Q.deleteMin = .ok Q1 := by
    rw [k_heap.deleteMin_eq s.Q hsz]; exact hd
  rw [hs.cap] at hr
  have hin : s.Q.positions (s.Q.heap_arr 0) ≠ -1 := by rw [hpos]; omega
  have hvu := (hs.in_heap _ hr.1 hr.2).1 hin
  have hne0 : s.Q.heap_arr 0 ≠ 0 := fun e => by
    have := hvu.2
    rw [e] at this
    exact this hs.zero
  refine ⟨Q1, hg, hdm, hsz, hsz1, ⟨by omega, hr.2⟩, hvu.1, by simp [k_heap.isInHeap, hin], hdist,
    ⟨hv1, by rw [hcap]; exact hs.cap, ?_, by intro x; rw [hdist]; exact hs.dist_le x, ?_,
      by show Q1.dist 0 = INT_MAX; rw [hdist]; exact hs.zero,
      by show Q1.k * (Q1.capacity - 1) < INT_MAX; rw [hk1, hcap]; exact hs.fit⟩⟩
  · intro u hu0 hul
    show Q1.positions u ≠ -1 ↔
      (Function.update s.visited (s.Q.heap_arr 0) true u = false ∧ Q1.dist u ≠ INT_MAX)
    rw [hmem u hu0 (by rw [hs.cap]; exact hul), hs.in_heap u hu0 hul, visited_update_false, hdist]
    tauto
  · intro x hx
    show Q1.dist x ≠ INT_MAX
    rw [hdist]
    rcases (visited_update _ _ _).1 hx with h | h
    · rw [h]; exact hvu.2
    · exact hs.visited_dist x h

theorem safe_inv_improve (g : graph) {s : dijkstra_state} {Q' : k_heap} {u d : Int}
    (hs : safe_inv g s) (hu : s.visited u = false) (hu0 : u ≠ 0)
    (hQv : Q'.valid) (hcap : Q'.capacity = s.Q.capacity) (hQk : Q'.k = s.Q.k)
    (hdist : Q'.dist = Function.update s.Q.dist u d)
    (hmem : ∀ x, 0 ≤ x → x < s.Q.capacity →
      (Q'.positions x ≠ -1 ↔ (x = u ∨ s.Q.positions x ≠ -1)))
    (hd : d < INT_MAX) : safe_inv g ⟨Q', s.visited⟩ := by
  refine ⟨hQv, by rw [hcap]; exact hs.cap, ?_, ?_, ?_, ?_, ?_⟩
  · intro x hx0 hxl
    show Q'.positions x ≠ -1 ↔ (s.visited x = false ∧ Q'.dist x ≠ INT_MAX)
    rw [hmem x hx0 (by rw [hs.cap]; exact hxl), hdist, Function.update_apply,
      hs.in_heap x hx0 hxl]
    by_cases hxu : x = u
    · rw [if_pos hxu, hxu]
      constructor
      · intro _
        exact ⟨hu, by omega⟩
      · intro _
        exact Or.inl rfl
    · rw [if_neg hxu]
      constructor
      · rintro (h | h)
        · exact absurd h hxu
        · exact h
      · intro h
        exact Or.inr h
  · intro x
    show Q'.dist x ≤ INT_MAX
    rw [hdist, Function.update_apply]
    split_ifs
    · omega
    · exact hs.dist_le x
  · intro x hx
    show Q'.dist x ≠ INT_MAX
    have hxu : x ≠ u := fun e => by
      rw [e, hu] at hx
      cases hx
    rw [hdist, Function.update_noteq hxu]
    exact hs.visited_dist x hx
  · show Q'.dist 0 = INT_MAX
    rw [hdist, Function.update_noteq (Ne.symm hu0)]
    exact hs.zero
  · show Q'.k * (Q'.capacity - 1) < INT_MAX
    rw [hQk, hcap]
    exact hs.fit

/-- A round of the `for` loop that does not insert with the distance `INT_MAX`: the heap
stays valid, `insert` is called only for a vertex that is not in the heap, and `update` only
for one that is, with a strictly smaller distance. -/
theorem relax_safe (g : graph) (htr : targets_in_range g) {s : dijkstra_state} {v : Int}
    {e : Int × Int} (hv0 : 0 ≤ v) (he : e ∈ graph_at g v) (hs : safe_inv g s)
    (hno : ∀ u d, relax_event v s e = some (.insert u d) → d ≠ INT_MAX) :
    safe_inv g (relax v s e) ∧ (relax v s e).visited = s.visited ∧
    (∀ u d, relax_event v s e = some (.insert u d) →
      (1 ≤ u ∧ u < (g.length : Int)) ∧ s.Q.isInHeap u = false ∧
      (relax v s e).Q.isInHeap u = true ∧
      (relax v s e).Q.current_size = s.Q.current_size + 1 ∧
      s.visited u = false ∧ s.Q.dist u = INT_MAX ∧ d < INT_MAX ∧
      (relax v s e).Q.dist = Function.update s.Q.dist u d) ∧
    (∀ u d, relax_event v s e = some (.update u d) →
      (1 ≤ u ∧ u < (g.length : Int)) ∧ s.Q.isInHeap u = true ∧
      (relax v s e).Q.isInHeap u = true ∧
      (relax v s e).Q.current_size = s.Q.current_size ∧
      s.visited u = false ∧ d < s.Q.dist u ∧
      (relax v s e).Q.dist = Function.update s.Q.dist u d) ∧
    (relax_event v s e = none → relax v s e = s) := by
  have hur := is_edge_target g htr (⟨hv0, he⟩ : is_edge g v e.1 e.2)
  have hval := hs.heap_valid
  rw [relax_by_event]
  cases hev : relax_event v s e with
  | none =>
    exact ⟨hs, rfl, fun _ _ h => (by cases h), fun _ _ h => (by cases h), fun _ => rfl⟩
  | some ev =>
    cases ev with
    | extract x => exact absurd hev relax_event_extract
    | insert u d =>
      obtain ⟨hue, huv, hud, hd⟩ := relax_event_insert hev
      rw [← hue] at hur
      have hdm : d < INT_MAX := by
        have h1 := int_add_le_max (s.Q.dist v) e.2
        rw [← hd] at h1
        have h2 := hno u d hev
        omega
      have habs : s.Q.positions u = -1 := by
        by_contra hcon
        exact ((hs.in_heap u (by omega) hur.2).1 hcon).2 hud
      have hcap : 0 ≤ u ∧ u < s.Q.capacity := by rw [hs.cap]; omega
      obtain ⟨hv3, hd3, hc3, hk3, hs3, hm3⟩ := k_heap.insert_spec (s.Q.setDistance u d) u
        (k_heap.setDistance_absent s.Q u d hval habs) hcap habs
      have hs' := safe_inv_improve g hs huv (by omega) hv3 hc3 hk3 hd3 hm3 hdm
      refine ⟨hs', rfl, ?_, fun _ _ h => (by cases h), fun h => (by cases h)⟩
      intro u' d' h
      injection h with h
      injection h with h1 h2
      subst h1 h2
      refine ⟨hur, (k_heap.isInHeap_false_iff _ _).2 habs, ?_, hs3, huv, hud, hdm, hd3⟩
      have := (hm3 u hcap.1 hcap.2).2 (Or.inl rfl)
      simp [k_heap.isInHeap, this]
    | update u d =>
      obtain ⟨hue, huv, hud, hlt, hd⟩ := relax_event_update hev
      rw [← hue] at hur
      have hpres : s.Q.positions u ≠ -1 := (hs.in_heap u (by omega) hur.2).2 ⟨huv, hud⟩
      have hcap : 0 ≤ u ∧ u < s.Q.capacity := by rw [hs.cap]; omega
      obtain ⟨hv3, hd3, hc3, hk3, hs3, hm3⟩ :=
        k_heap.update_present_spec s.Q u d hval hcap hpres (fun hgt => by omega)
      have hm3' : ∀ x, 0 ≤ x → x < s.Q.capacity →
          ((s.Q.update u d).positions x ≠ -1 ↔ (x = u ∨ s.Q.positions x ≠ -1)) := by
        intro x hx0 hxc
        rw [hm3 x hx0 hxc]
        constructor
        · exact fun h => Or.inr h
        · rintro (h | h)
          · rw [h]; exact hpres
          · exact h
      have hdm : d < INT_MAX := by
        have := hs.dist_le u
        omega
      have hs' := safe_inv_improve g hs huv (by omega) hv3 hc3 hk3 hd3 hm3' hdm
      refine ⟨hs', rfl, fun _ _ h => (by cases h), ?_, fun h => (by cases h)⟩
      intro u' d' h
      injection h with h
      injection h with h1 h2
      subst h1 h2
      refine ⟨hur, by simp [k_heap.isInHeap, hpres], ?_, hs3, huv, hlt, hd3⟩
      have := (hm3 u hcap.1 hcap.2).2 hpres
      simp [k_heap.isInHeap, this]

/-- One step of `dijkstra` that does not insert with the distance `INT_MAX`: the safe
invariant holds again, and the heap call made by the step meets its precondition. -/
theorem step_safe (g : graph) (dest : Int) (htr : targets_in_range g) {c : dijkstra_config}
    (hc : config_safe g c)
    (hno : ∀ u d, step_event c = some (.insert u d) → d ≠ INT_MAX) :
    config_safe g (dijkstra_step g dest c) ∧
    ∃ s s', c.state = some s ∧ (dijkstra_step g dest c).state = some s' ∧
      safe_inv g s ∧ safe_inv g s' ∧
      (∀ x, step_event c = some (.extract x) →
        0 < s.Q.current_size ∧ s.Q.isInHeap x = true ∧ s.visited x = false ∧
        s'.visited = Function.update s.visited x true ∧
        s'.Q.current_size = s.Q.current_size - 1 ∧ (1 ≤ x ∧ x < (g.length : Int)) ∧
        s'.Q.dist = s.Q.dist ∧ s.Q.isEmpty = false ∧ s.Q.getMin = .ok x ∧
        ∃ Q1, s.Q.deleteMin = .ok Q1) ∧
      (∀ u d, step_event c = some (.insert u d) →
        (1 ≤ u ∧ u < (g.length : Int)) ∧ s.Q.isInHeap u = false ∧ s'.Q.isInHeap u = true ∧
        s'.Q.current_size = s.Q.current_size + 1 ∧
        s.visited u = false ∧ s.Q.dist u = INT_MAX ∧ d < INT_MAX ∧
        s'.Q.dist = Function.update s.Q.dist u d ∧ s'.visited = s.visited) ∧
      (∀ u d, step_event c = some (.update u d) →
        (1 ≤ u ∧ u < (g.length : Int)) ∧ s.Q.isInHeap u = true ∧ s'.Q.isInHeap u = true ∧
        s'.Q.current_size = s.Q.current_size ∧
        s.visited u = false ∧ d < s.Q.dist u ∧
        s'.Q.dist = Function.update s.Q.dist u d ∧ s'.visited = s.visited) ∧
      (step_event c = none → s' = s) := by
  cases c with
  | failed e => exact absurd hc (by simp [config_safe])
  | returned r s0 =>
    exact ⟨hc, s0, s0, rfl, rfl, hc, hc, fun _ h => (by simp [step_event] at h),
      fun _ _ h => (by simp [step_event] at h), fun _ _ h => (by simp [step_event] at h),
      fun _ => rfl⟩
  | for_edges v rest s0 =>
    obtain ⟨hs, hv0, hsub⟩ := hc
    cases rest with
    | nil =>
      exact ⟨hs, s0, s0, rfl, rfl, hs, hs, fun _ h => (by simp [step_event] at h),
        fun _ _ h => (by simp [step_event] at h), fun _ _ h => (by simp [step_event] at h),
        fun _ => rfl⟩
    | cons e rest =>
      obtain ⟨h1, hvis, h2, h3, h4⟩ := @relax_safe g htr s0 v e hv0
        (hsub e (List.mem_cons_self _ _)) hs hno
      refine ⟨⟨h1, hv0, fun e' he' => hsub e' (List.mem_cons_of_mem _ he')⟩,
        s0, relax v s0 e, rfl, rfl, hs, h1, fun x h => absurd h relax_event_extract, ?_, ?_, h4⟩
      · intro u d hev
        obtain ⟨a1, a2, a3, a4, a5, a6, a7, a8⟩ := h2 u d hev
        exact ⟨a1, a2, a3, a4, a5, a6, a7, a8, hvis⟩
      · intro u d hev
        obtain ⟨a1, a2, a3, a4, a5, a6, a7⟩ := h3 u d hev
        exact ⟨a1, a2, a3, a4, a5, a6, a7, hvis⟩
  | loop_head s0 =>
    have hs : safe_inv g s0 := hc
    cases hE : s0.Q.isEmpty with
    | true =>
      have e1 : dijkstra_step g dest (.loop_head s0) = .returned (-1) s0 := by
        simp [dijkstra_step, hE]
      have e2 : step_event (.loop_head s0) = none := by
        simp [step_event, hE]
      rw [e1, e2]
      exact ⟨hs, s0, s0, rfl, rfl, hs, hs, fun _ h => (by cases h), fun _ _ h => (by cases h),
        fun _ _ h => (by cases h), fun _ => rfl⟩
    | false =>
      obtain ⟨Q1, hg, hd, hsz, hsz1, hvr, hvis, hin, hdist, hs1⟩ := extract_safe g hs hE
      have e2 : step_event (.loop_head s0) = some (.extract (s0.Q.heap_arr 0)) := by
        simp [step_event, hE, hg]
      have hprops :
          (∀ x, step_event (.loop_head s0) = some (.extract x) →
            0 < s0.Q.current_size ∧ s0.Q.isInHeap x = true ∧ s0.visited x = false ∧
            Function.update s0.visited (s0.Q.heap_arr 0) true =
              Function.update s0.visited x true ∧
            Q1.current_size = s0.Q.current_size - 1 ∧ (1 ≤ x ∧ x < (g.length : Int)) ∧
            Q1.dist = s0.Q.dist ∧ s0.Q.isEmpty = false ∧ s0.Q.getMin = .ok x ∧
            ∃ Q1, s0.Q.deleteMin = .ok Q1) ∧
          (∀ u d, step_event (.loop_head s0) = some (.insert u d) →
            (1 ≤ u ∧ u < (g.length : Int)) ∧ s0.Q.isInHeap u = false ∧ Q1.isInHeap u = true ∧
            Q1.current_size = s0.Q.current_size + 1 ∧
            s0.visited u = false ∧ s0.Q.dist u = INT_MAX ∧ d < INT_MAX ∧
            Q1.dist = Function.update s0.Q.dist u d ∧
            Function.update s0.visited (s0.Q.heap_arr 0) true = s0.visited) ∧
          (∀ u d, step_event (.loop_head s0) = some (.update u d) →
            (1 ≤ u ∧ u < (g.length : Int)) ∧ s0.Q.isInHeap u = true ∧ Q1.isInHeap u = true ∧
            Q1.current_size = s0.Q.current_size ∧
            s0.visited u = false ∧ d < s0.Q.dist u ∧
            Q1.dist = Function.update s0.Q.dist u d ∧
            Function.update s0.visited (s0.Q.heap_arr 0) true = s0.visited) ∧
          (step_event (.loop_head s0) = none →
            (⟨Q1, Function.update s0.visited (s0.Q.heap_arr 0) true⟩ : dijkstra_state) = s0) := by
        rw [e2]
        refine ⟨?_, fun _ _ h => (by cases h), fun _ _ h => (by cases h), fun h => (by cases h)⟩
        intro x hx
        injection hx with hx
        injection hx with hx
        subst hx
        exact ⟨hsz, hin, hvis, rfl, hsz1, hvr, hdist, hE, hg, Q1, hd⟩
      by_cases hvd : s0.Q.heap_arr 0 = dest
      · have e1 : dijkstra_step g dest (.loop_head s0) =
            .returned (Q1.getDistance (s0.Q.heap_arr 0))
              ⟨Q1, Function.update s0.visited (s0.Q.heap_arr 0) true⟩ := by
          simp [dijkstra_step, hE, hg, hd, hvd]
        rw [e1]
        exact ⟨hs1, s0, _, rfl, rfl, hs, hs1, hprops⟩
      · have e1 : dijkstra_step g dest (.loop_head s0) =
            .for_edges (s0.Q.heap_arr 0) (graph_at g (s0.Q.heap_arr 0))
              ⟨Q1, Function.update s0.visited (s0.Q.heap_arr 0) true⟩ := by
          simp [dijkstra_step, hE, hg, hd, hvd]
        rw [e1]
        exact ⟨⟨hs1, by omega, fun _ h => h⟩, s0, _, rfl, rfl, hs, hs1, hprops⟩

/-- What one safe step does to the marks and to the distances: a mark is never removed, and
a distance changes only for an unvisited vertex, to a strictly smaller value, by the `insert`
or the `update` of that vertex. -/
theorem step_safe_frame {c : dijkstra_config} {s s' : dijkstra_state}
    (hext : ∀ x, step_event c = some (.extract x) →
      s'.visited = Function.update s.visited x true ∧ s'.Q.dist = s.Q.dist)
    (hins : ∀ u d, step_event c = some (.insert u d) →
      s.visited u = false ∧ s.Q.dist u = INT_MAX ∧ d < INT_MAX ∧
      s'.Q.dist = Function.update s.Q.dist u d ∧ s'.visited = s.visited)
    (hupd : ∀ u d, step_event c = some (.update u d) →
      s.visited u = false ∧ d < s.Q.dist u ∧
      s'.Q.dist = Function.update s.Q.dist u d ∧ s'.visited = s.visited)
    (hnone : step_event c = none → s' = s) :
    (∀ x, s.visited x = true → s'.visited x = true) ∧
    (∀ x, s'.Q.dist x = s.Q.dist x ∨ (s'.Q.dist x < s.Q.dist x ∧ s.visited x = false ∧
      ∃ d, step_event c = some (.insert x d) ∨ step_event c = some (.update x d))) ∧
    ((∀ x, step_event c ≠ some (.extract x)) → s'.visited = s.visited) := by
  cases hev : step_event c with
  | none =>
    rw [hnone hev]
    exact ⟨fun _ h => h, fun _ => Or.inl rfl, fun _ => rfl⟩
  | some ev =>
    cases ev with
    | extract y =>
      obtain ⟨a, b⟩ := hext y hev
      refine ⟨?_, fun x => Or.inl (by rw [b]), fun h => absurd rfl (h y)⟩
      intro x hx
      rw [a]
      exact (visited_update _ _ _).2 (Or.inr hx)
    | insert u d =>
      obtain ⟨a1, a2, a3, a4, a5⟩ := hins u d hev
      refine ⟨fun x hx => by rw [a5]; exact hx, ?_, fun _ => a5⟩
      intro x
      rw [a4, Function.update_apply]
      by_cases hxu : x = u
      · rw [if_pos hxu, hxu]
        exact Or.inr ⟨by omega, a1, d, Or.inl rfl⟩
      · rw [if_neg hxu]
        exact Or.inl rfl
    | update u d =>
      obtain ⟨a1, a2, a4, a5⟩ := hupd u d hev
      refine ⟨fun x hx => by rw [a5]; exact hx, ?_, fun _ => a5⟩
      intro x
      rw [a4, Function.update_apply]
      by_cases hxu : x = u
      · rw [if_pos hxu, hxu]
        exact Or.inr ⟨a2, a1, d, Or.inr rfl⟩
      · rw [if_neg hxu]
        exact Or.inl rfl

/-! ## Every control point of a run without a collision with the sentinel -/

theorem extractions_step (es : List dijkstra_event) (ev : Option dijkstra_event) :
    extractions (es ++ ev.toList) = extractions es +
      (match ev with
        | some (.extract _) => 1
        | _ => 0) := by
  unfold extractions
  rw [List.countP_append]
  cases ev with
  | none => rfl
  | some e => cases e <;> rfl

theorem inserted_step (es : List dijkstra_event) (ev : Option dijkstra_event) :
    inserted (es ++ ev.toList) = inserted es ++
      (match ev with
        | some (.insert u _) => [u]
        | _ => []) := by
  unfold inserted
  rw [List.filterMap_append]
  cases ev with
  | none => rfl
  | some e => cases e <;> rfl

theorem unvisited_count_le (g : graph) (s : dijkstra_state) :
    unvisited_count g s ≤ g.length - 1 := by
  unfold unvisited_count
  have := Finset.card_filter_le (Finset.range (g.length - 1))
    (fun i : Nat => s.visited ((i : Int) + 1) = false)
  rw [Finset.card_range] at this
  exact this

theorem dijkstra_init_safe (mem : Int → Int) (g : graph) (src k_value : Int)
    (hkn : k_value * ((g.length : Int) - 1) < INT_MAX)
    (hsrc : 1 ≤ src ∧ src < (g.length : Int)) {s : dijkstra_state}
    (e : dijkstra_init mem g src k_value = .ok s) :
    safe_inv g s ∧ dijkstra_inv g src (fun _ _ _ => True) s ∧
    s.visited = (fun _ => false) ∧ s.Q.dist = Function.update (fun _ => INT_MAX) src 0 ∧
    s.Q.k = k_value := by
  obtain ⟨hk, -⟩ := dijkstra_init_eq mem g src k_value e
  obtain ⟨s', e', hvis, hinv⟩ := dijkstra_init_inv mem g src k_value hk hkn hsrc
  obtain ⟨s'', e'', -, -, -, hkq, hd, -⟩ := dijkstra_init_spec mem g src k_value hk hsrc
  rw [e] at e' e''
  injection e' with e'
  injection e'' with e''
  subst e' e''
  refine ⟨dijkstra_inv_safe g hinv ?_ ?_, hinv, hvis, hd, hkq⟩
  · intro x
    rw [hd, Function.update_apply]
    split_ifs
    · decide
    · exact le_refl _
  · rw [hd, Function.update_noteq (by omega)]

/-- In a run that never inserts with the distance `INT_MAX` every control point satisfies the
safe invariant, the extractions made so far and the vertices still unvisited number at most
`n` together, no vertex has been inserted twice, and every extracted vertex is marked. -/
theorem reaches_safe (mem : Int → Int) (g : graph) (src dest k_value : Int)
    (hkn : k_value * ((g.length : Int) - 1) < INT_MAX)
    (hsrc : 1 ≤ src ∧ src ≤ (g.length : Int) - 1) (htr : targets_in_range g)
    (hno : collision_free mem g src dest k_value)
    {es : List dijkstra_event} {c : dijkstra_config}
    (hr : dijkstra_reaches mem g src dest k_value es c) :
    config_safe g c ∧ ∃ s, c.state = some s ∧ safe_inv g s ∧
      extractions es + unvisited_count g s ≤ g.length - 1 ∧ (inserted es).Nodup ∧
      (∀ x, x ∈ inserted es ↔ s.Q.dist x ≠ INT_MAX) ∧
      (∀ x, dijkstra_event.extract x ∈ es → s.visited x = true) := by
  induction hr with
  | @init s0 e =>
    obtain ⟨h1, -, -, hd, -⟩ := dijkstra_init_safe mem g src k_value hkn (by omega) e
    refine ⟨h1, s0, rfl, h1, ?_, by simp [inserted], ?_, ?_⟩
    · have := unvisited_count_le g s0
      simp only [extractions, List.countP_cons, List.countP_nil]
      simpa using this
    · intro x
      simp only [inserted, List.filterMap_cons, List.filterMap_nil, List.mem_singleton]
      rw [hd, Function.update_apply]
      by_cases hx : x = src
      · simp [hx, INT_MAX]
      · simp [hx]
    · intro x hx
      simp at hx
  | @step es c hr' ih =>
    obtain ⟨hc, s, hcs, hs, hcount, hnd, hdist, hvis⟩ := ih
    obtain ⟨hc', s1, s', hcs1, hs', -, hsafe', hext, hins, hupd, hnone⟩ :=
      step_safe g dest htr hc (hno es c hr')
    rw [hcs] at hcs1
    injection hcs1 with hcs1
    subst hcs1
    obtain ⟨hmono, hdch, -⟩ := @step_safe_frame c s s'
      (fun x h => ⟨(hext x h).2.2.2.1, (hext x h).2.2.2.2.2.2.1⟩)
      (fun u d h => (hins u d h).2.2.2.2) (fun u d h => (hupd u d h).2.2.2.2) hnone
    refine ⟨hc', s', hs', hsafe', ?_, ?_, ?_, ?_⟩
    · rw [extractions_step]
      cases hev : step_event c with
      | none =>
        rw [hnone hev]
        simpa using hcount
      | some ev =>
        cases ev with
        | extract x =>
          obtain ⟨-, -, hxv, hvis', -, hxr, -⟩ := hext x hev
          have := unvisited_count_extract g s s' x hxr hxv hvis'
          simp only
          omega
        | insert u d =>
          have := unvisited_count_congr g (hins u d hev).2.2.2.2.2.2.2.2
          simp only
          omega
        | update u d =>
          have := unvisited_count_congr g (hupd u d hev).2.2.2.2.2.2.2
          simp only
          omega
    · rw [inserted_step]
      cases hev : step_event c with
      | none => simpa using hnd
      | some ev =>
        cases ev with
        | extract x => simpa using hnd
        | update u d => simpa using hnd
        | insert u d =>
          simp only
          rw [List.nodup_append]
          refine ⟨hnd, List.nodup_singleton u, ?_⟩
          intro x hx hx'
          rw [List.mem_singleton] at hx'
          subst hx'
          exact (hdist x).1 hx (hins x d hev).2.2.2.2.2.1
    · intro x
      rw [inserted_step, List.mem_append, hdist x]
      cases hev : step_event c with
      | none =>
        rw [hnone hev]
        simp
      | some ev =>
        cases ev with
        | extract y =>
          rw [(hext y hev).2.2.2.2.2.2.1]
          simp
        | update u d =>
          obtain ⟨hur, hin, -, -, -, hlt, hd', -⟩ := hupd u d hev
          have hle := hs.dist_le u
          have hp : s.Q.positions u ≠ -1 := by simpa [k_heap.isInHeap] using hin
          have hne := ((hs.in_heap u (by omega) hur.2).1 hp).2
          rw [hd', Function.update_apply]
          by_cases hxu : x = u
          · subst hxu
            simp only [List.not_mem_nil, or_false, if_true]
            constructor
            · intro _
              omega
            · intro _
              omega
          · simp [hxu]
        | insert u d =>
          obtain ⟨-, -, -, -, -, hmax, hlt, hd', -⟩ := hins u d hev
          rw [hd', Function.update_apply]
          by_cases hxu : x = u
          · subst hxu
            simp only [List.mem_singleton, or_true, if_true, true_iff]
            omega
          · simp [hxu]
    · intro x hx
      rw [List.mem_append] at hx
      rcases hx with hx | hx
      · exact hmono x (hvis x hx)
      · cases hev : step_event c with
        | none => rw [hev] at hx; simp at hx
        | some ev =>
          rw [hev] at hx
          simp only [Option.toList, List.mem_singleton] at hx
          subst hx
          rw [(hext x hev).2.2.2.1]
          exact (visited_update _ _ _).2 (Or.inl rfl)

/-! ## The `while` loop and the steps describe the same run -/

theorem fold_reaches (mem : Int → Int) (g : graph) (src dest k_value : Int) (v : Int)
    (rest : List (Int × Int)) :
    ∀ (es : List dijkstra_event) (s : dijkstra_state),
      dijkstra_reaches mem g src dest k_value es (.for_edges v rest s) →
      ∃ es', dijkstra_reaches mem g src dest k_value es' (.loop_head (rest.foldl (relax v) s)) ∧
        extractions es' = extractions es := by
  induction rest with
  | nil =>
    intro es s hr
    have := dijkstra_reaches.step hr
    exact ⟨_, this, by rw [extractions_step]; rfl⟩
  | cons e rest ih =>
    intro es s hr
    have h1 := dijkstra_reaches.step hr
    obtain ⟨es', h2, h3⟩ := ih _ _ h1
    refine ⟨es', h2, ?_⟩
    rw [h3, extractions_step]
    show extractions es + (match relax_event v s e with
      | some (.extract _) => 1
      | _ => 0) = extractions es
    cases hev : relax_event v s e with
    | none => rfl
    | some ev =>
      cases ev with
      | extract x => exact absurd hev relax_event_extract
      | insert u d => rfl
      | update u d => rfl

/-- A result of the `while` loop is a control point reached by the steps, and a budget of one
more than the number of extractions made from the loop head on is enough for it. -/
theorem loop_reaches (mem : Int → Int) (g : graph) (src dest k_value : Int) (fuel : Nat) :
    ∀ (es : List dijkstra_event) (s : dijkstra_state) (r : Int) (sf : dijkstra_state),
      dijkstra_reaches mem g src dest k_value es (.loop_head s) →
      dijkstra_loop g dest fuel s = some (.ok (r, sf)) →
      ∃ es', dijkstra_reaches mem g src dest k_value es' (.returned r sf) ∧
        extractions es ≤ extractions es' ∧
        ∀ f, extractions es' - extractions es + 1 ≤ f →
          dijkstra_loop g dest f s = some (.ok (r, sf)) := by
  induction fuel with
  | zero =>
    intro es s r sf _ h
    simp [dijkstra_loop] at h
  | succ fuel ih =>
    intro es s r sf hr h
    have hstep := dijkstra_reaches.step hr
    cases hE : s.Q.isEmpty with
    | true =>
      have e1 : dijkstra_step g dest (.loop_head s) = .returned (-1) s := by
        simp [dijkstra_step, hE]
      have h0 : dijkstra_loop g dest (fuel + 1) s = some (.ok (-1, s)) := by
        simp [dijkstra_loop, hE]
      rw [h0] at h
      injection h with h
      injection h with h
      injection h with hr1 hr2
      subst hr1 hr2
      rw [e1] at hstep
      refine ⟨_, hstep, by rw [extractions_step]; omega, ?_⟩
      intro f hf
      obtain ⟨f', rfl⟩ : ∃ f', f = f' + 1 := ⟨f - 1, by omega⟩
      simp [dijkstra_loop, hE]
    | false =>
      unfold dijkstra_loop at h
      simp only [hE, Bool.not_false, if_true] at h
      cases hg : s.Q.getMin with
      | error e => rw [hg] at h; simp at h
      | ok v =>
        rw [hg] at h
        cases hd : s.Q.deleteMin with
        | error e => rw [hd] at h; simp at h
        | ok Q1 =>
          rw [hd] at h
          simp only at h
          have e2 : step_event (.loop_head s) = some (.extract v) := by
            simp [step_event, hE, hg]
          have hcnt : extractions (es ++ (step_event (.loop_head s)).toList) =
              extractions es + 1 := by
            rw [extractions_step, e2]
          by_cases hvd : v = dest
          · rw [if_pos hvd] at h
            have e1 : dijkstra_step g dest (.loop_head s) =
                .returned (Q1.getDistance v) ⟨Q1, Function.update s.visited v true⟩ := by
              simp [dijkstra_step, hE, hg, hd, hvd]
            injection h with h
            injection h with h
            injection h with hr1 hr2
            subst hr1 hr2
            rw [e1] at hstep
            refine ⟨_, hstep, by omega, ?_⟩
            intro f hf
            obtain ⟨f', rfl⟩ : ∃ f', f = f' + 1 := ⟨f - 1, by omega⟩
            simp [dijkstra_loop, hE, hg, hd, hvd]
          · rw [if_neg hvd] at h
            have e1 : dijkstra_step g dest (.loop_head s) =
                .for_edges v (graph_at g v) ⟨Q1, Function.update s.visited v true⟩ := by
              simp [dijkstra_step, hE, hg, hd, hvd]
            rw [e1] at hstep
            obtain ⟨es2, hr2, hc2⟩ := fold_reaches mem g src dest k_value v _ _ _ hstep
            obtain ⟨es', hr', hle, hf'⟩ := ih es2 _ r sf hr2 h
            refine ⟨es', hr', by omega, ?_⟩
            intro f hf
            obtain ⟨f', rfl⟩ : ∃ f', f = f' + 1 := ⟨f - 1, by omega⟩
            have := hf' f' (by omega)
            conv_lhs => unfold dijkstra_loop
            simp [hE, hg, hd, hvd, this]

/-! ## Every control point of a run on a graph with small non-negative weights -/

/-- The candidate distance computed for an unvisited target is the weight of a simple path,
and its computation does not wrap. -/
theorem candidate_path (g : graph) (hnn : nonneg_weights g) {src : Int}
    (hsum : sums_below_sentinel g src) {R : Int → Int → Int → Prop} {s : dijkstra_state}
    {v u c : Int} (hinv : dijkstra_inv g src R s) (hv : s.visited v = true)
    (hedge : is_edge g v u c) (hvu : s.visited u = false) :
    ∃ vs, path g src u (u :: vs) (s.Q.dist v + c) ∧ (u :: vs).Nodup ∧
      (∀ x ∈ vs, s.visited x = true) ∧ 0 ≤ s.Q.dist v + c ∧ s.Q.dist v + c < INT_MAX ∧
      int_add (s.Q.dist v) c = s.Q.dist v + c := by
  obtain ⟨vs, hp, hnd, hvis⟩ := hinv.tree v (hinv.visited_dist v hv)
  have hall : ∀ x ∈ vs, s.visited x = true := by
    intro x hx
    by_cases e : x = v
    · rw [e]; exact hv
    · exact hvis x hx e
  have hnotin : u ∉ vs := fun h => by
    have := hall u h
    rw [hvu] at this
    cases this
  have hp' : path g src u (u :: vs) (s.Q.dist v + c) := path.snoc hp hedge
  have hnd' : (u :: vs).Nodup := List.nodup_cons.2 ⟨hnotin, hnd⟩
  have hlt := hsum u _ _ hp' hnd'
  have h0 := path_weight_nonneg g hnn hp'
  exact ⟨vs, hp', hnd', hall, h0, hlt, int_add_exact h0 hlt⟩

theorem step_strong (g : graph) (dest : Int) (htr : targets_in_range g)
    (hnn : nonneg_weights g) {src : Int} (hsrc : 1 ≤ src ∧ src < (g.length : Int))
    (hsum : sums_below_sentinel g src) {c : dijkstra_config} (hc : config_strong g src c) :
    config_strong g src (dijkstra_step g dest c) := by
  cases c with
  | failed e => exact absurd hc (by simp [config_strong])
  | returned r s => exact hc
  | for_edges v rest s =>
    obtain ⟨done, hdone, hv, hv0, hinv⟩ := hc
    cases rest with
    | nil =>
      show dijkstra_inv g src (fun _ _ _ => True) s
      apply dijkstra_inv_weaken g hinv
      intro x u c _ _ he _
      by_cases hx : x = v
      · rw [hx] at he
        rw [List.append_nil] at hdone
        right
        have : (u, c) ∈ done := by rw [hdone]; exact he.2
        have hr := hinv.relaxed x (by rw [hx]; exact hv) u c (by rw [hx]; exact he)
          (Or.inr this)
        exact hr (by assumption)
      · exact Or.inl (Or.inl hx)
    | cons e rest =>
      have he : e ∈ graph_at g v := by
        rw [← hdone]
        exact List.mem_append_right _ (List.mem_cons_self _ _)
      obtain ⟨h1, h2⟩ := relax_step g htr hnn hsum done e hv hv0 he hinv
      exact ⟨done ++ [e], by rw [List.append_assoc]; exact hdone, by rw [h2]; exact hv, hv0, h1⟩
  | loop_head s =>
    have hinv : dijkstra_inv g src (fun _ _ _ => True) s := hc
    cases hE : s.Q.isEmpty with
    | true =>
      have e1 : dijkstra_step g dest (.loop_head s) = .returned (-1) s := by
        simp [dijkstra_step, hE]
      rw [e1]
      exact ⟨_, hinv⟩
    | false =>
      obtain ⟨v, Q1, hg, hd, hvr, -, -, -, -, hinv1⟩ := extract_step g htr hnn hsrc hinv hE
      by_cases hvd : v = dest
      · have e1 : dijkstra_step g dest (.loop_head s) =
            .returned (Q1.getDistance v) ⟨Q1, Function.update s.visited v true⟩ := by
          simp [dijkstra_step, hE, hg, hd, hvd]
        rw [e1]
        exact ⟨_, hinv1⟩
      · have e1 : dijkstra_step g dest (.loop_head s) =
            .for_edges v (graph_at g v) ⟨Q1, Function.update s.visited v true⟩ := by
          simp [dijkstra_step, hE, hg, hd, hvd]
        rw [e1]
        refine ⟨[], rfl, (visited_update _ _ _).2 (Or.inl rfl), by omega, ?_⟩
        apply dijkstra_inv_weaken g hinv1
        intro x u c _ _ _ hr
        rcases hr with h | h
        · exact Or.inl h
        · cases h

theorem reaches_strong (mem : Int → Int) (g : graph) (src dest k_value : Int)
    (hkn : k_value * ((g.length : Int) - 1) < INT_MAX)
    (htr : targets_in_range g) (hnn : nonneg_weights g)
    (hsrc : 1 ≤ src ∧ src ≤ (g.length : Int) - 1) (hsum : sums_below_sentinel g src)
    {es : List dijkstra_event} {c : dijkstra_config}
    (hr : dijkstra_reaches mem g src dest k_value es c) : config_strong g src c := by
  induction hr with
  | init e => exact (dijkstra_init_safe mem g src k_value hkn (by omega) e).2.1
  | step _ ih => exact step_strong g dest htr hnn (by omega) hsum ih

theorem step_event_relax {c : dijkstra_config} {ev : dijkstra_event}
    (h : step_event c = some ev) (hne : ∀ x, ev ≠ .extract x) :
    ∃ v e rest s, c = .for_edges v (e :: rest) s ∧ relax_event v s e = some ev := by
  cases c with
  | failed e => simp [step_event] at h
  | returned r s => simp [step_event] at h
  | for_edges v rest s =>
    cases rest with
    | nil => simp [step_event] at h
    | cons e rest => exact ⟨v, e, rest, s, rfl, h⟩
  | loop_head s =>
    simp only [step_event] at h
    split_ifs at h
    · cases hg : s.Q.getMin with
      | error e => rw [hg] at h; cases h
      | ok v =>
        rw [hg] at h
        injection h with h
        exact absurd h.symm (hne v)

/-- The candidate computed in a round of the `for` loop for a target that is not visited. -/
theorem config_candidate (g : graph) (hnn : nonneg_weights g) {src : Int}
    (hsum : sums_below_sentinel g src) {v : Int} {e : Int × Int} {rest : List (Int × Int)}
    {s : dijkstra_state} (hc : config_strong g src (.for_edges v (e :: rest) s))
    (hu : s.visited e.1 = false) :
    ∃ vs, path g src e.1 (e.1 :: vs) (s.Q.getDistance v + e.2) ∧ (e.1 :: vs).Nodup ∧
      0 ≤ s.Q.getDistance v + e.2 ∧ s.Q.getDistance v + e.2 < INT_MAX ∧
      int_add (s.Q.getDistance v) e.2 = s.Q.getDistance v + e.2 := by
  obtain ⟨done, hdone, hv, hv0, hinv⟩ := hc
  have he : e ∈ graph_at g v := by
    rw [← hdone]
    exact List.mem_append_right _ (List.mem_cons_self _ _)
  obtain ⟨vs, h1, h2, -, h4, h5, h6⟩ :=
    candidate_path g hnn hsum hinv hv (⟨hv0, he⟩ : is_edge g v e.1 e.2) hu
  exact ⟨vs, h1, h2, h4, h5, h6⟩

theorem collision_free_of_sums (mem : Int → Int) (g : graph) (src dest k_value : Int)
    (hkn : k_value * ((g.length : Int) - 1) < INT_MAX)
    (htr : targets_in_range g) (hnn : nonneg_weights g)
    (hsrc : 1 ≤ src ∧ src ≤ (g.length : Int) - 1) (hsum : sums_below_sentinel g src) :
    collision_free mem g src dest k_value := by
  intro es c hr u d hev
  have hc := reaches_strong mem g src dest k_value hkn htr hnn hsrc hsum hr
  obtain ⟨v, e, rest, s, rfl, hev'⟩ := step_event_relax hev (fun x h => by cases h)
  obtain ⟨hue, huv, -, hd⟩ := relax_event_insert hev'
  rw [hue] at huv
  obtain ⟨vs, -, -, -, h5, h6⟩ := config_candidate g hnn hsum hc huv
  unfold k_heap.getDistance at h5 h6
  rw [hd, h6]
  omega

theorem no_overflow_of_sums (mem : Int → Int) (g : graph) (src dest k_value : Int)
    (hkn : k_value * ((g.length : Int) - 1) < INT_MAX)
    (htr : targets_in_range g) (hnn : nonneg_weights g)
    (hsrc : 1 ≤ src ∧ src ≤ (g.length : Int) - 1) (hsum : sums_below_sentinel g src) :
    no_overflow mem g src dest k_value := by
  intro es v e rest s hr huv
  have hc := reaches_strong mem g src dest k_value hkn htr hnn hsrc hsum hr
  obtain ⟨vs, -, -, -, -, h6⟩ := config_candidate g hnn hsum hc huv
  exact h6

/-! ## The array accesses of a run stay within bounds -/

theorem graph_at_index (g : graph) {v : Int} {e : Int × Int} (hv0 : 0 ≤ v)
    (he : e ∈ graph_at g v) : v < (g.length : Int) := by
  unfold graph_at at he
  by_contra hcon
  rw [List.getD_eq_default g [] (by omega)] at he
  cases he

/-- At a control point that satisfies the safe invariant the accesses of the next step are
within the bounds of the arrays. -/
theorem step_in_bounds_of_safe (g : graph) (htr : targets_in_range g) (hlen : 1 ≤ g.length)
    {c : dijkstra_config} (hc : config_safe g c) : step_in_bounds c := by
  cases c with
  | failed e => trivial
  | returned r s => trivial
  | for_edges v rest s =>
    cases rest with
    | nil => trivial
    | cons e rest =>
      obtain ⟨hsafe, hv0, hsub⟩ := hc
      have he := hsub e (List.mem_cons_self _ _)
      have hur := is_edge_target g htr (⟨hv0, he⟩ : is_edge g v e.1 e.2)
      have hvl := graph_at_index g hv0 he
      have hval := hsafe.heap_valid
      have hsz := size_bound g hsafe hlen
      have hcap := hsafe.cap
      have hin : s.Q.in_bounds e.1 := ⟨by omega, by rw [hcap]; omega⟩
      have hslots := k_heap.slots_in_bounds_of_consistent s.Q hval.index
      refine ⟨hin, ?_⟩
      intro hvis
      refine ⟨⟨hv0, by rw [hcap]; exact hvl⟩, ?_⟩
      split_ifs with h1 h2
      · exact k_heap.insert_in_bounds_of_slots _ e.1 hval.arity_pos hval.size_nonneg hslots hin
          (by show s.Q.current_size < s.Q.capacity; omega)
      · have hpres : s.Q.positions e.1 ≠ -1 :=
          (hsafe.in_heap e.1 (by omega) hur.2).2 ⟨hvis, h1⟩
        exact k_heap.update_in_bounds_of_slots s.Q e.1 _ hval.arity_pos hval.size_nonneg hslots
          (by omega) hin (fun h => absurd h hpres)
          (fun _ => (hval.index.2 e.1 hin.1 hin.2 hpres).1) (fun _ _ => hval.fits hsafe.fit)
  | loop_head s =>
    have hsafe : safe_inv g s := hc
    intro hne
    obtain ⟨Q1, -, -, hsz0, -, hvr, -⟩ := extract_safe g hsafe hne
    have hval := hsafe.heap_valid
    have hsz := size_bound g hsafe hlen
    have hcap := hsafe.cap
    exact ⟨⟨le_refl _, by omega⟩,
      k_heap.deleteKey_in_bounds_of_slots s.Q 0 hval.arity_pos
        (k_heap.slots_in_bounds_of_consistent s.Q hval.index) (by omega) ⟨le_refl _, hsz0⟩
        (hval.fits hsafe.fit),
      ⟨by omega, by rw [hcap]; exact hvr.2⟩⟩

/-- The accesses made before the loop: the constructor touches `positions[0 .. cap-1]`, the
driver sets `dist[1 .. n]` and `dist[src]`, and `insert(src)` stays within bounds. -/
theorem init_in_bounds (mem : Int → Int) (g : graph) (src k_value : Int) (hk : 2 ≤ k_value)
    (hsrc : 1 ≤ src ∧ src ≤ (g.length : Int) - 1) :
    ∃ Q0, k_heap.new mem ((g.length : Int) - 1 + 1) k_value = .ok Q0 ∧
      Q0.capacity = (g.length : Int) ∧
      (∀ v, 1 ≤ v → v ≤ (g.length : Int) - 1 → Q0.in_bounds v) ∧ Q0.in_bounds src ∧
      (Q0.setDistance src 0).insert_in_bounds src := by
  obtain ⟨Q0, e0, hv0, hsz0, hcap0, -, -, hp0, -⟩ :=
    k_heap.new_spec mem ((g.length : Int) - 1 + 1) k_value hk (by omega)
  have hcap : Q0.capacity = (g.length : Int) := by omega
  refine ⟨Q0, e0, hcap, fun v h1 h2 => ⟨by omega, by omega⟩, ⟨by omega, by omega⟩, ?_⟩
  apply k_heap.insert_in_bounds_of_slots (Q0.setDistance src 0) src hv0.arity_pos
    (by show 0 ≤ Q0.current_size; omega) _ ⟨by omega, by show src < Q0.capacity; omega⟩
    (by show Q0.current_size < Q0.capacity; omega)
  intro x hx0 hxN
  have : x < Q0.current_size := hxN
  omega

/-- Every step of a run that never inserts with the distance `INT_MAX`, under a bound on the
arity that keeps the child indices within `int`, stays within the bounds of the arrays. -/
theorem reaches_in_bounds (mem : Int → Int) (g : graph) (src dest k_value : Int)
    (hkn : k_value * ((g.length : Int) - 1) < INT_MAX)
    (hsrc : 1 ≤ src ∧ src ≤ (g.length : Int) - 1) (htr : targets_in_range g)
    (hno : collision_free mem g src dest k_value)
    {es : List dijkstra_event} {c : dijkstra_config}
    (hr : dijkstra_reaches mem g src dest k_value es c) : step_in_bounds c :=
  step_in_bounds_of_safe g htr (by omega)
    (reaches_safe mem g src dest k_value hkn hsrc htr hno hr).1

/-- The run of `dijkstra(wide_graph, 1, 4, INT_MAX)` reaches the second test of the `while`
loop with the vertices 2, 3 and 4 in the heap; the extraction made there runs
`heapify_down` at slot 1, where `child(1, 0)` has wrapped around to `-2147483648`, and
evaluates `key` outside `heap_arr`. -/
theorem wide_graph_out_of_bounds :
    ∃ es s, dijkstra_reaches (fun _ => 0) wide_graph 1 4 2147483647 es (.loop_head s) ∧
      extractions es = 1 ∧ s.Q.isEmpty = false ∧
      (s.Q.moved_state 0).child 1 0 = -2147483648 ∧ ¬ step_in_bounds (.loop_head s) := by
  have h0 := @dijkstra_reaches.init _ _ _ 4 _ _
    (dijkstra_init_ok (fun _ => 0) wide_graph 1 2147483647 (by decide))
  have h5 := (((h0.step).step).step).step.step
  obtain ⟨s, hs, hk, hsz, hkey, hE, hch⟩ : ∃ s : dijkstra_state,
      dijkstra_step wide_graph 4 (dijkstra_step wide_graph 4 (dijkstra_step wide_graph 4
        (dijkstra_step wide_graph 4 (dijkstra_step wide_graph 4 (.loop_head
          ⟨((⟨fun _ => 0, fun _ => -1, fun _ => INT_MAX, (wide_graph.length : Int) - 1 + 1, 0,
            2147483647⟩ : k_heap).setDistance 1 0).insert 1, fun _ => false⟩))))) =
        .loop_head s ∧ s.Q.k = 2147483647 ∧ s.Q.current_size = 3 ∧ s.Q.key 1 < s.Q.key 2 ∧
        s.Q.isEmpty = false ∧ (s.Q.moved_state 0).child 1 0 = -2147483648 :=
    ⟨_, rfl, by decide, by decide, by decide, by decide, by decide⟩
  rw [hs] at h5
  refine ⟨_, s, h5, ?_, hE, hch, ?_⟩
  · decide
  · intro hb
    exact k_heap.deleteKey_root_out_of_bounds s.Q hk hsz hkey (hb hE).2.1

theorem wide_graph_paths {v w : Int} {vs : List Int} (hp : path wide_graph 1 v vs w) :
    (v = 1 ∧ w = 0) ∨ (v = 2 ∧ w = 1) ∨ (v = 3 ∧ w = 2) ∨ (v = 4 ∧ w = 3) := by
  induction hp with
  | nil => exact Or.inl ⟨rfl, rfl⟩
  | @snoc v u c w vs _ he ih =>
    obtain ⟨-, he⟩ := he
    rcases ih with ⟨h1, h2⟩ | ⟨h1, h2⟩ | ⟨h1, h2⟩ | ⟨h1, h2⟩ <;> subst h1 <;>
      simp [graph_at, wide_graph] at he <;> omega

theorem wide_graph_targets : targets_in_range wide_graph := by
  unfold targets_in_range; decide

theorem wide_graph_nonneg : nonneg_weights wide_graph := by
  unfold nonneg_weights; decide

theorem wide_graph_sums : sums_below_sentinel wide_graph 1 := by
  intro v vs w hp _
  have := wide_graph_paths hp
  unfold INT_MAX
  omega

theorem wide_graph_reachable : reachable wide_graph 1 4 :=
  ⟨_, _, path.snoc path.nil (⟨by decide, by decide⟩ : is_edge wide_graph 1 4 3)⟩

/-! ## Termination -/

theorem collision_graph_paths {v w : Int} {vs : List Int}
    (hp : path collision_graph 1 v vs w) :
    (v = 1 ∧ w = 0) ∨ (v = 2 ∧ (w = 0 ∨ w = 2147483647)) ∨
      (v = 3 ∧ (w = 0 ∨ w = 2147483647)) ∨ (v = 4 ∧ w = 0) ∨ (v = 5 ∧ w = 9) := by
  induction hp with
  | nil => exact Or.inl ⟨rfl, rfl⟩
  | @snoc v u c w vs _ he ih =>
    obtain ⟨-, he⟩ := he
    rcases ih with ⟨h1, h2⟩ | ⟨h1, h2⟩ | ⟨h1, h2⟩ | ⟨h1, h2⟩ | ⟨h1, h2⟩ <;> subst h1 <;>
      simp [graph_at, collision_graph] at he <;> omega

theorem dijkstra_run_of_init {mem : Int → Int} {g : graph} {src dest k_value : Int}
    {s : dijkstra_state} (e : dijkstra_init mem g src k_value = .ok s) (fuel : Nat) :
    dijkstra_run fuel mem g src dest k_value = dijkstra_loop g dest fuel s := by
  unfold dijkstra_run
  rw [e]

theorem dijkstra_loop_of_result {mem : Int → Int} {g : graph} {src dest k_value : Int}
    {s : dijkstra_state} (e : dijkstra_init mem g src k_value = .ok s) (fuel : Nat) :
    (dijkstra fuel mem g src dest k_value = none → dijkstra_loop g dest fuel s = none) ∧
    (∀ r, dijkstra fuel mem g src dest k_value = some (.ok r) →
      ∃ sf, dijkstra_loop g dest fuel s = some (.ok (r, sf))) := by
  unfold dijkstra
  rw [dijkstra_run_of_init e]
  cases dijkstra_loop g dest fuel s with
  | none => exact ⟨fun _ => rfl, fun r h => (by cases h)⟩
  | some x =>
    cases x with
    | error e' => exact ⟨fun h => (by cases h), fun r h => (by cases h)⟩
    | ok p =>
      obtain ⟨r', sf⟩ := p
      refine ⟨fun h => (by cases h), fun r h => ⟨sf, ?_⟩⟩
      simp only [Option.some.injEq, Except.ok.injEq] at h
      rw [h]

theorem relax_visited (v : Int) (s : dijkstra_state) (e : Int × Int) :
    (relax v s e).visited = s.visited := by
  rw [relax_by_event]
  cases relax_event v s e with
  | none => rfl
  | some ev => cases ev <;> rfl

theorem relax_fold_visited (v : Int) (rest : List (Int × Int)) :
    ∀ s : dijkstra_state, (rest.foldl (relax v) s).visited = s.visited := by
  induction rest with
  | nil => exact fun s => rfl
  | cons e rest ih =>
    intro s
    rw [List.foldl_cons, ih, relax_visited]

/-- The `while` loop returns from every loop head reached by a run that never inserts with the
distance `INT_MAX`: each iteration extracts a vertex that was not visited. -/
theorem dijkstra_loop_returns (mem : Int → Int) (g : graph) (src dest k_value : Int)
    (hkn : k_value * ((g.length : Int) - 1) < INT_MAX)
    (hsrc : 1 ≤ src ∧ src ≤ (g.length : Int) - 1) (htr : targets_in_range g)
    (hno : collision_free mem g src dest k_value) :
    ∀ (U : Nat) (es : List dijkstra_event) (s : dijkstra_state),
      dijkstra_reaches mem g src dest k_value es (.loop_head s) → unvisited_count g s ≤ U →
      ∃ fuel r sf, dijkstra_loop g dest fuel s = some (.ok (r, sf)) := by
  intro U
  induction U with
  | zero =>
    intro es s hr hU
    have hs : safe_inv g s := (reaches_safe mem g src dest k_value hkn hsrc htr hno hr).1
    cases hE : s.Q.isEmpty with
    | true => exact ⟨1, -1, s, by simp [dijkstra_loop, hE]⟩
    | false =>
      obtain ⟨Q1, -, -, -, -, hvr, hvis, -⟩ := extract_safe g hs hE
      have := unvisited_count_extract g s
        ⟨Q1, Function.update s.visited (s.Q.heap_arr 0) true⟩ (s.Q.heap_arr 0) hvr hvis rfl
      omega
  | succ U ih =>
    intro es s hr hU
    have hs : safe_inv g s := (reaches_safe mem g src dest k_value hkn hsrc htr hno hr).1
    cases hE : s.Q.isEmpty with
    | true => exact ⟨1, -1, s, by simp [dijkstra_loop, hE]⟩
    | false =>
      obtain ⟨Q1, hg, hd, -, -, hvr, hvis, -⟩ := extract_safe g hs hE
      by_cases hvd : s.Q.heap_arr 0 = dest
      · exact ⟨1, Q1.getDistance (s.Q.heap_arr 0),
          ⟨Q1, Function.update s.visited (s.Q.heap_arr 0) true⟩,
          by simp [dijkstra_loop, hE, hg, hd, hvd]⟩
      · have hlt := unvisited_count_extract g s
          ⟨Q1, Function.update s.visited (s.Q.heap_arr 0) true⟩ (s.Q.heap_arr 0) hvr hvis rfl
        have hstep := dijkstra_reaches.step hr
        have e1 : dijkstra_step g dest (.loop_head s) =
            .for_edges (s.Q.heap_arr 0) (graph_at g (s.Q.heap_arr 0))
              ⟨Q1, Function.update s.visited (s.Q.heap_arr 0) true⟩ := by
          simp [dijkstra_step, hE, hg, hd, hvd]
        rw [e1] at hstep
        obtain ⟨es2, hr2, -⟩ := fold_reaches mem g src dest k_value _ _ _ _ hstep
        have hcnt := unvisited_count_congr g (relax_fold_visited (s.Q.heap_arr 0)
          (graph_at g (s.Q.heap_arr 0)) ⟨Q1, Function.update s.visited (s.Q.heap_arr 0) true⟩)
        obtain ⟨fuel, r, sf, h⟩ := ih es2 _ hr2 (by omega)
        refine ⟨fuel + 1, r, sf, ?_⟩
        conv_lhs => unfold dijkstra_loop
        simp [hE, hg, hd, hvd, h]

/-- The run returns: the result is reached by the steps, and a budget of one more than the
number of extractions made is enough for it. -/
theorem dijkstra_run_terminates (mem : Int → Int) (g : graph) (src dest k_value : Int)
    (hk : 2 ≤ k_value) (hkn : k_value * ((g.length : Int) - 1) < INT_MAX)
    (hsrc : 1 ≤ src ∧ src ≤ (g.length : Int) - 1) (htr : targets_in_range g)
    (hno : collision_free mem g src dest k_value) :
    ∃ r sf es, dijkstra_reaches mem g src dest k_value es (.returned r sf) ∧
      ∀ f, extractions es + 1 ≤ f →
        dijkstra_run f mem g src dest k_value = some (.ok (r, sf)) := by
  have e := dijkstra_init_ok mem g src k_value hk
  have h0 := @dijkstra_reaches.init _ _ _ dest _ _ e
  obtain ⟨fuel, r, sf, h⟩ :=
    dijkstra_loop_returns mem g src dest k_value hkn hsrc htr hno _ _ _ h0 (le_refl _)
  obtain ⟨es, hr, -, hf⟩ := loop_reaches mem g src dest k_value fuel _ _ r sf h0 h
  refine ⟨r, sf, es, hr, ?_⟩
  intro f hf'
  rw [dijkstra_run_of_init e]
  apply hf
  have : extractions [dijkstra_event.insert src 0] = 0 := rfl
  omega

/-- C15 fails in its bound of `n` extractions: `collision_graph` has 5 vertices, edge targets
in `1..5`, non-negative weights and no path sum above `INT_MAX`, but the edges of weight
`INT_MAX` make the vertices 2 and 3 enter the heap with the distance `INT_MAX`, so that both
are inserted a second time; the run from 1 to 5 with `k = 2` returns 9 only at the seventh
test of the `while` loop, after more than 5 extractions.  It also fails for an arity whose
child indices leave the range of `int`: on `wide_graph` (4 vertices, weights 1, 2, 3) with
`k = INT_MAX` the second extraction runs `heapify_down` at slot 1, where `child(1, 0)` has
wrapped around to `-2147483648`, and evaluates `key` outside `heap_arr`. -/
theorem dijkstra_extraction_bound_counterexample :
    (targets_in_range collision_graph ∧ nonneg_weights collision_graph ∧
      (∀ v vs w, path collision_graph 1 v vs w → 0 ≤ w ∧ w ≤ INT_MAX) ∧
      dijkstra 6 (fun _ => 0) collision_graph 1 5 2 = none ∧
      dijkstra 7 (fun _ => 0) collision_graph 1 5 2 = some (.ok 9) ∧
      ∃ es r sf, dijkstra_reaches (fun _ => 0) collision_graph 1 5 2 es (.returned r sf) ∧
        collision_graph.length - 1 < extractions es) ∧
    (targets_in_range wide_graph ∧ nonneg_weights wide_graph ∧
      ∃ es s, dijkstra_reaches (fun _ => 0) wide_graph 1 4 2147483647 es (.loop_head s) ∧
        s.Q.isEmpty = false ∧ (s.Q.moved_state 0).child 1 0 = -2147483648 ∧
        ¬ step_in_bounds (.loop_head s)) := by
  have h6 : dijkstra 6 (fun _ => 0) collision_graph 1 5 2 = none := by decide!
  have h7 : dijkstra 7 (fun _ => 0) collision_graph 1 5 2 = some (.ok 9) := by decide!
  refine ⟨⟨by unfold targets_in_range; decide, by unfold nonneg_weights; decide, ?_, h6, h7, ?_⟩,
    by unfold targets_in_range; decide, by unfold nonneg_weights; decide, ?_⟩
  · intro v vs w hp
    have := collision_graph_paths hp
    unfold INT_MAX
    omega
  · obtain ⟨s0, e⟩ : ∃ s0, dijkstra_init (fun _ => 0) collision_graph 1 2 = .ok s0 :=
      ⟨_, dijkstra_init_ok _ _ _ _ (by decide)⟩
    have h0 := @dijkstra_reaches.init _ _ _ 5 _ _ e
    obtain ⟨sf, hl⟩ := (dijkstra_loop_of_result e 7).2 9 h7
    obtain ⟨es, hr, -, hf⟩ := loop_reaches _ _ _ _ _ 7 _ _ 9 sf h0 hl
    refine ⟨es, 9, sf, hr, ?_⟩
    by_contra hcon
    have hlen : collision_graph.length = 6 := rfl
    have hz : extractions [dijkstra_event.insert (1 : Int) 0] = 0 := rfl
    have := hf 6 (by omega)
    rw [(dijkstra_loop_of_result e 6).1 h6] at this
    cases this
  · obtain ⟨es, s, h1, -, h2, h3, h4⟩ := wide_graph_out_of_bounds
    exact ⟨es, s, h1, h2, h3, h4⟩

/-- C15, amended: on every graph on the vertices `1..n` with edge targets in `1..n` and
arbitrary integer weights, for every source in `1..n`, every destination and every `k ≥ 2`
whose child indices fit into an `int` (`k * n < INT_MAX`), a run of `dijkstra` in which no
addition `dv + dvu` overflows and no vertex is inserted with the distance `INT_MAX` makes at
most `n` extractions, every step of it stays within the bounds of the arrays, and it
returns: `n + 1` loop tests are enough, and the steps of the run reach that return.  The
recursion of `heapify_up` goes from a slot `i > 0` to `parent(i)` with `0 ≤ parent(i) < i`
and ends at slot 0; in a heap with `k * (current_size - 1) < INT_MAX` the recursion of
`heapify_down` goes from a non-leaf slot `i < current_size` to a child `c` with
`i < c < current_size` and ends at a leaf. -/
theorem dijkstra_terminates (mem : Int → Int) (g : graph) (src dest k_value : Int)
    (hk : 2 ≤ k_value) (hkn : k_value * ((g.length : Int) - 1) < INT_MAX)
    (hsrc : 1 ≤ src ∧ src ≤ (g.length : Int) - 1)
    (htr : targets_in_range g) (hnov : no_overflow mem g src dest k_value)
    (hno : collision_free mem g src dest k_value) :
    (∀ es c, dijkstra_reaches mem g src dest k_value es c →
      extractions es ≤ g.length - 1 ∧ step_in_bounds c) ∧
    (∃ r, (∀ fuel', g.length ≤ fuel' →
        dijkstra fuel' mem g src dest k_value = some (.ok r)) ∧
      ∃ es sf, dijkstra_reaches mem g src dest k_value es (.returned r sf)) ∧
    (∀ (h : k_heap) (i : Int), 2 ≤ h.k → 0 < i →
      (0 ≤ h.parent i ∧ h.parent i < i) ∧
      h.heapify_up i = if h.key (h.parent i) > h.key i then
        (h.swap i (h.parent i)).heapify_up (h.parent i) else h) ∧
    (∀ h : k_heap, h.heapify_up 0 = h) ∧
    (∀ (h : k_heap) (i : Int), 2 ≤ h.k → 0 ≤ i → i < h.current_size →
      h.k * (h.current_size - 1) < INT_MAX → h.child i 0 < h.current_size →
      (i < h.smallest_child i ∧ h.smallest_child i < h.current_size) ∧
      h.heapify_down i = if h.key (h.smallest_child i) < h.key i then
        (h.swap i (h.smallest_child i)).heapify_down (h.smallest_child i) else h) ∧
    (∀ (h : k_heap) (i : Int), 2 ≤ h.k → 0 ≤ i → i < h.current_size →
      h.k * (h.current_size - 1) < INT_MAX → h.current_size ≤ h.child i 0 →
      h.heapify_down i = h) := by
  have _ := hnov
  have hbound : ∀ es c, dijkstra_reaches mem g src dest k_value es c →
      extractions es ≤ g.length - 1 ∧ step_in_bounds c := by
    intro es c hr'
    obtain ⟨hc, s, -, -, h, -⟩ := reaches_safe mem g src dest k_value hkn hsrc htr hno hr'
    exact ⟨by omega, step_in_bounds_of_safe g htr (by omega) hc⟩
  obtain ⟨r, sf, es, hr, hf⟩ :=
    dijkstra_run_terminates mem g src dest k_value hk hkn hsrc htr hno
  refine ⟨hbound, ⟨r, ?_, es, sf, hr⟩, ?_, ?_, ?_, ?_⟩
  · intro fuel' h
    have := (hbound es _ hr).1
    exact dijkstra_of_run (hf fuel' (by omega))
  · intro h i hk' hi
    refine ⟨⟨k_heap.parent_nonneg h (by omega) hi, k_heap.parent_lt h (by omega) hi⟩, ?_⟩
    rw [k_heap.heapify_up_unfold h i (by omega) (by omega)]
    have : ¬ k_heap.root i = true := by
      simp [k_heap.root]; omega
    rw [if_neg this]
  · intro h
    exact k_heap.heapify_up_fuel_root _ h
  · intro h i hk' hi hiN hfit hne
    have hfi := k_heap.slot_fits h (by omega) (by omega : i ≤ h.current_size - 1) hfit
    obtain ⟨s1, s2, -⟩ := k_heap.smallest_child_range h i (by omega) hi hfi hfit hne
    refine ⟨⟨s1, s2⟩, ?_⟩
    rw [k_heap.heapify_down_unfold h i (by omega) hi hfi hfit]
    have : ¬ h.is_leaf i = true := by
      simp [k_heap.is_leaf]; omega
    rw [if_neg this]
  · intro h i hk' hi hiN hfit hl
    have hfi := k_heap.slot_fits h (by omega) (by omega : i ≤ h.current_size - 1) hfit
    rw [k_heap.heapify_down_unfold h i (by omega) hi hfi hfit]
    have : h.is_leaf i = true := by
      simp [k_heap.is_leaf]; omega
    rw [if_pos this]

/-- Witness for C15: the sample graph, from vertex 1 to vertex 4 with a binary heap; its run
never overflows, never inserts with the distance `INT_MAX` and makes at most 4 extractions. -/
theorem dijkstra_terminates_witness :
    ((2 : Int) ≤ 2 ∧ (2 : Int) * ((sample_graph.length : Int) - 1) < INT_MAX ∧
      ((1 : Int) ≤ 1 ∧ (1 : Int) ≤ (sample_graph.length : Int) - 1) ∧
      targets_in_range sample_graph ∧ no_overflow (fun _ => 0) sample_graph 1 4 2 ∧
      collision_free (fun _ => 0) sample_graph 1 4 2) ∧
    (∀ es c, dijkstra_reaches (fun _ => 0) sample_graph 1 4 2 es c →
      extractions es ≤ sample_graph.length - 1 ∧ step_in_bounds c) ∧
    ∃ r, (∀ fuel', sample_graph.length ≤ fuel' →
        dijkstra fuel' (fun _ => 0) sample_graph 1 4 2 = some (.ok r)) ∧
      ∃ es sf, dijkstra_reaches (fun _ => 0) sample_graph 1 4 2 es (.returned r sf) :=
  ⟨⟨by decide, by decide, ⟨by decide, by decide⟩, sample_graph_targets,
      no_overflow_of_sums (fun _ => 0) sample_graph 1 4 2 (by decide) sample_graph_targets
        sample_graph_nonneg ⟨by decide, by decide⟩ sample_graph_sums,
      collision_free_of_sums (fun _ => 0) sample_graph 1 4 2 (by decide) sample_graph_targets
        sample_graph_nonneg ⟨by decide, by decide⟩ sample_graph_sums⟩,
    (dijkstra_terminates (fun _ => 0) sample_graph 1 4 2 (by decide) (by decide)
      ⟨by decide, by decide⟩ sample_graph_targets
      (no_overflow_of_sums (fun _ => 0) sample_graph 1 4 2 (by decide) sample_graph_targets
        sample_graph_nonneg ⟨by decide, by decide⟩ sample_graph_sums)
      (collision_free_of_sums (fun _ => 0) sample_graph 1 4 2 (by decide) sample_graph_targets
        sample_graph_nonneg ⟨by decide, by decide⟩ sample_graph_sums)).1,
    (dijkstra_terminates (fun _ => 0) sample_graph 1 4 2 (by decide) (by decide)
      ⟨by decide, by decide⟩ sample_graph_targets
      (no_overflow_of_sums (fun _ => 0) sample_graph 1 4 2 (by decide) sample_graph_targets
        sample_graph_nonneg ⟨by decide, by decide⟩ sample_graph_sums)
      (collision_free_of_sums (fun _ => 0) sample_graph 1 4 2 (by decide) sample_graph_targets
        sample_graph_nonneg ⟨by decide, by decide⟩ sample_graph_sums)).2.1⟩

/-! ## No vertex moves backward -/

theorem reaches_iterate (mem : Int → Int) (g : graph) (src dest k_value : Int) (n : Nat) :
    ∀ {es : List dijkstra_event} {c : dijkstra_config},
      dijkstra_reaches mem g src dest k_value es c →
      ∃ es', dijkstra_reaches mem g src dest k_value es'
        (Nat.iterate (dijkstra_step g dest) n c) := by
  induction n with
  | zero => exact fun h => ⟨_, h⟩
  | succ n ih => exact fun h => ih h.step

/-- A round of the `for` loop that inserts into a heap whose `capacity` slots are all
occupied writes `heap_arr[current_size]` outside the array. -/
theorem relax_out_of_bounds {v : Int} {s : dijkstra_state} {e : Int × Int}
    (hvis : s.visited e.1 = false) (hd : s.Q.getDistance e.1 = INT_MAX)
    (hfull : s.Q.capacity ≤ s.Q.current_size) : ¬ relax_in_bounds v s e := by
  intro hb
  have h1 := (hb.2 hvis).2
  rw [if_pos hd] at h1
  have h2 : s.Q.current_size < s.Q.capacity := h1.1.2
  omega

theorem run_config_reached (g : graph) (src dest k_value : Int) (hk : 2 ≤ k_value) (n : Nat) :
    ∃ es, dijkstra_reaches (fun _ => 0) g src dest k_value es
      (run_config g src dest k_value n) :=
  reaches_iterate _ _ _ _ _ n (dijkstra_reaches.init (dijkstra_init_ok _ g src k_value hk))

theorem run_config_loop_head (g : graph) (src dest k_value : Int) (n : Nat)
    (h : (match run_config g src dest k_value n with
      | .loop_head _ => true
      | _ => false) = true) :
    run_config g src dest k_value n = .loop_head (run_state g src dest k_value n) := by
  unfold run_state
  cases hc : run_config g src dest k_value n with
  | loop_head s => rfl
  | for_edges v rest s => rw [hc] at h; cases h
  | returned r s => rw [hc] at h; cases h
  | failed e => rw [hc] at h; cases h

theorem run_config_for_edges (g : graph) (src dest k_value : Int) (n : Nat) (v : Int)
    (rest : List (Int × Int))
    (h : (match run_config g src dest k_value n with
      | .for_edges v1 rest1 _ => decide (v1 = v ∧ rest1 = rest)
      | _ => false) = true) :
    run_config g src dest k_value n = .for_edges v rest (run_state g src dest k_value n) := by
  unfold run_state
  cases hc : run_config g src dest k_value n with
  | loop_head s => rw [hc] at h; cases h
  | for_edges v1 rest1 s =>
    rw [hc] at h
    simp only [decide_eq_true_eq] at h
    rw [h.1, h.2]
    rfl
  | returned r s => rw [hc] at h; cases h
  | failed e => rw [hc] at h; cases h

theorem state_getD (c : dijkstra_config) (d : dijkstra_state) (h : (c.state).isSome = true) :
    c.state = some ((c.state).getD d) := by
  cases hc : c.state with
  | none => rw [hc] at h; cases h
  | some s => rfl

/-- Counterexample for C14 as stated, for every run with a valid source and edge targets in
`1..n`.  In the run of `dijkstra(duplicate_graph, 1, 5, 2)` the vertices 3 and 4 enter the
heap with the distance `INT_MAX`, pass the test `du == INT_MAX` again at the edges of vertex 2
and are inserted a second time.  After the extraction of vertex 3 its second copy is still in
a slot while `positions[3]` is `-1`: at the fourth test of the `while` loop, 11 steps into
the run, vertex 3 is visited, at distance `INT_MAX` and not in the heap.  The next step
extracts vertex 4, and `deleteKey(0)` moves the copy of vertex 3 to slot 0 and writes
`positions[3] = 0`: vertex 3 is in the heap again, without any `insert`.  In the run of
`dijkstra(overfull_graph, 1, 7, 2)` the same collisions fill all 7 slots of the heap, and
the next `insert`, 17 steps into the run, writes `heap_arr[7]` outside the array.  In the
run of `dijkstra(wide_graph, 1, 4, INT_MAX)` the second extraction evaluates `key` at the
index `child(1, 0) = -2147483648`. -/
theorem dijkstra_backward_transition_counterexample :
    (((1 : Int) ≤ 1 ∧ (1 : Int) ≤ (duplicate_graph.length : Int) - 1) ∧
      targets_in_range duplicate_graph ∧
      ∃ es s', dijkstra_reaches (fun _ => 0) duplicate_graph 1 5 2 es
          (.loop_head (run_state duplicate_graph 1 5 2 11)) ∧
        (dijkstra_step duplicate_graph 5
          (.loop_head (run_state duplicate_graph 1 5 2 11))).state = some s' ∧
        (run_state duplicate_graph 1 5 2 11).visited 3 = true ∧
        unseen (run_state duplicate_graph 1 5 2 11) 3 ∧
        step_event (.loop_head (run_state duplicate_graph 1 5 2 11)) = some (.extract 4) ∧
        ¬ unseen s' 3 ∧ s'.Q.isInHeap 3 = true ∧ s'.Q.heap_arr 0 = 3) ∧
    (((1 : Int) ≤ 1 ∧ (1 : Int) ≤ (overfull_graph.length : Int) - 1) ∧
      targets_in_range overfull_graph ∧
      ∃ es, dijkstra_reaches (fun _ => 0) overfull_graph 1 7 2 es
          (.for_edges 3 [(6, 2147483647)] (run_state overfull_graph 1 7 2 17)) ∧
        relax_event 3 (run_state overfull_graph 1 7 2 17) (6, 2147483647) =
          some (.insert 6 2147483647) ∧
        (run_state overfull_graph 1 7 2 17).Q.current_size = 7 ∧
        (run_state overfull_graph 1 7 2 17).Q.capacity = 7 ∧
        ¬ step_in_bounds
          (.for_edges 3 [(6, 2147483647)] (run_state overfull_graph 1 7 2 17))) ∧
    (((1 : Int) ≤ 1 ∧ (1 : Int) ≤ (wide_graph.length : Int) - 1) ∧
      targets_in_range wide_graph ∧
      ∃ es s, dijkstra_reaches (fun _ => 0) wide_graph 1 4 2147483647 es (.loop_head s) ∧
        s.Q.isEmpty = false ∧ (s.Q.moved_state 0).child 1 0 = -2147483648 ∧
        ¬ step_in_bounds (.loop_head s)) := by
  refine ⟨⟨⟨by decide, by decide⟩, by unfold targets_in_range; decide, ?_⟩,
    ⟨⟨by decide, by decide⟩, by unfold targets_in_range; decide, ?_⟩,
    ⟨by decide, by decide⟩, by unfold targets_in_range; decide, ?_⟩
  · obtain ⟨es, hr⟩ := run_config_reached duplicate_graph 1 5 2 (by decide) 11
    rw [run_config_loop_head duplicate_graph 1 5 2 11 (by decide!)] at hr
    refine ⟨es, _, hr, state_getD _ sample_start (by decide!), by decide!,
      ⟨by decide!, by decide!⟩, by decide!, ?_, by decide!, by decide!⟩
    intro hu
    exact absurd hu.2 (by decide!)
  · obtain ⟨es, hr⟩ := run_config_reached overfull_graph 1 7 2 (by decide) 17
    rw [run_config_for_edges overfull_graph 1 7 2 17 3 [(6, 2147483647)] (by decide!)] at hr
    exact ⟨es, hr, by decide!, by decide!, by decide!,
      relax_out_of_bounds (by decide!) (by decide!) (by decide!)⟩
  · obtain ⟨es, s, h1, -, h2, h3, h4⟩ := wide_graph_out_of_bounds
    exact ⟨es, s, h1, h2, h3, h4⟩

/-- C14, amended: in a run of `dijkstra` with a source in `1..n`, edge targets in `1..n`, an
arity whose child indices fit into an `int` (`k * n < INT_MAX`) and in which no vertex is
inserted with the distance `INT_MAX`, every step stays within the bounds of the arrays and
no vertex moves backward.  With `s` the state at a reached control point, `s'` the state
after the next step and the heap call made by that step: a vertex that has been extracted is
marked visited, stays visited, is not inserted or updated again and keeps its distance; a
step changes a distance only to a strictly smaller value; `update` is called only for an
unvisited vertex in the heap, with a strictly smaller distance; `insert` is called only for
an unvisited vertex that is unseen (distance `INT_MAX`, not in the heap) and puts it into
the heap; an extracted vertex is not unseen; and a vertex of `0..n` that is unseen stays
unseen unless the step inserts it. -/
theorem dijkstra_no_backward_transition (mem : Int → Int) (g : graph) (src dest k_value : Int)
    (hkn : k_value * ((g.length : Int) - 1) < INT_MAX)
    (hsrc : 1 ≤ src ∧ src ≤ (g.length : Int) - 1) (htr : targets_in_range g)
    (hno : collision_free mem g src dest k_value)
    (es : List dijkstra_event) (c : dijkstra_config)
    (hr : dijkstra_reaches mem g src dest k_value es c) :
    step_in_bounds c ∧
    ∃ s s', c.state = some s ∧ (dijkstra_step g dest c).state = some s' ∧
      (∀ x, (dijkstra_event.extract x ∈ es ∨ s.visited x = true) →
        s.visited x = true ∧ s'.visited x = true ∧
        s'.Q.getDistance x = s.Q.getDistance x ∧
        ∀ d, step_event c ≠ some (.insert x d) ∧ step_event c ≠ some (.update x d)) ∧
      (∀ x, step_event c = some (.extract x) → s'.visited x = true ∧ ¬ unseen s x) ∧
      (∀ x, s'.Q.getDistance x = s.Q.getDistance x ∨ s'.Q.getDistance x < s.Q.getDistance x) ∧
      (∀ x d, step_event c = some (.update x d) →
        s.visited x = false ∧ s.Q.isInHeap x = true ∧ d < s.Q.getDistance x ∧
        s'.Q.getDistance x = d) ∧
      (∀ x d, step_event c = some (.insert x d) →
        s.visited x = false ∧ unseen s x ∧ s'.Q.getDistance x = d ∧
        s'.Q.isInHeap x = true) ∧
      (∀ x, 0 ≤ x → x < (g.length : Int) → unseen s x →
        unseen s' x ∨ ∃ d, step_event c = some (.insert x d)) := by
  obtain ⟨hc, s, hcs, hs, -, -, -, hext0⟩ :=
    reaches_safe mem g src dest k_value hkn hsrc htr hno hr
  obtain ⟨-, s1, s', hcs1, hs', -, hsafe', hext, hins, hupd, hnone⟩ :=
    step_safe g dest htr hc (hno es c hr)
  rw [hcs] at hcs1
  injection hcs1 with hcs1
  subst hcs1
  obtain ⟨hmono, hdch, -⟩ := @step_safe_frame c s s'
    (fun x h => ⟨(hext x h).2.2.2.1, (hext x h).2.2.2.2.2.2.1⟩)
    (fun u d h => (hins u d h).2.2.2.2) (fun u d h => (hupd u d h).2.2.2.2) hnone
  refine ⟨step_in_bounds_of_safe g htr (by omega) hc, s, s', hcs, hs', ?_, ?_, ?_, ?_, ?_, ?_⟩
  · intro x hx
    have hv : s.visited x = true := by
      rcases hx with h | h
      · exact hext0 x h
      · exact h
    refine ⟨hv, hmono x hv, ?_, ?_⟩
    · rcases hdch x with h | h
      · exact h
      · rw [hv] at h
        exact absurd h.2.1 (by simp)
    · intro d
      constructor
      · intro h
        have := (hins x d h).2.2.2.2.1
        rw [hv] at this
        cases this
      · intro h
        have := (hupd x d h).2.2.2.2.1
        rw [hv] at this
        cases this
  · intro x h
    obtain ⟨-, hin, -, hvis', -⟩ := hext x h
    refine ⟨by rw [hvis']; exact (visited_update _ _ _).2 (Or.inl rfl), ?_⟩
    intro hu
    rw [hu.2] at hin
    cases hin
  · intro x
    rcases hdch x with h | h
    · exact Or.inl h
    · exact Or.inr h.1
  · intro x d h
    obtain ⟨-, hin, -, -, hv, hlt, hd', -⟩ := hupd x d h
    exact ⟨hv, hin, hlt, by show s'.Q.dist x = d; rw [hd', Function.update_same]⟩
  · intro x d h
    obtain ⟨-, hin, hin', -, hv, hmax, -, hd', -⟩ := hins x d h
    exact ⟨hv, ⟨hmax, hin⟩, by show s'.Q.dist x = d; rw [hd', Function.update_same], hin'⟩
  · intro x hx0 hxl hu
    rcases hdch x with h | h
    · left
      have hd : s'.Q.dist x = INT_MAX := by rw [h]; exact hu.1
      refine ⟨hd, (k_heap.isInHeap_false_iff _ _).2 ?_⟩
      by_contra hcon
      exact ((hsafe'.in_heap x hx0 hxl).1 hcon).2 hd
    · obtain ⟨-, -, d, h | h⟩ := h
      · exact Or.inr ⟨d, h⟩
      · have := (hupd x d h).2.1
        rw [hu.2] at this
        cases this

/-- Witness for C14: the first round of the `for` loop in the run on the sample graph from
vertex 1 to vertex 4 with a binary heap, which inserts vertex 2 with the distance 1. -/
theorem dijkstra_no_backward_transition_witness :
    ((2 : Int) * ((sample_graph.length : Int) - 1) < INT_MAX ∧
      ((1 : Int) ≤ 1 ∧ (1 : Int) ≤ (sample_graph.length : Int) - 1) ∧
      targets_in_range sample_graph ∧ collision_free (fun _ => 0) sample_graph 1 4 2 ∧
      dijkstra_reaches (fun _ => 0) sample_graph 1 4 2
        ([.insert 1 0] ++ (step_event (.loop_head sample_start)).toList)
        (dijkstra_step sample_graph 4 (.loop_head sample_start)) ∧
      step_event (dijkstra_step sample_graph 4 (.loop_head sample_start)) =
        some (.insert 2 1)) ∧
    step_in_bounds (dijkstra_step sample_graph 4 (.loop_head sample_start)) ∧
    ∃ s s', (dijkstra_step sample_graph 4 (.loop_head sample_start)).state = some s ∧
      (dijkstra_step sample_graph 4
        (dijkstra_step sample_graph 4 (.loop_head sample_start))).state = some s' ∧
      (∀ x, (dijkstra_event.extract x ∈
            [dijkstra_event.insert 1 0] ++ (step_event (.loop_head sample_start)).toList ∨
          s.visited x = true) →
        s.visited x = true ∧ s'.visited x = true ∧
        s'.Q.getDistance x = s.Q.getDistance x ∧
        ∀ d, step_event (dijkstra_step sample_graph 4 (.loop_head sample_start)) ≠
            some (.insert x d) ∧
          step_event (dijkstra_step sample_graph 4 (.loop_head sample_start)) ≠
            some (.update x d)) ∧
      (∀ x, step_event (dijkstra_step sample_graph 4 (.loop_head sample_start)) =
          some (.extract x) → s'.visited x = true ∧ ¬ unseen s x) ∧
      (∀ x, s'.Q.getDistance x = s.Q.getDistance x ∨ s'.Q.getDistance x < s.Q.getDistance x) ∧
      (∀ x d, step_event (dijkstra_step sample_graph 4 (.loop_head sample_start)) =
          some (.update x d) →
        s.visited x = false ∧ s.Q.isInHeap x = true ∧ d < s.Q.getDistance x ∧
        s'.Q.getDistance x = d) ∧
      (∀ x d, step_event (dijkstra_step sample_graph 4 (.loop_head sample_start)) =
          some (.insert x d) →
        s.visited x = false ∧ unseen s x ∧ s'.Q.getDistance x = d ∧
        s'.Q.isInHeap x = true) ∧
      (∀ x, 0 ≤ x → x < (sample_graph.length : Int) → unseen s x →
        unseen s' x ∨
          ∃ d, step_event (dijkstra_step sample_graph 4 (.loop_head sample_start)) =
            some (.insert x d)) :=
  ⟨⟨by decide, ⟨by decide, by decide⟩, sample_graph_targets,
      collision_free_of_sums (fun _ => 0) sample_graph 1 4 2 (by decide) sample_graph_targets
        sample_graph_nonneg ⟨by decide, by decide⟩ sample_graph_sums,
      (sample_start_reached 4).step, by decide⟩,
    dijkstra_no_backward_transition (fun _ => 0) sample_graph 1 4 2 (by decide)
      ⟨by decide, by decide⟩ sample_graph_targets
      (collision_free_of_sums (fun _ => 0) sample_graph 1 4 2 (by decide) sample_graph_targets
        sample_graph_nonneg ⟨by decide, by decide⟩ sample_graph_sums) _ _
      (sample_start_reached 4).step⟩

/-! ## The heap's preconditions along a run -/

/-- Counterexample for C19 as stated, for every `k ≥ 2`: `wide_graph` has 4 vertices, edge
targets in `1..4`, the non-negative weights 1, 2, 3 and path sums of at most 3, but in the
run of `dijkstra(wide_graph, 1, 4, INT_MAX)` the second extraction runs `heapify_down` at
slot 1 of a heap of three vertices, where `child(1, 0)` has wrapped around to `-2147483648`,
and evaluates `key` at that index of `heap_arr`. -/
theorem dijkstra_heap_preconditions_counterexample :
    ((2 : Int) ≤ 2147483647 ∧ targets_in_range wide_graph ∧ nonneg_weights wide_graph ∧
      sums_below_sentinel wide_graph 1 ∧
      ((1 : Int) ≤ 1 ∧ (1 : Int) ≤ (wide_graph.length : Int) - 1)) ∧
    ∃ es s, dijkstra_reaches (fun _ => 0) wide_graph 1 4 2147483647 es (.loop_head s) ∧
      s.Q.isEmpty = false ∧ (s.Q.moved_state 0).child 1 0 = -2147483648 ∧
      ¬ step_in_bounds (.loop_head s) := by
  refine ⟨⟨by decide, wide_graph_targets, wide_graph_nonneg, wide_graph_sums,
    ⟨by decide, by decide⟩⟩, ?_⟩
  obtain ⟨es, s, h1, -, h2, h3, h4⟩ := wide_graph_out_of_bounds
  exact ⟨es, s, h1, h2, h3, h4⟩

/-- C19, amended: on a graph on the vertices `1..n` with edge targets in `1..n` and
non-negative weights whose path sums stay below `INT_MAX`, from a source in `1..n` and with
an arity `k ≥ 2` whose child indices fit into an `int` (`k * n < INT_MAX`), every control
point reached by `dijkstra` has a state, and so has its successor (no exception is thrown);
the heap is valid with `current_size ≤ n < capacity = n + 1`; no vertex has been inserted
twice; the step inserts only a vertex that is not in the heap and was never inserted,
updates only a vertex that is in the heap and only with a strictly smaller distance, and
calls `getMin`/`deleteMin` only on a non-empty heap; and every array access of the step, as
of the initialisation, is within bounds. -/
theorem dijkstra_meets_heap_preconditions (mem : Int → Int) (g : graph)
    (src dest k_value : Int) (hk : 2 ≤ k_value)
    (hkn : k_value * ((g.length : Int) - 1) < INT_MAX) (htr : targets_in_range g)
    (hnn : nonneg_weights g) (hsum : sums_below_sentinel g src)
    (hsrc : 1 ≤ src ∧ src ≤ (g.length : Int) - 1)
    (es : List dijkstra_event) (c : dijkstra_config)
    (hr : dijkstra_reaches mem g src dest k_value es c) :
    (∃ s s', c.state = some s ∧ (dijkstra_step g dest c).state = some s' ∧
      s.Q.valid ∧ s.Q.capacity = (g.length : Int) ∧
      s.Q.size ≤ (g.length : Int) - 1 ∧ s.Q.size < s.Q.capacity ∧
      (inserted es).Nodup ∧
      (∀ u d, step_event c = some (.insert u d) →
        s.Q.isInHeap u = false ∧ u ∉ inserted es ∧ (1 ≤ u ∧ u ≤ (g.length : Int) - 1) ∧
        s'.Q.size = s.Q.size + 1) ∧
      (∀ u d, step_event c = some (.update u d) →
        s.Q.isInHeap u = true ∧ d < s.Q.getDistance u ∧ s'.Q.getDistance u = d) ∧
      (∀ x, step_event c = some (.extract x) →
        s.Q.isEmpty = false ∧ s.Q.getMin = .ok x ∧ ∃ Q1, s.Q.deleteMin = .ok Q1) ∧
      step_in_bounds c) ∧
    ∃ Q0, k_heap.new mem ((g.length : Int) - 1 + 1) k_value = .ok Q0 ∧
      Q0.capacity = (g.length : Int) ∧
      (∀ v, 1 ≤ v → v ≤ (g.length : Int) - 1 → Q0.in_bounds v) ∧ Q0.in_bounds src ∧
      (Q0.setDistance src 0).insert_in_bounds src := by
  refine ⟨?_, init_in_bounds mem g src k_value hk hsrc⟩
  have hno := collision_free_of_sums mem g src dest k_value hkn htr hnn hsrc hsum
  have hlen : 1 ≤ g.length := by omega
  obtain ⟨hc, s, hcs, hsafe, -, hnd, hdist, -⟩ :=
    reaches_safe mem g src dest k_value hkn hsrc htr hno hr
  obtain ⟨-, s1, s', hcs1, hs', -, -, hext, hins, hupd, -⟩ :=
    step_safe g dest htr hc (hno es c hr)
  rw [hcs] at hcs1
  injection hcs1 with hcs1
  subst hcs1
  have hsz := size_bound g hsafe hlen
  have hcap := hsafe.cap
  refine ⟨s, s', hcs, hs', hsafe.heap_valid, hcap, hsz, by unfold k_heap.size; omega, hnd, ?_,
    ?_, ?_, step_in_bounds_of_safe g htr hlen hc⟩
  · intro u d hev
    obtain ⟨a, b, -, d', -, hmax, -⟩ := hins u d hev
    refine ⟨b, ?_, ⟨a.1, by omega⟩, d'⟩
    intro hmem
    exact (hdist u).1 hmem hmax
  · intro u d hev
    obtain ⟨-, hin, -, -, -, hlt, hd', -⟩ := hupd u d hev
    exact ⟨hin, hlt, by show s'.Q.dist u = d; rw [hd', Function.update_same]⟩
  · intro x hev
    obtain ⟨-, -, -, -, -, -, -, hE, hg, hd⟩ := hext x hev
    exact ⟨hE, hg, hd⟩

/-- Witness for C19: the first round of the `for` loop in the run on the sample graph from
vertex 1 to vertex 4 with a binary heap, which inserts vertex 2 with the distance 1. -/
theorem dijkstra_meets_heap_preconditions_witness :
    ((2 : Int) ≤ 2 ∧ (2 : Int) * ((sample_graph.length : Int) - 1) < INT_MAX ∧
      targets_in_range sample_graph ∧ nonneg_weights sample_graph ∧
      sums_below_sentinel sample_graph 1 ∧
      ((1 : Int) ≤ 1 ∧ (1 : Int) ≤ (sample_graph.length : Int) - 1) ∧
      dijkstra_reaches (fun _ => 0) sample_graph 1 4 2
        ([.insert 1 0] ++ (step_event (.loop_head sample_start)).toList)
        (dijkstra_step sample_graph 4 (.loop_head sample_start)) ∧
      step_event (dijkstra_step sample_graph 4 (.loop_head sample_start)) =
        some (.insert 2 1)) ∧
    ∃ s s', (dijkstra_step sample_graph 4 (.loop_head sample_start)).state = some s ∧
      (dijkstra_step sample_graph 4
        (dijkstra_step sample_graph 4 (.loop_head sample_start))).state = some s' ∧
      s.Q.valid ∧ s.Q.capacity = (sample_graph.length : Int) ∧
      s.Q.size ≤ (sample_graph.length : Int) - 1 ∧ s.Q.size < s.Q.capacity ∧
      (inserted ([.insert 1 0] ++ (step_event (.loop_head sample_start)).toList)).Nodup ∧
      (∀ u d, step_event (dijkstra_step sample_graph 4 (.loop_head sample_start)) =
          some (.insert u d) →
        s.Q.isInHeap u = false ∧
        u ∉ inserted ([.insert 1 0] ++ (step_event (.loop_head sample_start)).toList) ∧
        (1 ≤ u ∧ u ≤ (sample_graph.length : Int) - 1) ∧ s'.Q.size = s.Q.size + 1) ∧
      (∀ u d, step_event (dijkstra_step sample_graph 4 (.loop_head sample_start)) =
          some (.update u d) →
        s.Q.isInHeap u = true ∧ d < s.Q.getDistance u ∧ s'.Q.getDistance u = d) ∧
      (∀ x, step_event (dijkstra_step sample_graph 4 (.loop_head sample_start)) =
          some (.extract x) →
        s.Q.isEmpty = false ∧ s.Q.getMin = .ok x ∧ ∃ Q1, s.Q.deleteMin = .ok Q1) ∧
      step_in_bounds (dijkstra_step sample_graph 4 (.loop_head sample_start)) :=
  ⟨⟨by decide, by decide, sample_graph_targets, sample_graph_nonneg, sample_graph_sums,
      ⟨by decide, by decide⟩, (sample_start_reached 4).step, by decide⟩,
    (dijkstra_meets_heap_preconditions (fun _ => 0) sample_graph 1 4 2 (by decide) (by decide)
      sample_graph_targets sample_graph_nonneg sample_graph_sums ⟨by decide, by decide⟩ _ _
      (sample_start_reached 4).step).1⟩

/-! ## A bound on the weights that excludes overflow and the sentinel -/

theorem weights_in_nonneg (g : graph) {W : Int} (hW : weights_in g W) : nonneg_weights g :=
  fun row hrow e he => (hW row hrow e he).1

theorem path_vertices_range (g : graph) (htr : targets_in_range g) {src v w : Int}
    {vs : List Int} (hsrc : 1 ≤ src ∧ src < (g.length : Int)) (hp : path g src v vs w) :
    ∀ x ∈ vs, 1 ≤ x ∧ x < (g.length : Int) := by
  induction hp with
  | nil =>
    intro x hx
    rw [List.mem_singleton] at hx
    rw [hx]; exact hsrc
  | snoc _ he ih =>
    intro x hx
    rcases List.mem_cons.1 hx with h | h
    · rw [h]; exact is_edge_target g htr he
    · exact ih x h

theorem path_weight_bound (g : graph) {W : Int} (hW : weights_in g W) {src v w : Int}
    {vs : List Int} (hp : path g src v vs w) :
    1 ≤ vs.length ∧ 0 ≤ w ∧ (w = 0 ∨ (0 ≤ W ∧ w ≤ ((vs.length : Int) - 1) * W)) := by
  induction hp with
  | nil => exact ⟨by simp, le_refl _, Or.inl rfl⟩
  | @snoc v u c w vs _ he ih =>
    obtain ⟨row, hrow, hmem⟩ := graph_at_mem_row g v (u, c) he.2
    have hc := hW row hrow (u, c) hmem
    simp only at hc
    obtain ⟨h1, h2, h3⟩ := ih
    refine ⟨by simp, by omega, Or.inr ⟨by omega, ?_⟩⟩
    simp only [List.length_cons, Nat.cast_add, Nat.cast_one]
    rcases h3 with h3 | h3
    · have : 0 ≤ ((vs.length : Int) - 1) * W := by
        apply mul_nonneg <;> omega
      nlinarith
    · nlinarith

theorem nodup_range_length {vs : List Int} {L : Int} (hnd : vs.Nodup)
    (hr : ∀ x ∈ vs, 1 ≤ x ∧ x < L) : (vs.length : Int) ≤ L - 1 ∨ vs = [] := by
  by_cases hv : vs = []
  · exact Or.inr hv
  · left
    have hsub : vs.toFinset ⊆ Finset.Icc 1 (L - 1) := by
      intro x hx
      rw [List.mem_toFinset] at hx
      rw [Finset.mem_Icc]
      have := hr x hx
      omega
    have hcard := Finset.card_le_card hsub
    rw [List.toFinset_card_of_nodup hnd, Int.card_Icc] at hcard
    obtain ⟨x, hx⟩ := List.exists_mem_of_ne_nil vs hv
    have := hr x hx
    omega

theorem simple_path_weight_le (g : graph) (htr : targets_in_range g) {W : Int}
    (hW : weights_in g W) {src : Int} (hsrc : 1 ≤ src ∧ src < (g.length : Int)) :
    ∀ v vs w, path g src v vs w → vs.Nodup →
      0 ≤ w ∧ w ≤ ((g.length : Int) - 2) * W ∨ w = 0 := by
  intro v vs w hp hnd
  obtain ⟨h1, h2, h3⟩ := path_weight_bound g hW hp
  rcases h3 with h3 | ⟨h3, h4⟩
  · exact Or.inr h3
  · left
    refine ⟨h2, ?_⟩
    rcases nodup_range_length hnd (path_vertices_range g htr hsrc hp) with h5 | h5
    · have : ((vs.length : Int) - 1) * W ≤ ((g.length : Int) - 2) * W := by
        apply mul_le_mul_of_nonneg_right _ h3
        omega
      omega
    · rw [h5] at h1
      simp at h1

theorem sums_of_weight_bound (g : graph) (htr : targets_in_range g) {W : Int}
    (hW : weights_in g W) {src : Int} (hsrc : 1 ≤ src ∧ src < (g.length : Int))
    (hbound : ((g.length : Int) - 2) * W < INT_MAX) : sums_below_sentinel g src := by
  intro v vs w hp hnd
  rcases simple_path_weight_le g htr hW hsrc v vs w hp hnd with h | h
  · omega
  · rw [h]; decide

/-- Counterexample for C20 as stated, for every `k ≥ 2`: `wide_graph` has 4 vertices, edge
targets in `1..4` and weights in `[0, 3]`, so that `(n-1)*W = 9`, but in the run of
`dijkstra(wide_graph, 1, 4, INT_MAX)` the second extraction runs `heapify_down` at slot 1 of
a heap of three vertices, where `child(1, 0)` has wrapped around to `-2147483648`, and
evaluates `key` at that index of `heap_arr`: what the run computes from there on is not
defined. -/
theorem dijkstra_candidates_counterexample :
    ((2 : Int) ≤ 2147483647 ∧ targets_in_range wide_graph ∧ weights_in wide_graph 3 ∧
      ((wide_graph.length : Int) - 2) * 3 < 2 ^ 31 - 1 ∧
      ((1 : Int) ≤ 1 ∧ (1 : Int) ≤ (wide_graph.length : Int) - 1)) ∧
    ∃ es s, dijkstra_reaches (fun _ => 0) wide_graph 1 4 2147483647 es (.loop_head s) ∧
      s.Q.isEmpty = false ∧ (s.Q.moved_state 0).child 1 0 = -2147483648 ∧
      ¬ step_in_bounds (.loop_head s) := by
  refine ⟨⟨by decide, wide_graph_targets, by unfold weights_in; decide, by decide,
    ⟨by decide, by decide⟩⟩, ?_⟩
  obtain ⟨es, s, h1, -, h2, h3, h4⟩ := wide_graph_out_of_bounds
  exact ⟨es, s, h1, h2, h3, h4⟩

/-- C20, amended: on a graph on the vertices `1..n` with edge targets in `1..n` and all
weights in `[0, W]`, where `(n-1)*W < 2^31 - 1`, from a source in `1..n`, for every
destination and every arity whose child indices fit into an `int` (`k * n < INT_MAX`;
a run exists only for `k ≥ 2`): every step of the run stays within the bounds of the arrays;
whenever a round of the `for` loop meets a target `u` that is not visited, the candidate
`dv + dvu` is the weight of a simple path from `src` to `u`, lies in `[0, (n-1)*W]`, and the
32-bit addition that computes it does not wrap; at every control point the vertices that
have been inserted are exactly those whose stored distance is not `INT_MAX`, and for a
vertex of `0..n` that is not visited the test `du == INT_MAX` holds exactly when the vertex
is not in the heap. -/
theorem dijkstra_candidates_within_bound (mem : Int → Int) (g : graph)
    (src dest k_value : Int) (W : Int)
    (hkn : k_value * ((g.length : Int) - 1) < INT_MAX) (htr : targets_in_range g)
    (hW : weights_in g W)
    (hbound : ((g.length : Int) - 2) * W < 2 ^ 31 - 1)
    (hsrc : 1 ≤ src ∧ src ≤ (g.length : Int) - 1)
    (es : List dijkstra_event) (c : dijkstra_config)
    (hr : dijkstra_reaches mem g src dest k_value es c) :
    step_in_bounds c ∧
    (∀ v e rest s, c = .for_edges v (e :: rest) s → s.visited e.1 = false →
      ∃ vs, path g src e.1 (e.1 :: vs) (s.Q.getDistance v + e.2) ∧ (e.1 :: vs).Nodup ∧
        0 ≤ s.Q.getDistance v + e.2 ∧
        s.Q.getDistance v + e.2 ≤ ((g.length : Int) - 2) * W ∧
        s.Q.getDistance v + e.2 < INT_MAX ∧
        int_add (s.Q.getDistance v) e.2 = s.Q.getDistance v + e.2) ∧
    ∃ s, c.state = some s ∧
      (∀ x, x ∈ inserted es ↔ s.Q.getDistance x ≠ INT_MAX) ∧
      (∀ x, s.visited x = true → s.Q.getDistance x ≠ INT_MAX) ∧
      ∀ x, 0 ≤ x → x ≤ (g.length : Int) - 1 → s.visited x = false →
        (s.Q.getDistance x = INT_MAX ↔ s.Q.isInHeap x = false) := by
  have hb : ((g.length : Int) - 2) * W < INT_MAX := by
    unfold INT_MAX
    norm_num at hbound ⊢
    exact hbound
  have hnn := weights_in_nonneg g hW
  have hsum := sums_of_weight_bound g htr hW (by omega : 1 ≤ src ∧ src < (g.length : Int)) hb
  have hno := collision_free_of_sums mem g src dest k_value hkn htr hnn hsrc hsum
  refine ⟨reaches_in_bounds mem g src dest k_value hkn hsrc htr hno hr, ?_, ?_⟩
  · intro v e rest s hc hvis
    subst hc
    have hstrong := reaches_strong mem g src dest k_value hkn htr hnn hsrc hsum hr
    obtain ⟨vs, h1, h2, h3, h4, h5⟩ := config_candidate g hnn hsum hstrong hvis
    refine ⟨vs, h1, h2, h3, ?_, h4, h5⟩
    rcases simple_path_weight_le g htr hW (by omega : 1 ≤ src ∧ src < (g.length : Int))
      _ _ _ h1 h2 with h | h
    · exact h.2
    · obtain ⟨row, hrow, hmem⟩ := graph_at_mem_row g v e (by
        obtain ⟨done, hdone, -⟩ := hstrong
        rw [← hdone]
        exact List.mem_append_right _ (List.mem_cons_self _ _))
      have hw0 := hW row hrow e hmem
      have : 0 ≤ ((g.length : Int) - 2) * W := by
        apply mul_nonneg <;> omega
      omega
  · obtain ⟨-, s, hcs, hsafe, -, -, hdist, -⟩ :=
      reaches_safe mem g src dest k_value hkn hsrc htr hno hr
    refine ⟨s, hcs, hdist, hsafe.visited_dist, ?_⟩
    · intro x hx0 hxn hvis
      rw [k_heap.isInHeap_false_iff]
      have := hsafe.in_heap x hx0 (by omega)
      unfold k_heap.getDistance
      constructor
      · intro h
        by_contra hcon
        exact (this.1 hcon).2 h
      · intro h
        by_contra hcon
        exact this.2 ⟨hvis, hcon⟩ h

/-- Witness for C20: the sample graph (weights in `[0, 7]`, 4 vertices) at the control point
after the first extraction, where the edges of vertex 1 are about to be examined. -/
theorem dijkstra_candidates_within_bound_witness :
    ((2 : Int) * ((sample_graph.length : Int) - 1) < INT_MAX ∧
      targets_in_range sample_graph ∧ weights_in sample_graph 7 ∧
      ((sample_graph.length : Int) - 2) * 7 < 2 ^ 31 - 1 ∧
      ((1 : Int) ≤ 1 ∧ (1 : Int) ≤ (sample_graph.length : Int) - 1) ∧
      dijkstra_reaches (fun _ => 0) sample_graph 1 4 2
        ([.insert 1 0] ++ (step_event (.loop_head sample_start)).toList)
        (dijkstra_step sample_graph 4 (.loop_head sample_start))) ∧
    ∀ v e rest s,
      dijkstra_step sample_graph 4 (.loop_head sample_start) = .for_edges v (e :: rest) s →
      s.visited e.1 = false →
      ∃ vs, path sample_graph 1 e.1 (e.1 :: vs) (s.Q.getDistance v + e.2) ∧
        (e.1 :: vs).Nodup ∧ 0 ≤ s.Q.getDistance v + e.2 ∧
        s.Q.getDistance v + e.2 ≤ ((sample_graph.length : Int) - 2) * 7 ∧
        s.Q.getDistance v + e.2 < INT_MAX ∧
        int_add (s.Q.getDistance v) e.2 = s.Q.getDistance v + e.2 :=
  ⟨⟨by decide, sample_graph_targets, by unfold weights_in; decide, by decide,
      ⟨by decide, by decide⟩, .step (sample_start_reached 4)⟩,
    (dijkstra_candidates_within_bound (fun _ => 0) sample_graph 1 4 2 7 (by decide)
      sample_graph_targets (by unfold weights_in; decide) (by decide) ⟨by decide, by decide⟩
      _ _ (.step (sample_start_reached 4))).2.1⟩

/-! ## The driver: functional correctness -/

/-- Counterexample for C1 as stated, for every arity `k ≥ 2`: `wide_graph` has 4 vertices,
edge targets in `1..4`, the non-negative weights 1, 2, 3 and path sums of at most 3, and
vertex 4 is reachable from vertex 1, but in the run of `dijkstra(wide_graph, 1, 4, INT_MAX)`
the second extraction runs `heapify_down` at slot 1 of a heap of three vertices, where
`child(1, 0)` has wrapped around to `-2147483648`, and evaluates `key` at that index of
`heap_arr`: the call has no defined result. -/
theorem dijkstra_minimum_counterexample :
    ((2 : Int) ≤ 2147483647 ∧ targets_in_range wide_graph ∧ nonneg_weights wide_graph ∧
      sums_below_sentinel wide_graph 1 ∧
      ((1 : Int) ≤ 1 ∧ (1 : Int) ≤ (wide_graph.length : Int) - 1) ∧
      reachable wide_graph 1 4) ∧
    ∃ es s, dijkstra_reaches (fun _ => 0) wide_graph 1 4 2147483647 es (.loop_head s) ∧
      extractions es = 1 ∧ s.Q.isEmpty = false ∧
      (s.Q.moved_state 0).child 1 0 = -2147483648 ∧ ¬ step_in_bounds (.loop_head s) :=
  ⟨⟨by decide, wide_graph_targets, wide_graph_nonneg, wide_graph_sums, ⟨by decide, by decide⟩,
    wide_graph_reachable⟩, wide_graph_out_of_bounds⟩

/-- C1, amended: for every graph on the vertices `1 .. n` with non-negative edge weights
whose path sums stay below the `INT_MAX` sentinel, every arity `k ≥ 2` whose child indices
fit into an `int` (`k * n < INT_MAX`), every source in `[1, n]` and every destination
reachable from the source, `dijkstra(graph, src, dest, k)` returns (within `n + 1` loop
tests) exactly the minimum total weight over all directed paths from `src` to `dest`, and
every step of the run stays within the bounds of the arrays. -/
theorem dijkstra_returns_minimum_path_weight (fuel : Nat) (mem : Int → Int) (g : graph)
    (src dest k_value : Int) (hk : 2 ≤ k_value)
    (hkn : k_value * ((g.length : Int) - 1) < INT_MAX) (htr : targets_in_range g)
    (hnn : nonneg_weights g) (hsum : sums_below_sentinel g src)
    (hsrc : 1 ≤ src ∧ src ≤ (g.length : Int) - 1) (hreach : reachable g src dest)
    (hf : g.length ≤ fuel) :
    (∃ r, dijkstra fuel mem g src dest k_value = some (.ok r) ∧ is_shortest g src dest r) ∧
    ∀ es c, dijkstra_reaches mem g src dest k_value es c → step_in_bounds c := by
  obtain ⟨r, hr, h1, -⟩ :=
    dijkstra_spec fuel mem g src dest k_value hk hkn htr hnn hsum hsrc hf
  exact ⟨⟨r, hr, h1 hreach⟩, fun es c h => reaches_in_bounds mem g src dest k_value hkn hsrc htr
    (collision_free_of_sums mem g src dest k_value hkn htr hnn hsrc hsum) h⟩

/-- Witness for C1: on the 4-vertex graph with the edges (1→2,1), (1→3,4),
(2→3,2), (2→4,7), (3→4,3), source 1 and destination 4 give 6. -/
theorem dijkstra_returns_minimum_path_weight_witness :
    ((2 : Int) ≤ 2 ∧ (2 : Int) * ((sample_graph.length : Int) - 1) < INT_MAX ∧
      targets_in_range sample_graph ∧ nonneg_weights sample_graph ∧
      sums_below_sentinel sample_graph 1 ∧
      ((1 : Int) ≤ 1 ∧ (1 : Int) ≤ (sample_graph.length : Int) - 1) ∧
      reachable sample_graph 1 4 ∧ sample_graph.length ≤ 5) ∧
    (∃ r, dijkstra 5 (fun _ => 0) sample_graph 1 4 2 = some (.ok r) ∧
      is_shortest sample_graph 1 4 r) ∧
    dijkstra 5 (fun _ => 0) sample_graph 1 4 2 = some (.ok 6) := by
  have hreach : reachable sample_graph 1 4 :=
    ⟨_, _, sample_graph_shortest.1.choose_spec⟩
  have main := (dijkstra_returns_minimum_path_weight 5 (fun _ => 0) sample_graph 1 4 2
    (by decide) (by decide) sample_graph_targets sample_graph_nonneg sample_graph_sums
    ⟨by decide, by decide⟩ hreach (by decide)).1
  refine ⟨⟨by decide, by decide, sample_graph_targets, sample_graph_nonneg, sample_graph_sums,
    ⟨by decide, by decide⟩, hreach, by decide⟩, main, ?_⟩
  obtain ⟨r, hr, hs⟩ := main
  rw [hr, is_shortest_unique sample_graph hs sample_graph_shortest]

/-- Counterexample for C2 as stated (no bound on the path sums, every `k ≥ 2`): on the chain
1 → 2 → 3 → 4 with the non-negative weights `INT_MAX`, `INT_MAX`, 1 vertex 4 is reachable
from 1, yet `dijkstra` returns -1, because the 32-bit sums wrap; and in the run of
`dijkstra(wide_graph, 1, 4, INT_MAX)` the second extraction evaluates `key` at the index
`child(1, 0) = -2147483648` of `heap_arr`, so that the call has no defined result. -/
theorem dijkstra_unreachable_value_counterexample :
    ((2 : Int) ≤ 2 ∧ targets_in_range overflow_graph ∧ nonneg_weights overflow_graph ∧
      ((1 : Int) ≤ 1 ∧ (1 : Int) ≤ (overflow_graph.length : Int) - 1) ∧
      ¬ (dijkstra 5 (fun _ => 0) overflow_graph 1 4 2 = some (.ok (-1)) ↔
          ¬ reachable overflow_graph 1 4)) ∧
    ((2 : Int) ≤ 2147483647 ∧ targets_in_range wide_graph ∧ nonneg_weights wide_graph ∧
      ((1 : Int) ≤ 1 ∧ (1 : Int) ≤ (wide_graph.length : Int) - 1) ∧
      ∃ es s, dijkstra_reaches (fun _ => 0) wide_graph 1 4 2147483647 es (.loop_head s) ∧
        s.Q.isEmpty = false ∧ (s.Q.moved_state 0).child 1 0 = -2147483648 ∧
        ¬ step_in_bounds (.loop_head s)) := by
  refine ⟨⟨by decide, by unfold targets_in_range; decide, by unfold nonneg_weights; decide,
    ⟨by decide, by decide⟩, ?_⟩, by decide, wide_graph_targets, wide_graph_nonneg,
    ⟨by decide, by decide⟩, ?_⟩
  · intro h
    have e12 : is_edge overflow_graph 1 2 2147483647 := ⟨by decide, by decide⟩
    have e23 : is_edge overflow_graph 2 3 2147483647 := ⟨by decide, by decide⟩
    have e34 : is_edge overflow_graph 3 4 1 := ⟨by decide, by decide⟩
    exact h.1 (by decide!) ⟨_, _, path.snoc (path.snoc (path.snoc path.nil e12) e23) e34⟩
  · obtain ⟨es, s, h1, -, h2, h3, h4⟩ := wide_graph_out_of_bounds
    exact ⟨es, s, h1, h2, h3, h4⟩

/-- C2, amended: for every graph on the vertices `1 .. n` with non-negative edge
weights whose path sums stay below the `INT_MAX` sentinel, every `k ≥ 2` whose child indices
fit into an `int` (`k * n < INT_MAX`), every source in `[1, n]` and every destination (in or
outside `1 .. n`), every step of the run stays within the bounds of the arrays, `dijkstra`
returns, and it returns the internal unreachable value -1 if and only if there is no
directed path from `src` to `dest`; the heap then has run empty without `dest` ever being
extracted. -/
theorem dijkstra_unreachable_iff_no_path (fuel : Nat) (mem : Int → Int) (g : graph)
    (src dest k_value : Int) (hk : 2 ≤ k_value)
    (hkn : k_value * ((g.length : Int) - 1) < INT_MAX) (htr : targets_in_range g)
    (hnn : nonneg_weights g) (hsum : sums_below_sentinel g src)
    (hsrc : 1 ≤ src ∧ src ≤ (g.length : Int) - 1) (hf : g.length ≤ fuel) :
    (∀ es c, dijkstra_reaches mem g src dest k_value es c → step_in_bounds c) ∧
    (∃ r, dijkstra fuel mem g src dest k_value = some (.ok r)) ∧
    (dijkstra fuel mem g src dest k_value = some (.ok (-1)) ↔ ¬ reachable g src dest) ∧
    (¬ reachable g src dest →
      ∃ sf, dijkstra_run fuel mem g src dest k_value = some (.ok (-1, sf)) ∧
        sf.Q.isEmpty = true ∧ sf.visited dest = false) := by
  obtain ⟨r, sf, hrun, h1, h2⟩ :=
    dijkstra_run_spec fuel mem g src dest k_value hk hkn htr hnn hsum hsrc hf
  have hr := dijkstra_of_run hrun
  refine ⟨fun es c h => reaches_in_bounds mem g src dest k_value hkn hsrc htr
    (collision_free_of_sums mem g src dest k_value hkn htr hnn hsrc hsum) h,
    ⟨r, hr⟩, ⟨?_, ?_⟩, ?_⟩
  · intro h hreach
    rw [hr] at h
    injection h with h
    injection h with h
    obtain ⟨⟨vs, hp⟩, -⟩ := (h1 hreach).1
    have := path_weight_nonneg g hnn hp
    omega
  · intro hn
    rw [hr, (h2 hn).1]
  · intro hn
    obtain ⟨e, hE, hd⟩ := h2 hn
    exact ⟨sf, by rw [hrun, e], hE, hd⟩

/-- Witness for the amended C2: destination 5 on the 4-vertex sample graph. -/
theorem dijkstra_unreachable_iff_no_path_witness :
    ((2 : Int) ≤ 2 ∧ (2 : Int) * ((sample_graph.length : Int) - 1) < INT_MAX ∧
      targets_in_range sample_graph ∧ nonneg_weights sample_graph ∧
      sums_below_sentinel sample_graph 1 ∧
      ((1 : Int) ≤ 1 ∧ (1 : Int) ≤ (sample_graph.length : Int) - 1) ∧
      sample_graph.length ≤ 5) ∧
    ((∀ es c, dijkstra_reaches (fun _ => 0) sample_graph 1 5 2 es c → step_in_bounds c) ∧
      (∃ r, dijkstra 5 (fun _ => 0) sample_graph 1 5 2 = some (.ok r)) ∧
      (dijkstra 5 (fun _ => 0) sample_graph 1 5 2 = some (.ok (-1)) ↔
        ¬ reachable sample_graph 1 5) ∧
      (¬ reachable sample_graph 1 5 →
        ∃ sf, dijkstra_run 5 (fun _ => 0) sample_graph 1 5 2 = some (.ok (-1, sf)) ∧
          sf.Q.isEmpty = true ∧ sf.visited 5 = false)) ∧
    ¬ reachable sample_graph 1 5 :=
  ⟨⟨by decide, by decide, sample_graph_targets, sample_graph_nonneg, sample_graph_sums,
      ⟨by decide, by decide⟩, by decide⟩,
    dijkstra_unreachable_iff_no_path 5 (fun _ => 0) sample_graph 1 5 2 (by decide) (by decide)
      sample_graph_targets sample_graph_nonneg sample_graph_sums ⟨by decide, by decide⟩
      (by decide),
    sample_graph_unreachable⟩

/-- Counterexample for C3 as stated (no bound on the path sums, every `k ≥ 2`): on a
5-vertex graph with non-negative weights in which the path 1 → 2 has weight exactly `INT_MAX`
(no sum overflows), source 1 and destination 4 give 3 with arity 2 and 0 with arity 3; and
with the arity `INT_MAX` the run of `dijkstra(wide_graph, 1, 4, INT_MAX)` evaluates `key` at
the index `child(1, 0) = -2147483648` of `heap_arr` in its second extraction, so that the
call has no defined result to compare. -/
theorem dijkstra_arity_counterexample :
    ((2 : Int) ≤ 2 ∧ (2 : Int) ≤ 3 ∧ targets_in_range sentinel_graph ∧
      nonneg_weights sentinel_graph ∧
      ((1 : Int) ≤ 1 ∧ (1 : Int) ≤ (sentinel_graph.length : Int) - 1) ∧
      dijkstra 6 (fun _ => 0) sentinel_graph 1 4 2 = some (.ok 3) ∧
      dijkstra 6 (fun _ => 0) sentinel_graph 1 4 3 = some (.ok 0) ∧
      dijkstra 6 (fun _ => 0) sentinel_graph 1 4 2 ≠
        dijkstra 6 (fun _ => 0) sentinel_graph 1 4 3) ∧
    ((2 : Int) ≤ 2147483647 ∧ targets_in_range wide_graph ∧ nonneg_weights wide_graph ∧
      ((1 : Int) ≤ 1 ∧ (1 : Int) ≤ (wide_graph.length : Int) - 1) ∧
      ∃ es s, dijkstra_reaches (fun _ => 0) wide_graph 1 4 2147483647 es (.loop_head s) ∧
        s.Q.isEmpty = false ∧ (s.Q.moved_state 0).child 1 0 = -2147483648 ∧
        ¬ step_in_bounds (.loop_head s)) := by
  refine ⟨⟨by decide, by decide, by unfold targets_in_range; decide,
    by unfold nonneg_weights; decide, ⟨by decide, by decide⟩, by decide!, by decide!,
    by decide!⟩, by decide, wide_graph_targets, wide_graph_nonneg, ⟨by decide, by decide⟩, ?_⟩
  obtain ⟨es, s, h1, -, h2, h3, h4⟩ := wide_graph_out_of_bounds
  exact ⟨es, s, h1, h2, h3, h4⟩

/-- C3, amended: the heap arity never changes the answer on graphs whose path sums stay
below the `INT_MAX` sentinel, among the arities whose child indices fit into an `int`.  For
every graph on the vertices `1 .. n` with non-negative edge weights and such path sums,
every source in `[1, n]`, every destination and every two arities `k1 ≥ 2` and `k2 ≥ 2` with
`k1 * n < INT_MAX` and `k2 * n < INT_MAX`, both runs stay within the bounds of the arrays,
and `dijkstra(graph, src, dest, k1) = dijkstra(graph, src, dest, k2)`. -/
theorem dijkstra_arity_independent (fuel1 fuel2 : Nat) (mem1 mem2 : Int → Int) (g : graph)
    (src dest k1 k2 : Int) (hk1 : 2 ≤ k1) (hk2 : 2 ≤ k2)
    (hkn1 : k1 * ((g.length : Int) - 1) < INT_MAX)
    (hkn2 : k2 * ((g.length : Int) - 1) < INT_MAX) (htr : targets_in_range g)
    (hnn : nonneg_weights g) (hsum : sums_below_sentinel g src)
    (hsrc : 1 ≤ src ∧ src ≤ (g.length : Int) - 1)
    (hf1 : g.length ≤ fuel1) (hf2 : g.length ≤ fuel2) :
    dijkstra fuel1 mem1 g src dest k1 = dijkstra fuel2 mem2 g src dest k2 ∧
    (∃ r, dijkstra fuel1 mem1 g src dest k1 = some (.ok r)) ∧
    (∀ es c, dijkstra_reaches mem1 g src dest k1 es c → step_in_bounds c) ∧
    (∀ es c, dijkstra_reaches mem2 g src dest k2 es c → step_in_bounds c) := by
  obtain ⟨r1, hr1, a1, b1⟩ :=
    dijkstra_spec fuel1 mem1 g src dest k1 hk1 hkn1 htr hnn hsum hsrc hf1
  obtain ⟨r2, hr2, a2, b2⟩ :=
    dijkstra_spec fuel2 mem2 g src dest k2 hk2 hkn2 htr hnn hsum hsrc hf2
  refine ⟨?_, ⟨r1, hr1⟩,
    fun es c h => reaches_in_bounds mem1 g src dest k1 hkn1 hsrc htr
      (collision_free_of_sums mem1 g src dest k1 hkn1 htr hnn hsrc hsum) h,
    fun es c h => reaches_in_bounds mem2 g src dest k2 hkn2 hsrc htr
      (collision_free_of_sums mem2 g src dest k2 hkn2 htr hnn hsrc hsum) h⟩
  rw [hr1, hr2]
  by_cases hreach : reachable g src dest
  · rw [is_shortest_unique g (a1 hreach) (a2 hreach)]
  · rw [b1 hreach, b2 hreach]

/-- Witness for the amended C3: arities 2 and 10 on the sample graph. -/
theorem dijkstra_arity_independent_witness :
    ((2 : Int) ≤ 2 ∧ (2 : Int) ≤ 10 ∧
      (2 : Int) * ((sample_graph.length : Int) - 1) < INT_MAX ∧
      (10 : Int) * ((sample_graph.length : Int) - 1) < INT_MAX ∧
      targets_in_range sample_graph ∧
      nonneg_weights sample_graph ∧ sums_below_sentinel sample_graph 1 ∧
      ((1 : Int) ≤ 1 ∧ (1 : Int) ≤ (sample_graph.length : Int) - 1) ∧
      sample_graph.length ≤ 5) ∧
    dijkstra 5 (fun _ => 0) sample_graph 1 4 2 = dijkstra 5 (fun _ => 0) sample_graph 1 4 10 ∧
    ∃ r, dijkstra 5 (fun _ => 0) sample_graph 1 4 2 = some (.ok r) :=
  ⟨⟨by decide, by decide, by decide, by decide, sample_graph_targets, sample_graph_nonneg,
      sample_graph_sums, ⟨by decide, by decide⟩, by decide⟩,
    (dijkstra_arity_independent 5 5 (fun _ => 0) (fun _ => 0) sample_graph 1 4 2 10 (by decide)
      (by decide) (by decide) (by decide) sample_graph_targets sample_graph_nonneg
      sample_graph_sums ⟨by decide, by decide⟩ (by decide) (by decide)).1,
    (dijkstra_arity_independent 5 5 (fun _ => 0) (fun _ => 0) sample_graph 1 4 2 10 (by decide)
      (by decide) (by decide) (by decide) sample_graph_targets sample_graph_nonneg
      sample_graph_sums ⟨by decide, by decide⟩ (by decide) (by decide)).2.1⟩
